import Mathlib

/-!
Verification of the RustKernal repository against its specification.

Shallow embedding of the relevant kernel modules:
* `Script`  — the PursuitScript value model, binary operators and string
  interpolation (`src/kernel/src/gui/script.rs`).
* `Mouse`   — the PS/2 mouse packet state machine (`src/kernel/src/drivers/mouse.rs`).
* `WinM`    — the window manager's z-order operation (`src/kernel/src/gui/window.rs`).
* `Drives`  — the per-drive filesystem: directory entries, FAT bitmap,
  create/write/read/delete (`src/kernel/src/drivers/drives.rs`).
* `Disp`    — the framebuffer, pixel conversion and the XOR rectangle outline
  (`src/kernel/src/drivers/display/screen.rs`, `color_utils.rs`, `gui/widgets.rs`).

Machine integers are modelled as `Nat`/`Int` with explicit wrap-around
(`% 2^32`, `% 2^64`) exactly where the Rust release build wraps; saturating
subtraction on unsigned values is `Nat.sub`.  `f64` values are modelled as
exact rationals: every claim under scrutiny only exercises values and
operations on which the two agree (small integers and exact fractions), and
the claims themselves are about which variant an operation returns, not about
rounding.  Rust strings that only ever hold filenames are modelled as their
byte sequences (the on-disk format; the spec fixes names to be ASCII, where
the byte-wise and char-wise comparisons of the source coincide).
-/

namespace Script

/-- 2^64, the wrap-around modulus of `usize`/`u64`. -/
def U64 : Nat := 2 ^ 64

/-- Wrapping `i64` arithmetic: reduce an unbounded integer into
`[-2^63, 2^63)`, as a Rust release build does on overflow. -/
def wrap64 (x : Int) : Int := (x + 2 ^ 63) % 2 ^ 64 - 2 ^ 63

/-- `enum Value` from `script.rs` (line 62).  `Float(f64)` carries an exact
rational here; `String` carries its character list. -/
inductive Value where
  | null
  | int (i : Int)
  | float (q : ℚ)
  | bool (b : Bool)
  | str (s : List Char)
  | arr (a : List Value)

/-- Rust's `f64 as i64` cast: truncate toward zero, saturating at the `i64`
range (`q.num.tdiv q.den` is truncation toward zero for a reduced fraction). -/
def ratAsI64 (q : ℚ) : Int :=
  max (-(2 ^ 63)) (min (2 ^ 63 - 1) (q.num.tdiv q.den))

/-- `Value::to_int` (script.rs line 100). -/
def Value.to_int : Value → Int
  | .int i => i
  | .float q => ratAsI64 q
  | .bool b => if b then 1 else 0
  | _ => 0

/-- `Value::is_truthy` (script.rs line 88). -/
def Value.is_truthy : Value → Bool
  | .null => false
  | .int i => i != 0
  | .float q => q != 0
  | .bool b => b
  | .str s => !s.isEmpty
  | .arr a => !a.isEmpty

/-- Structural equality of values, as Rust's `#[derive(PartialEq)]`
produces (on `f64` the derive compares IEEE values; on the exact-rational
model this is structural equality — the difference only shows on NaN,
which no modelled computation produces). -/
def Value.beq : Value → Value → Bool
  | .null, .null => true
  | .int a, .int b => a == b
  | .float a, .float b => a == b
  | .bool a, .bool b => a == b
  | .str a, .str b => a == b
  | .arr [], .arr [] => true
  | .arr (x :: xs), .arr (y :: ys) => Value.beq x y && Value.beq (.arr xs) (.arr ys)
  | _, _ => false

/-- `enum BinOperator` from `script.rs`. -/
inductive BinOperator where
  | add | sub | mul | div | mod | eq | ne | lt | gt | le | ge | and | or

/-- `ScriptEngine::apply_binop` (script.rs lines 313-348).  `a as f64` on the
small integers involved is exact, hence the plain rational coercion. -/
def apply_binop (left : Value) (op : BinOperator) (right : Value) : Value :=
  match op with
  | .add =>
    match left, right with
    | .int a, .int b => .int (wrap64 (a + b))
    | .float a, .float b => .float (a + b)
    | .str a, .str b => .str (a ++ b)
    | .int a, .float b => .float ((a : ℚ) + b)
    | .float a, .int b => .float (a + (b : ℚ))
    | _, _ => .int (wrap64 (left.to_int + right.to_int))
  | .sub => .int (wrap64 (left.to_int - right.to_int))
  | .mul => .int (wrap64 (left.to_int * right.to_int))
  | .div =>
    let r := right.to_int
    if r = 0 then .int 0 else .int (wrap64 (left.to_int.tdiv r))
  | .mod =>
    let r := right.to_int
    if r = 0 then .int 0 else .int (wrap64 (left.to_int.tmod r))
  | .eq => .bool (Value.beq left right)
  | .ne => .bool (!Value.beq left right)
  | .lt => .bool (decide (left.to_int < right.to_int))
  | .gt => .bool (decide (left.to_int > right.to_int))
  | .le => .bool (decide (left.to_int ≤ right.to_int))
  | .ge => .bool (decide (left.to_int ≥ right.to_int))
  | .and => .bool (left.is_truthy && right.is_truthy)
  | .or => .bool (left.is_truthy || right.is_truthy)

/-- `true` exactly on the `Float` variant. -/
def Value.isFloat : Value → Bool
  | .float _ => true
  | _ => false

/-- `Vec<String>::join(", ")`, used by the array display. -/
def commaJoin : List (List Char) → List Char
  | [] => []
  | [x] => x
  | x :: xs => x ++ (", ".data) ++ commaJoin xs

/-- `Value::to_display` (script.rs line 73).  Integer display agrees with
Rust's `format!("{}", i)`; float display is not needed by any claim and is
rendered by `toString` on the rational. -/
def Value.to_display : Value → List Char
  | .null => "null".data
  | .int i => (toString i).data
  | .float q => (toString q).data
  | .bool b => if b then "true".data else "false".data
  | .str s => s
  | .arr a => '[' :: commaJoin (a.attach.map fun x => Value.to_display x.1) ++ "]".data
decreasing_by
  simp_wf
  have := List.sizeOf_lt_of_mem x.2
  omega

/-- The engine's `variables: BTreeMap<String, Value>` as an association
list; `get_var` is first-match lookup. -/
def lookupVar (vars : List (List Char × Value)) (name : List Char) : Option Value :=
  match vars with
  | [] => none
  | (k, v) :: rest => if k = name then some v else lookupVar rest name

/-- What `interpolate` emits once a complete variable name has been
collected: the displayed value when bound, the literal `{name}` otherwise
(script.rs lines 663-670). -/
def renderVar (vars : List (List Char × Value)) (name : List Char) : List Char :=
  match lookupVar vars name with
  | some v => v.to_display
  | none => '{' :: name ++ "\x7d".data

/-- `ScriptEngine::interpolate` (script.rs lines 648-677) as a character
state machine: `none` is the outer scan, `some acc` is the inner
name-collecting `while` loop with the (reversed) name collected so far.
At end of input inside a name the source also performs the lookup, which
is exactly the `[], some acc` case. -/
def interpGo (vars : List (List Char × Value)) : List Char → Option (List Char) → List Char
  | [], none => []
  | [], some acc => renderVar vars acc.reverse
  | c :: cs, none =>
    if c = '{' then interpGo vars cs (some [])
    else c :: interpGo vars cs none
  | c :: cs, some acc =>
    if c = '}' then renderVar vars acc.reverse ++ interpGo vars cs none
    else interpGo vars cs (some (c :: acc))

/-- `ScriptEngine::interpolate`. -/
def interpolate (vars : List (List Char × Value)) (text : List Char) : List Char :=
  interpGo vars text none

end Script

namespace Mouse

/-- Rust's `u32 as i32` / `usize as i32` cast (two's complement wrap). -/
def i32cast (n : Nat) : Int :=
  ((n % 2 ^ 32 : Nat) : Int) - (if n % 2 ^ 32 < 2 ^ 31 then 0 else 2 ^ 32)

/-- The atomic mouse state of `mouse.rs` (lines 11-18): position, bounds,
buttons, the 3-byte packet buffer and the packet index. -/
structure MouseState where
  x : Int
  y : Int
  maxX : Int
  maxY : Int
  left : Bool
  right : Bool
  idx : Nat
  buf0 : Nat
  buf1 : Nat
  buf2 : Nat

/-- `mouse::init(w, h)` (mouse.rs lines 49-54); only the state stores are
modelled (the port I/O performs no state change visible to `process_byte`). -/
def init (w h : Nat) : MouseState :=
  { x := (i32cast w).tdiv 2, y := (i32cast h).tdiv 2,
    maxX := i32cast w, maxY := i32cast h,
    left := false, right := false, idx := 0,
    buf0 := 0, buf1 := 0, buf2 := 0 }

/-- `PACKET_BUF[idx].store(byte)`.  For `idx ≥ 3` the Rust code would be an
out-of-bounds panic; the state machine keeps `idx < 3`, so the extra case is
unreachable and modelled as the identity. -/
def setBuf (s : MouseState) (i b : Nat) : MouseState :=
  match i with
  | 0 => { s with buf0 := b }
  | 1 => { s with buf1 := b }
  | 2 => { s with buf2 := b }
  | _ => s

/-- Rust's `i32::clamp(lo, hi)` for `lo ≤ hi` (it asserts `lo ≤ hi`). -/
def clampI (v lo hi : Int) : Int := max lo (min v hi)

/-- `mouse::process_byte` (mouse.rs lines 86-125). -/
def process_byte (s : MouseState) (b : Nat) : MouseState :=
  if s.idx = 0 ∧ b &&& 0x08 = 0 then s
  else
    let s1 := setBuf s s.idx b
    if s1.idx = 2 then
      let s2 := { s1 with idx := 0 }
      if s2.buf0 &&& 0xC0 ≠ 0 then s2
      else
        let s3 := { s2 with left := s2.buf0 &&& 0x01 != 0, right := s2.buf0 &&& 0x02 != 0 }
        let dx : Int := (s3.buf1 : Int) - (if s3.buf0 &&& 0x10 ≠ 0 then 256 else 0)
        let dy : Int := (s3.buf2 : Int) - (if s3.buf0 &&& 0x20 ≠ 0 then 256 else 0)
        { s3 with x := clampI (s3.x + dx) 0 (s3.maxX - 1),
                  y := clampI (s3.y - dy) 0 (s3.maxY - 1) }
    else { s1 with idx := s1.idx + 1 }

/-- Feed a byte sequence to the driver after `init w h`. -/
def runBytes (w h : Nat) (bytes : List Nat) : MouseState :=
  bytes.foldl process_byte (init w h)

end Mouse

namespace WinM

/-- `Iterator::position` — first index satisfying the predicate. -/
def position (p : α → Bool) : List α → Option Nat
  | [] => none
  | x :: xs => if p x then some 0 else (position p xs).map (· + 1)

/-- The window manager fields `bring_to_front` touches (window.rs lines
670-673): the z-order array and the live-window count. -/
structure WindowManager where
  z_order : List Nat
  window_count : Nat

/-- `WindowManager::bring_to_front` (window.rs lines 712-729): find the
window in the first `window_count` z-order slots, shift the tail left one
step, put the window at the end. -/
def bring_to_front (s : WindowManager) (window_idx : Nat) : WindowManager :=
  match position (· == window_idx) (s.z_order.take s.window_count) with
  | none => s
  | some p =>
    let zo := (List.range (s.window_count - 1 - p)).foldl
      (fun l j => l.set (p + j) (l.getD (p + j + 1) 0)) s.z_order
    { s with z_order := zo.set (s.window_count - 1) window_idx }

end WinM

namespace Drives

/-- Filesystem constants (drives.rs lines 12-20). -/
def SECTOR_SIZE : Nat := 512
def DATA_START_SECTOR : Nat := 117
def MAX_FILENAME : Nat := 32
def BLOCKS_PER_FILE : Nat := 64
def FAT_BYTES : Nat := 8 * 512
def FAT_BITS : Nat := FAT_BYTES * 8
def U32 : Nat := 2 ^ 32

/-- `DirEntry` (drives.rs line 50): the 32-byte zero-padded name is kept as
a byte list, the `u32` fields as naturals. -/
structure DirEntry where
  name : List Nat
  file_type : Nat
  size : Nat
  first_block : Nat
  block_count : Nat
  created : Nat
  modified : Nat
deriving DecidableEq

/-- `DirEntry::empty()`. -/
def DirEntry.empty : DirEntry :=
  { name := List.replicate 32 0, file_type := 0, size := 0,
    first_block := 0, block_count := 0, created := 0, modified := 0 }

/-- `DirEntry::get_name` — bytes up to the first NUL (drives.rs line 77). -/
def DirEntry.get_name (e : DirEntry) : List Nat := e.name.takeWhile (· != 0)

/-- `DirEntry::set_name` — zero the array, copy at most 31 bytes
(drives.rs line 86). -/
def DirEntry.set_name (e : DirEntry) (n : List Nat) : DirEntry :=
  { e with name := n.take (MAX_FILENAME - 1)
      ++ List.replicate (MAX_FILENAME - (n.take (MAX_FILENAME - 1)).length) 0 }

def DirEntry.is_empty (e : DirEntry) : Bool := e.file_type == 0
def DirEntry.is_file (e : DirEntry) : Bool := e.file_type == 1
def DirEntry.is_directory (e : DirEntry) : Bool := e.file_type == 2

/-- `Superblock` (drives.rs line 101). -/
structure Superblock where
  magic : Nat
  version : Nat
  total_blocks : Nat
  free_blocks : Nat
  total_entries : Nat
  used_entries : Nat
  block_size : Nat
deriving DecidableEq

/-- `Superblock::new()` (drives.rs line 113). -/
def Superblock.new : Superblock :=
  { magic := 0x52534653, version := 1, total_blocks := 4096,
    free_blocks := 4096, total_entries := 128, used_entries := 0,
    block_size := 512 }

/-- `MountedDrive`'s cached filesystem state plus the drive's sectors.
The disk is a map from sector number to its byte content (a sector read
is normalised to 512 bytes). -/
structure MountedDrive where
  superblock : Superblock
  fat : Nat → Nat
  entries : List DirEntry
  disk : Nat → List Nat

/-- Little-endian bytes of a `u32`. -/
def le4 (n : Nat) : List Nat :=
  [n % 256, n / 2 ^ 8 % 256, n / 2 ^ 16 % 256, n / 2 ^ 24 % 256]

/-- The 64-byte on-disk image of a directory entry (`#[repr(C, packed)]`). -/
def DirEntry.serialize (e : DirEntry) : List Nat :=
  (e.name.take 32 ++ List.replicate (32 - e.name.length) 0)
    ++ [e.file_type % 256] ++ [0, 0, 0]
    ++ le4 e.size ++ le4 e.first_block ++ le4 e.block_count
    ++ le4 e.created ++ le4 e.modified ++ List.replicate 8 0

/-- The on-disk image of the superblock (sector 100). -/
def Superblock.serialize (sb : Superblock) : List Nat :=
  le4 sb.magic ++ le4 sb.version ++ le4 sb.total_blocks ++ le4 sb.free_blocks
    ++ le4 sb.total_entries ++ le4 sb.used_entries ++ le4 sb.block_size
    ++ List.replicate 484 0

/-- One FAT sector (sectors 101-108). -/
def fatSector (s : MountedDrive) (i : Nat) : List Nat :=
  (List.range 512).map fun j => s.fat (i * 512 + j)

/-- One directory sector (sectors 109-116), 8 entries of 64 bytes. -/
def dirSector (s : MountedDrive) (i : Nat) : List Nat :=
  ((List.range 8).map fun j => (s.entries.getD (i * 8 + j) DirEntry.empty).serialize).flatten

/-- `MountedDrive::save_to_disk` (drives.rs lines 211-248): serialize the
cached superblock, FAT and directory to sectors 100-116.  Disk writes are
modelled as infallible (the ATA error paths are outside every claim). -/
def save_to_disk (s : MountedDrive) : MountedDrive :=
  { s with disk := fun sec =>
      if sec = 100 then s.superblock.serialize
      else if 101 ≤ sec ∧ sec ≤ 108 then fatSector s (sec - 101)
      else if 109 ≤ sec ∧ sec ≤ 116 then dirSector s (sec - 109)
      else s.disk sec }

/-- `MountedDrive::format` (drives.rs line 166). -/
def format (s : MountedDrive) : MountedDrive :=
  save_to_disk
    { s with
      superblock := Superblock.new
      fat := fun _ => 0
      entries := List.replicate 128 DirEntry.empty }

/-- The scan of `allocate_block`'s `for` loop: first bit index `≥ i` whose
FAT bit is clear, among the next `fuel` indices. -/
def findFreeFrom (fat : Nat → Nat) : Nat → Nat → Option Nat
  | _, 0 => none
  | i, fuel + 1 =>
    if fat (i / 8) &&& (1 <<< (i % 8)) == 0 then some i
    else findFreeFrom fat (i + 1) fuel

/-- First clear bit of the whole FAT (32768 bits). -/
def findFreeBit (s : MountedDrive) : Option Nat := findFreeFrom s.fat 0 FAT_BITS

/-- `MountedDrive::allocate_block` (drives.rs lines 250-261): set the first
clear bit, `free_blocks.saturating_sub(1)` (Nat subtraction). -/
def allocate_block (s : MountedDrive) : Option (Nat × MountedDrive) :=
  match findFreeBit s with
  | none => none
  | some i => some (i,
      { s with
        fat := fun j => if j = i / 8 then s.fat (i / 8) ||| (1 <<< (i % 8)) else s.fat j
        superblock := { s.superblock with free_blocks := s.superblock.free_blocks - 1 } })

/-- `MountedDrive::free_block` (drives.rs lines 263-270): clear the bit if
the byte index is in range, and increment `free_blocks` (wrapping `u32`). -/
def free_block (s : MountedDrive) (block : Nat) : MountedDrive :=
  if block / 8 < FAT_BYTES then
    { s with
      fat := fun j => if j = block / 8 then s.fat (block / 8) &&& (255 ^^^ (1 <<< (block % 8))) else s.fat j
      superblock := { s.superblock with free_blocks := (s.superblock.free_blocks + 1) % U32 } }
  else s

/-- `Iterator::position` over the entry table. -/
def position (p : DirEntry → Bool) : List DirEntry → Option Nat
  | [] => none
  | x :: xs => if p x then some 0 else (position p xs).map (· + 1)

/-- `MountedDrive::find_free_entry` (drives.rs line 272). -/
def find_free_entry (s : MountedDrive) : Option Nat :=
  position (fun e => e.is_empty) s.entries

/-- `MountedDrive::find_entry` (drives.rs line 276). -/
def find_entry (s : MountedDrive) (name : List Nat) : Option Nat :=
  position (fun e => !e.is_empty && e.get_name == name) s.entries

/-- `MountedDrive::create_file` (drives.rs lines 281-296). -/
def create_file (s : MountedDrive) (name : List Nat) : MountedDrive × Bool :=
  if (find_entry s name).isSome then (s, false)
  else
    match find_free_entry s with
    | none => (s, false)
    | some idx =>
      let e := { DirEntry.empty.set_name name with file_type := 1 }
      let s1 :=
        { s with
          entries := s.entries.set idx e
          superblock := { s.superblock with
                          used_entries := (s.superblock.used_entries + 1) % U32 } }
      (save_to_disk s1, true)

/-- `MountedDrive::create_directory` (drives.rs lines 299-314). -/
def create_directory (s : MountedDrive) (name : List Nat) : MountedDrive × Bool :=
  if (find_entry s name).isSome then (s, false)
  else
    match find_free_entry s with
    | none => (s, false)
    | some idx =>
      let e := { DirEntry.empty.set_name name with file_type := 2 }
      let s1 :=
        { s with
          entries := s.entries.set idx e
          superblock := { s.superblock with
                          used_entries := (s.superblock.used_entries + 1) % U32 } }
      (save_to_disk s1, true)

/-- Normalise a sector to its 512 bytes (a real sector is always 512 bytes;
unwritten modelled sectors read as zero-padded). -/
def sector512 (l : List Nat) : List Nat := l.take 512 ++ List.replicate (512 - l.length) 0

def read_sector (s : MountedDrive) (sec : Nat) : List Nat := sector512 (s.disk sec)

def write_sector (s : MountedDrive) (sec : Nat) (data : List Nat) : MountedDrive :=
  { s with disk := fun j => if j = sec then data else s.disk j }

/-- The 512-byte zero-padded chunk `i` of the data being written
(`sector_data` in `write_file`). -/
def chunk512 (data : List Nat) (i : Nat) : List Nat :=
  let piece := (data.drop (i * 512)).take 512
  piece ++ List.replicate (512 - piece.length) 0

/-- One iteration of `write_file`'s `for _ in 1..blocks_needed` loop:
allocate and ignore the result (`let _ = self.allocate_block()`). -/
def allocDrop (s : MountedDrive) : MountedDrive :=
  match allocate_block s with
  | none => s
  | some (_, t) => t

/-- Free the blocks currently recorded for entry `e`
(the first loop of `write_file` / `delete_file`; `u32` block addition wraps). -/
def freeOldBlocks (s : MountedDrive) (e : DirEntry) : MountedDrive :=
  (List.range e.block_count).foldl (fun t i => free_block t ((e.first_block + i) % U32)) s

/-- `MountedDrive::write_file` (drives.rs lines 317-365).  Sector writes are
infallible in the model, so the disk-error early-return does not arise.
`blocks_needed ≤ 64` here, so its `as u32` cast is the identity. -/
def write_file (s : MountedDrive) (name : List Nat) (data : List Nat) : MountedDrive × Bool :=
  match find_entry s name with
  | none => (s, false)
  | some idx =>
    let e := s.entries.getD idx DirEntry.empty
    let s1 := freeOldBlocks s e
    let blocks_needed := (data.length + SECTOR_SIZE - 1) / SECTOR_SIZE
    if blocks_needed > BLOCKS_PER_FILE then (s1, false)
    else if blocks_needed = 0 then
      let e1 := { e with size := data.length % U32, first_block := 0, block_count := 0 }
      (save_to_disk { s1 with entries := s1.entries.set idx e1 }, true)
    else
      match allocate_block s1 with
      | none => (s1, false)
      | some (first_block, s2) =>
        let s3 := (List.range (blocks_needed - 1)).foldl (fun t _ => allocDrop t) s2
        let s4 := (List.range blocks_needed).foldl
          (fun t i => write_sector t (DATA_START_SECTOR + first_block + i) (chunk512 data i)) s3
        let e1 :=
          { e with
            size := data.length % U32
            first_block := first_block
            block_count := blocks_needed }
        (save_to_disk { s4 with entries := s4.entries.set idx e1 }, true)

/-- Rust `usize` wrapping subtraction `a - b` (release build). -/
def wrapSub64 (a b : Nat) : Nat := (a % Script.U64 + Script.U64 - b % Script.U64) % Script.U64

/-- `MountedDrive::read_file` (drives.rs lines 368-391); sector reads are
infallible in the model. -/
def read_file (s : MountedDrive) (name : List Nat) : Option (List Nat) :=
  match find_entry s name with
  | none => none
  | some idx =>
    let e := s.entries.getD idx DirEntry.empty
    if !e.is_file then none
    else if e.size = 0 then some []
    else some ((List.range e.block_count).foldl (fun acc i =>
      let sector_data := read_sector s ((DATA_START_SECTOR + e.first_block + i) % U32)
      let to_read := min (wrapSub64 e.size acc.length) SECTOR_SIZE
      acc ++ sector_data.take to_read) [])

/-- `MountedDrive::delete_file` (drives.rs lines 394-411). -/
def delete_file (s : MountedDrive) (name : List Nat) : MountedDrive × Bool :=
  match find_entry s name with
  | none => (s, false)
  | some idx =>
    let e := s.entries.getD idx DirEntry.empty
    let s1 := freeOldBlocks s e
    let s2 :=
      { s1 with
        entries := s1.entries.set idx DirEntry.empty
        superblock := { s1.superblock with
                        used_entries := s1.superblock.used_entries - 1 } }
    (save_to_disk s2, true)

/-- The four mutating filesystem calls of the claim. -/
inductive FsOp where
  | create (n : List Nat)
  | mkdir (n : List Nat)
  | write (n : List Nat) (data : List Nat)
  | delete (n : List Nat)

def applyOp (s : MountedDrive) : FsOp → MountedDrive
  | .create n => (create_file s n).1
  | .mkdir n => (create_directory s n).1
  | .write n d => (write_file s n d).1
  | .delete n => (delete_file s n).1

def runOps (s : MountedDrive) (ops : List FsOp) : MountedDrive :=
  ops.foldl applyOp s

/-- Number of non-empty directory entries. -/
def nonEmptyCount (s : MountedDrive) : Nat :=
  (s.entries.filter fun e => !e.is_empty).length

/-- Sum of `block_count` over the non-empty directory entries. -/
def sumBlockCounts (s : MountedDrive) : Nat :=
  ((s.entries.filter fun e => !e.is_empty).map (·.block_count)).sum

/-- The `used_entries` half of the accounting claim. -/
def usedInv (s : MountedDrive) : Prop :=
  s.superblock.used_entries = nonEmptyCount s

/-- The block-accounting half of the claim. -/
def blockInv (s : MountedDrive) : Prop :=
  s.superblock.free_blocks + sumBlockCounts s = s.superblock.total_blocks

/-- FAT bit `i` as `allocate_block` tests it. -/
def fatBitSet (s : MountedDrive) (i : Nat) : Bool :=
  s.fat (i / 8) &&& (1 <<< (i % 8)) != 0

/-- Number of clear bits in the FAT. -/
def freeBitCount (s : MountedDrive) : Nat :=
  ((List.range FAT_BITS).filter fun i => !fatBitSet s i).length

/-- A drive with zeroed FAT/disk and empty directory, used as the concrete
base state of witnesses. -/
def emptyDrive : MountedDrive :=
  { superblock := Superblock.new, fat := fun _ => 0,
    entries := List.replicate 128 DirEntry.empty, disk := fun _ => [] }

/-- A name (the single byte `f`) used by concrete witness states. -/
def fname : List Nat := [102]

/-- A concrete reachable state: format, create `f`, write one byte — the
file `f` owns exactly one block. -/
def oneFileDrive : MountedDrive :=
  (write_file (create_file (format emptyDrive) fname).1 fname [7]).1

/-- Data one byte longer than the 64-block per-file cap. -/
def bigData : List Nat := List.replicate (64 * 512 + 1) 0

/-- A drive whose directory table is completely full (128 files named
`a`): no slot is left for a fresh name. -/
def fullDrive : MountedDrive :=
  { superblock := Superblock.new, fat := fun _ => 0,
    entries := List.replicate 128 { DirEntry.empty.set_name [97] with file_type := 1 },
    disk := fun _ => [] }

end Drives

namespace Disp

/-- `bootloader_api::info::PixelFormat` (the four arms `color_to_bytes`
distinguishes; the `_` catch-all of the source behaves as `Rgb` and is
covered by it). -/
inductive PixelFormat where
  | rgb
  | bgr
  | u8
  | unknown (red_position green_position blue_position : Nat)
deriving DecidableEq

/-- `Screen` (screen.rs line 22): dimensions, the framebuffer byte span
(length plus byte map), the pixel format and the back buffer. -/
structure Screen where
  width : Nat
  height : Nat
  bytes_per_pixel : Nat
  stride : Nat
  fbLen : Nat
  fb : Nat → Nat
  pixel_format : PixelFormat
  bbLen : Nat
  bb : Nat → Nat
  use_back_buffer : Bool

/-- `color_to_bytes` (color_utils.rs): split `0xAARRGGBB`, promote a zero
alpha to `0xFF` when the colour is not pure transparent black, and emit the
format's byte order. -/
def color_to_bytes (hex : Nat) (format : PixelFormat) : Option (List Nat) :=
  let alpha := (hex >>> 24) &&& 255
  let red := (hex >>> 16) &&& 255
  let green := (hex >>> 8) &&& 255
  let blue := hex &&& 255
  let alpha := if alpha = 0 ∧ (red ||| green ||| blue) ≠ 0 then 255 else alpha
  match format with
  | .rgb => some [red, green, blue, alpha]
  | .bgr => some [blue, green, red, alpha]
  | .u8 => some [(red + green + blue) / 3, 0, 0, alpha]
  | .unknown rp gp bp =>
    some [(hex >>> rp) &&& 255, (hex >>> gp) &&& 255, (hex >>> bp) &&& 255, alpha]

/-- Overwrite `bs.length` bytes of `f` starting at offset `o`
(`copy_from_slice`). -/
def updBytes (f : Nat → Nat) (o : Nat) (bs : List Nat) : Nat → Nat :=
  fun i => if o ≤ i ∧ i < o + bs.length then bs.getD (i - o) 0 else f i

/-- `Screen::write_to_buffer` (screen.rs lines 121-136). -/
def write_to_buffer (s : Screen) (x y : Nat) (bytes : List Nat) : Screen × Bool :=
  let offset := (y * s.stride + x) * s.bytes_per_pixel
  if s.use_back_buffer = true ∧ s.bbLen ≠ 0 then
    if offset + s.bytes_per_pixel ≤ s.bbLen then
      ({ s with bb := updBytes s.bb offset (bytes.take s.bytes_per_pixel) }, true)
    else (s, false)
  else
    if offset + s.bytes_per_pixel ≤ s.fbLen then
      ({ s with fb := updBytes s.fb offset (bytes.take s.bytes_per_pixel) }, true)
    else (s, false)

/-- `Screen::write_pixel` (screen.rs lines 97-107). -/
def write_pixel (s : Screen) (x y : Nat) (color : Nat) : Screen × Bool :=
  match color_to_bytes color s.pixel_format with
  | some bytes => if bytes.getD 3 0 = 0 then (s, true) else write_to_buffer s x y bytes
  | none => (s, false)

/-- `Screen::read_pixel` (screen.rs lines 110-119): always reads the
framebuffer (never the back buffer). -/
def read_pixel (s : Screen) (x y : Nat) : Nat :=
  let offset := (y * s.stride + x) * s.bytes_per_pixel
  if offset + s.bytes_per_pixel ≤ s.fbLen then
    0xFF000000 ||| (s.fb (offset + 2) <<< 16) ||| (s.fb (offset + 1) <<< 8) ||| s.fb offset
  else 0

/-- `Rect` (widgets.rs line 8). -/
structure Rect where
  x : Int
  y : Int
  width : Nat
  height : Nat

/-- Rust's `usize as i32` cast. -/
def i32ofNat (n : Nat) : Int := Mouse.i32cast n

/-- Rust's `i32 as usize` cast (sign-extend, reinterpret). -/
def usizeOfInt (i : Int) : Nat := (i % 2 ^ 64).toNat

/-- Wrapping `i32` arithmetic (release build). -/
def wrap32 (x : Int) : Int := (x + 2 ^ 31) % 2 ^ 32 - 2 ^ 31

/-- One XOR toggle of `draw_xor_outline`: read the pixel, write it back
XORed with `0x00FFFFFF`. -/
def xorStep (s : Screen) (x y : Nat) : Screen :=
  (write_pixel s x y (read_pixel s x y ^^^ 0x00FFFFFF)).1

/-- `widgets::draw_xor_outline` (widgets.rs lines 214-276): dashed top,
bottom, left and right edges, each pixel toggled via `xorStep`. -/
def draw_xor_outline (s : Screen) (rect : Rect) : Screen :=
  let sw := s.width
  let sh := s.height
  let top := (List.range rect.width).foldl (fun t px =>
    if px % 4 < 2 then
      let x := usizeOfInt (wrap32 (rect.x + i32ofNat px))
      let y := usizeOfInt rect.y
      if x < sw ∧ y < sh ∧ 0 ≤ rect.y then xorStep t x y else t
    else t) s
  let bottomY := wrap32 (wrap32 (rect.y + i32ofNat rect.height) - 1)
  let bot := if rect.height > 1 ∧ 0 ≤ bottomY then
      (List.range rect.width).foldl (fun t px =>
        if px % 4 < 2 then
          let x := usizeOfInt (wrap32 (rect.x + i32ofNat px))
          let y := usizeOfInt bottomY
          if x < sw ∧ y < sh then xorStep t x y else t
        else t) top
    else top
  let lft := (List.range' 1 (rect.height - 1 - 1)).foldl (fun t py =>
    if py % 4 < 2 then
      let x := usizeOfInt rect.x
      let y := usizeOfInt (wrap32 (rect.y + i32ofNat py))
      if x < sw ∧ y < sh ∧ 0 ≤ rect.x then xorStep t x y else t
    else t) bot
  let rightX := wrap32 (wrap32 (rect.x + i32ofNat rect.width) - 1)
  if rect.width > 1 ∧ 0 ≤ rightX then
    (List.range' 1 (rect.height - 1 - 1)).foldl (fun t py =>
      if py % 4 < 2 then
        let x := usizeOfInt rightX
        let y := usizeOfInt (wrap32 (rect.y + i32ofNat py))
        if x < sw ∧ y < sh then xorStep t x y else t
      else t) lft
  else lft

/-- The pixels `draw_xor_outline` toggles on a `sw × sh` screen for the
rectangle at `(rx, ry)` of size `w × h` with non-negative in-range
coordinates: dashed top and bottom rows and dashed left and right columns
without their corners, each clipped to the screen. -/
def edgeList (sw sh rx ry w h : Nat) : List (Nat × Nat) :=
  ((List.range w).filter (fun px => decide (px % 4 < 2)
      && decide (rx + px < sw ∧ ry < sh))).map (fun px => (rx + px, ry))
  ++ (if h > 1 then
      ((List.range w).filter (fun px => decide (px % 4 < 2)
          && decide (rx + px < sw ∧ ry + h - 1 < sh))).map (fun px => (rx + px, ry + h - 1))
    else [])
  ++ ((List.range' 1 (h - 1 - 1)).filter (fun py => decide (py % 4 < 2)
      && decide (rx < sw ∧ ry + py < sh))).map (fun py => (rx, ry + py))
  ++ (if w > 1 then
      ((List.range' 1 (h - 1 - 1)).filter (fun py => decide (py % 4 < 2)
          && decide (rx + w - 1 < sw ∧ ry + py < sh))).map (fun py => (rx + w - 1, ry + py))
    else [])

/-- Two screens with identical geometry, format and buffering mode (the
fields `draw_xor_outline` can never change). -/
def sameGeom (s t : Screen) : Prop :=
  t.width = s.width ∧ t.height = s.height ∧ t.bytes_per_pixel = s.bytes_per_pixel
  ∧ t.stride = s.stride ∧ t.fbLen = s.fbLen ∧ t.pixel_format = s.pixel_format
  ∧ t.bbLen = s.bbLen ∧ t.use_back_buffer = s.use_back_buffer

/-- Pixel-level equivalence: same geometry and the same framebuffer bytes
except possibly at alpha positions (`i % 4 = 3`), which `read_pixel` never
reads. -/
def pixEquiv (s t : Screen) : Prop :=
  sameGeom s t ∧ ∀ i, i % 4 ≠ 3 → t.fb i = s.fb i

/-- A concrete 1×1 BGR screen (stride 1, 4 bytes/pixel, zeroed buffers,
double buffering off), used by witnesses and counterexamples. -/
def oneByOne : Screen :=
  { width := 1, height := 1, bytes_per_pixel := 4, stride := 1, fbLen := 4,
    fb := fun _ => 0, pixel_format := .bgr, bbLen := 0, bb := fun _ => 0,
    use_back_buffer := false }

/-- A 1×1 BGR screen whose rows are padded: stride 2, so byte offsets
4..7 are padding inside the framebuffer span. -/
def oneByOnePadded : Screen :=
  { width := 1, height := 1, bytes_per_pixel := 4, stride := 2, fbLen := 8,
    fb := fun _ => 0, pixel_format := .bgr, bbLen := 0, bb := fun _ => 0,
    use_back_buffer := false }

/-- `oneByOne` with double buffering enabled (4-byte back buffer). -/
def oneByOneDB : Screen :=
  { oneByOne with bbLen := 4, use_back_buffer := true }

end Disp

/-!  ### Theorems  -/

/-- A concrete rational 5/2, in reduced explicit form (kernel-reducible). -/
def fiveHalves : ℚ := ⟨5, 2, by norm_num, by norm_num⟩

/-- C5 counterexample: `1 - 2.5` evaluates through `to_int` coercion and
yields `Int(-1)`, not a `Float`, refuting the claim that `-` promotes
`Int`/`Float` operands to a floating-point result. -/
theorem apply_binop_sub_not_promoted :
    Script.apply_binop (.int 1) .sub (.float fiveHalves) = .int (-1)
    ∧ (Script.apply_binop (.int 1) .sub (.float fiveHalves)).isFloat = false := by
  constructor <;> rfl

/-- C5 (amended): `+` promotes mixed `Int`/`Float` operands to `Float` (in
either order) and concatenates two `String`s, but `-`, `*`, `/` and `%`
instead convert both operands with `to_int` and return an `Int` (wrapping
`i64` arithmetic, zero divisor yielding `Int(0)`). -/
theorem apply_binop_promotion_amended :
    (∀ (a : Int) (q : ℚ), Script.apply_binop (.int a) .add (.float q) = .float ((a : ℚ) + q))
    ∧ (∀ (a : Int) (q : ℚ), Script.apply_binop (.float q) .add (.int a) = .float (q + (a : ℚ)))
    ∧ (∀ s t : List Char, Script.apply_binop (.str s) .add (.str t) = .str (s ++ t))
    ∧ (∀ (a : Int) (q : ℚ),
        Script.apply_binop (.int a) .sub (.float q) = .int (Script.wrap64 (a - Script.ratAsI64 q)))
    ∧ (∀ (a : Int) (q : ℚ),
        Script.apply_binop (.float q) .sub (.int a) = .int (Script.wrap64 (Script.ratAsI64 q - a)))
    ∧ (∀ (a : Int) (q : ℚ),
        Script.apply_binop (.int a) .mul (.float q) = .int (Script.wrap64 (a * Script.ratAsI64 q)))
    ∧ (∀ (a : Int) (q : ℚ),
        Script.apply_binop (.float q) .mul (.int a) = .int (Script.wrap64 (Script.ratAsI64 q * a)))
    ∧ (∀ (a : Int) (q : ℚ),
        Script.apply_binop (.int a) .div (.float q) =
          if Script.ratAsI64 q = 0 then .int 0
          else .int (Script.wrap64 (a.tdiv (Script.ratAsI64 q))))
    ∧ (∀ (a : Int) (q : ℚ),
        Script.apply_binop (.float q) .div (.int a) =
          if a = 0 then .int 0 else .int (Script.wrap64 ((Script.ratAsI64 q).tdiv a)))
    ∧ (∀ (a : Int) (q : ℚ),
        Script.apply_binop (.int a) .mod (.float q) =
          if Script.ratAsI64 q = 0 then .int 0
          else .int (Script.wrap64 (a.tmod (Script.ratAsI64 q))))
    ∧ (∀ (a : Int) (q : ℚ),
        Script.apply_binop (.float q) .mod (.int a) =
          if a = 0 then .int 0 else .int (Script.wrap64 ((Script.ratAsI64 q).tmod a))) := by
  refine ⟨fun a q => rfl, fun a q => rfl, fun s t => rfl, fun a q => rfl, fun a q => rfl,
    fun a q => rfl, fun a q => rfl, fun a q => rfl, fun a q => rfl, fun a q => rfl, fun a q => rfl⟩

namespace Script

/-- A brace-free prefix passes through the outer scan unchanged. -/
theorem interpGo_append_no_brace (vars : List (List Char × Value)) (p rest : List Char)
    (h : '{' ∉ p) : interpGo vars (p ++ rest) none = p ++ interpGo vars rest none := by
  induction p with
  | nil => rfl
  | cons c cs ih =>
    have hc : c ≠ '{' := fun hc => h (hc ▸ List.mem_cons_self c cs)
    have hcs : '{' ∉ cs := fun hm => h (List.mem_cons_of_mem c hm)
    simp [interpGo, hc, ih hcs]

/-- The inner name-collection loop: a close-brace-free name `w` followed by
`'}'` renders the collected name and resumes the outer scan. -/
theorem interpGo_collect (vars : List (List Char × Value)) (w : List Char)
    (h : '}' ∉ w) (acc rest : List Char) :
    interpGo vars (w ++ '}' :: rest) (some acc) =
      renderVar vars (acc.reverse ++ w) ++ interpGo vars rest none := by
  induction w generalizing acc with
  | nil => simp [interpGo]
  | cons c cs ih =>
    have hc : c ≠ '}' := fun hc => h (hc ▸ List.mem_cons_self c cs)
    have hcs : '}' ∉ cs := fun hm => h (List.mem_cons_of_mem c hm)
    simp [interpGo, hc, ih hcs]

end Script

/-- C6: `interpolate` is the identity on brace-free strings; a bound
placeholder `{v}` with `v ↦ Int 42` renders as `42`; and an unbound
placeholder `{w}` (name without `'}'`) is reproduced verbatim, the scan
resuming after it. -/
theorem interpolate_spec :
    (∀ (vars : List (List Char × Script.Value)) (s : List Char),
        '{' ∉ s → Script.interpolate vars s = s)
    ∧ Script.interpolate [⟨"v".data, .int 42⟩] "x={v}".data = "x=42".data
    ∧ (∀ (vars : List (List Char × Script.Value)) (p w rest : List Char),
        '{' ∉ p → '}' ∉ w → Script.lookupVar vars w = none →
        Script.interpolate vars (p ++ ('{' :: (w ++ ('}' :: rest)))) =
          p ++ ('{' :: (w ++ ('}' :: Script.interpolate vars rest)))) := by
  refine ⟨?_, ?_, ?_⟩
  · intro vars s h
    have := Script.interpGo_append_no_brace vars s [] h
    simpa [Script.interpolate, Script.interpGo] using this
  · show Script.interpGo _ _ _ = _
    simp only [show "x={v}".data = 'x' :: '=' :: '{' :: 'v' :: '}' :: [] from rfl]
    simp [Script.interpGo, Script.renderVar, Script.lookupVar, Script.Value.to_display]
    decide
  · intro vars p w rest hp hw hl
    unfold Script.interpolate
    rw [Script.interpGo_append_no_brace vars p ('{' :: (w ++ ('}' :: rest))) hp]
    have h1 : Script.interpGo vars ('{' :: (w ++ ('}' :: rest))) none =
        Script.interpGo vars (w ++ '}' :: rest) (some []) := by simp [Script.interpGo]
    rw [h1, Script.interpGo_collect vars w hw [] rest]
    simp [Script.renderVar, hl]

/-- C6 witness: the identity and verbatim-preservation parts instantiated at
concrete inputs. -/
theorem interpolate_spec_witness :
    Script.interpolate [] "hello".data = "hello".data
    ∧ Script.interpolate [] ("ab".data ++ ('{' :: ("q".data ++ ('}' :: [])))) =
        "ab".data ++ ('{' :: ("q".data ++ ('}' :: Script.interpolate [] []))) :=
  ⟨interpolate_spec.1 [] _ (by decide),
   interpolate_spec.2.2 [] _ _ _ (by decide) (by decide) rfl⟩

namespace Mouse

/-- The cast of a small screen dimension is the dimension itself. -/
theorem i32cast_of_lt {n : Nat} (h : n < 2 ^ 31) : i32cast n = (n : Int) := by
  unfold i32cast
  rw [Nat.mod_eq_of_lt (by omega), if_pos (by omega : n < 2 ^ 31)]
  simp

/-- `clamp` lands in `[lo, hi]` when `lo ≤ hi`. -/
theorem clampI_mem {v lo hi : Int} (h : lo ≤ hi) :
    lo ≤ clampI v lo hi ∧ clampI v lo hi ≤ hi := by
  unfold clampI
  constructor
  · exact le_max_left lo _
  · exact max_le h (min_le_right v hi)

/-- `setBuf` only touches the packet buffer. -/
theorem setBuf_preserves (s : MouseState) (i b : Nat) :
    (setBuf s i b).x = s.x ∧ (setBuf s i b).y = s.y
    ∧ (setBuf s i b).maxX = s.maxX ∧ (setBuf s i b).maxY = s.maxY ∧ (setBuf s i b).idx = s.idx := by
  rcases i with _ | _ | _ | i <;> exact ⟨rfl, rfl, rfl, rfl, rfl⟩

/-- One `process_byte` step preserves the clamp invariant. -/
theorem process_byte_inv {s : MouseState} {w h : Int} (b : Nat)
    (hw : 1 ≤ w) (hh : 1 ≤ h)
    (hx0 : 0 ≤ s.x) (hx1 : s.x < w) (hy0 : 0 ≤ s.y) (hy1 : s.y < h)
    (hmx : s.maxX = w) (hmy : s.maxY = h) :
    0 ≤ (process_byte s b).x ∧ (process_byte s b).x < w
    ∧ 0 ≤ (process_byte s b).y ∧ (process_byte s b).y < h
    ∧ (process_byte s b).maxX = w ∧ (process_byte s b).maxY = h := by
  obtain ⟨e1, e2, e3, e4, e5⟩ := setBuf_preserves s s.idx b
  unfold process_byte
  split
  · exact ⟨hx0, hx1, hy0, hy1, hmx, hmy⟩
  · simp only
    split
    · split
      · simp only
        exact ⟨e1 ▸ hx0, e1 ▸ hx1, e2 ▸ hy0, e2 ▸ hy1, e3 ▸ hmx, e4 ▸ hmy⟩
      · simp only
        have hcx := @clampI_mem ((setBuf s s.idx b).x +
          ((((setBuf s s.idx b).buf1 : Int)) - if (setBuf s s.idx b).buf0 &&& 0x10 ≠ 0 then 256 else 0))
          0 ((setBuf s s.idx b).maxX - 1) (by rw [e3, hmx]; omega)
        have hcy := @clampI_mem ((setBuf s s.idx b).y -
          ((((setBuf s s.idx b).buf2 : Int)) - if (setBuf s s.idx b).buf0 &&& 0x20 ≠ 0 then 256 else 0))
          0 ((setBuf s s.idx b).maxY - 1) (by rw [e4, hmy]; omega)
        refine ⟨hcx.1, ?_, hcy.1, ?_, e3 ▸ hmx, e4 ▸ hmy⟩
        · have := hcx.2; rw [e3, hmx] at this; omega
        · have := hcy.2; rw [e4, hmy] at this; omega
    · simp only
      exact ⟨e1 ▸ hx0, e1 ▸ hx1, e2 ▸ hy0, e2 ▸ hy1, e3 ▸ hmx, e4 ▸ hmy⟩

/-- The invariant survives any byte sequence. -/
theorem foldl_process_byte_inv {w h : Int} (hw : 1 ≤ w) (hh : 1 ≤ h) :
    ∀ (bytes : List Nat) (s : MouseState),
    0 ≤ s.x → s.x < w → 0 ≤ s.y → s.y < h → s.maxX = w → s.maxY = h →
    0 ≤ (bytes.foldl process_byte s).x ∧ (bytes.foldl process_byte s).x < w
    ∧ 0 ≤ (bytes.foldl process_byte s).y ∧ (bytes.foldl process_byte s).y < h := by
  intro bytes
  induction bytes with
  | nil => intro s h1 h2 h3 h4 h5 h6; exact ⟨h1, h2, h3, h4⟩
  | cons b rest ih =>
    intro s h1 h2 h3 h4 h5 h6
    obtain ⟨g1, g2, g3, g4, g5, g6⟩ := process_byte_inv b hw hh h1 h2 h3 h4 h5 h6
    exact ih (process_byte s b) g1 g2 g3 g4 g5 g6

end Mouse

/-- C7: after `init w h` with `1 ≤ w, h < 2^31`, every byte sequence fed to
`process_byte` leaves the stored position inside the screen:
`0 ≤ x < w` and `0 ≤ y < h`.  (The upper bound `2^31` is the range where
the source's `u32 as i32` casts are value-preserving.) -/
theorem mouse_position_clamped (w h : Nat) (bytes : List Nat)
    (hw1 : 1 ≤ w) (hw2 : w < 2 ^ 31) (hh1 : 1 ≤ h) (hh2 : h < 2 ^ 31) :
    0 ≤ (Mouse.runBytes w h bytes).x ∧ (Mouse.runBytes w h bytes).x < (w : Int)
    ∧ 0 ≤ (Mouse.runBytes w h bytes).y ∧ (Mouse.runBytes w h bytes).y < (h : Int) := by
  have hwI : (1 : Int) ≤ (w : Int) := by exact_mod_cast hw1
  have hhI : (1 : Int) ≤ (h : Int) := by exact_mod_cast hh1
  have hx : (Mouse.init w h).x = ((w / 2 : Nat) : Int) := by
    show (Mouse.i32cast w).tdiv 2 = _
    rw [Mouse.i32cast_of_lt hw2]
    rfl
  have hy : (Mouse.init w h).y = ((h / 2 : Nat) : Int) := by
    show (Mouse.i32cast h).tdiv 2 = _
    rw [Mouse.i32cast_of_lt hh2]
    rfl
  have hmx : (Mouse.init w h).maxX = (w : Int) := Mouse.i32cast_of_lt hw2
  have hmy : (Mouse.init w h).maxY = (h : Int) := Mouse.i32cast_of_lt hh2
  apply Mouse.foldl_process_byte_inv hwI hhI bytes (Mouse.init w h)
  · rw [hx]; positivity
  · rw [hx]; have : w / 2 < w := Nat.div_lt_self (by omega) (by omega); exact_mod_cast this
  · rw [hy]; positivity
  · rw [hy]; have : h / 2 < h := Nat.div_lt_self (by omega) (by omega); exact_mod_cast this
  · exact hmx
  · exact hmy

/-- C7 witness: a concrete 800×600 screen fed one full motion packet. -/
theorem mouse_position_clamped_witness :
    0 ≤ (Mouse.runBytes 800 600 [0x09, 200, 100]).x
    ∧ (Mouse.runBytes 800 600 [0x09, 200, 100]).x < (800 : Int)
    ∧ 0 ≤ (Mouse.runBytes 800 600 [0x09, 200, 100]).y
    ∧ (Mouse.runBytes 800 600 [0x09, 200, 100]).y < (600 : Int) :=
  mouse_position_clamped 800 600 [0x09, 200, 100]
    (by decide) (by decide) (by decide) (by decide)

namespace WinM

/-- `position` finds the first matching index. -/
theorem win_position_eq_some {t : Nat} :
    ∀ {l : List Nat} {p : Nat}, position (· == t) l = some p →
      p < l.length ∧ l.getD p 0 = t ∧ ∀ j < p, l.getD j 0 ≠ t := by
  intro l
  induction l with
  | nil => intro p h; simp [position] at h
  | cons x xs ih =>
    intro p h
    by_cases hx : x = t
    · simp [position, hx] at h
      subst h
      exact ⟨Nat.succ_pos _, by simp [hx], by omega⟩
    · have hx' : (x == t) = false := beq_false_of_ne hx
      simp only [position, hx', Bool.false_eq_true, if_false, Option.map_eq_some'] at h
      obtain ⟨q, hq, rfl⟩ := h
      obtain ⟨h1, h2, h3⟩ := ih hq
      refine ⟨by simpa using h1, by simpa using h2, ?_⟩
      intro j hj
      cases j with
      | zero => simpa using hx
      | succ k => simpa using h3 k (by omega)

/-- `position` misses exactly when the value is absent. -/
theorem win_position_eq_none {t : Nat} {l : List Nat} :
    position (· == t) l = none ↔ t ∉ l := by
  induction l with
  | nil => simp [position]
  | cons x xs ih =>
    by_cases hx : x = t
    · simp [position, hx]
    · have hx' : (x == t) = false := beq_false_of_ne hx
      simp [position, hx', ih, Ne.symm hx]

/-- The left-shift loop of `bring_to_front`: `m` iterations shift the window
`[p, p+m)` one step left (the last index read is `p+m`). -/
theorem shiftFold_eq (zo : List Nat) (p : Nat) :
    ∀ m, p + m < zo.length →
    (List.range m).foldl (fun l j => l.set (p + j) (l.getD (p + j + 1) 0)) zo
      = zo.take p ++ (zo.drop (p + 1)).take m ++ zo.drop (p + m) := by
  intro m
  induction m with
  | zero => intro _; simp
  | succ k ih =>
    intro h
    have hk : p + k < zo.length := by omega
    have hk1 : p + k + 1 < zo.length := by omega
    rw [List.range_succ, List.foldl_append, ih hk]
    set A := zo.take p with hA
    set B := (zo.drop (p + 1)).take k with hB
    have hAlen : A.length = p := by rw [hA, List.length_take]; omega
    have hBlen : B.length = k := by
      rw [hB, List.length_take, List.length_drop]; omega
    have hread : (A ++ B ++ zo.drop (p + k)).getD (p + k + 1) 0 = zo[p + k + 1] := by
      rw [List.append_assoc]
      rw [List.getD_append_right _ _ _ _ (by rw [hAlen]; omega)]
      rw [List.getD_append_right _ _ _ _ (by rw [hBlen, hAlen]; omega)]
      rw [hAlen, hBlen]
      have he : p + k + 1 - p - k = 1 := by omega
      rw [he, List.getD_eq_getElem?_getD, List.getElem?_drop]
      rw [show p + k + 1 = p + k + (0 + 1) from by omega] at hk1
      rw [List.getElem?_eq_getElem (by omega)]
      simp
    simp only [List.foldl_cons, List.foldl_nil]
    rw [hread]
    rw [List.append_assoc, List.set_append, if_neg (by rw [hAlen]; omega)]
    rw [List.set_append, if_neg (by rw [hBlen]; omega)]
    rw [hAlen, hBlen]
    have hidx : p + k - p - k = 0 := by omega
    rw [hidx, List.drop_eq_getElem_cons hk, List.set_cons_zero]
    have htake : (zo.drop (p + 1)).take (k + 1)
        = (zo.drop (p + 1)).take k ++ [zo[p + k + 1]] := by
      rw [List.take_succ, List.getElem?_drop]
      rw [show p + 1 + k = p + k + 1 from by omega]
      rw [List.getElem?_eq_getElem hk1]
      simp
    rw [htake]
    rw [show p + (k + 1) = p + k + 1 from by omega]
    simp [List.append_assoc]

end WinM

/-- C10: when `window_idx` occurs among the first `window_count` z-order
slots, `bring_to_front` permutes that prefix, its last element becomes
`window_idx`, the relative order of all other indices is unchanged (their
`≠ window_idx` filtrations agree), and the slots beyond `window_count` and
the count itself are untouched; when it does not occur, the state is
unchanged. -/
theorem bring_to_front_spec (s : WinM.WindowManager) (idx : Nat)
    (hlen : s.window_count ≤ s.z_order.length) :
    (idx ∈ s.z_order.take s.window_count →
      ((WinM.bring_to_front s idx).z_order.take s.window_count).Perm
          (s.z_order.take s.window_count)
      ∧ ((WinM.bring_to_front s idx).z_order.take s.window_count).getLast? = some idx
      ∧ ((WinM.bring_to_front s idx).z_order.take s.window_count).filter (· != idx)
          = (s.z_order.take s.window_count).filter (· != idx)
      ∧ (WinM.bring_to_front s idx).z_order.drop s.window_count
          = s.z_order.drop s.window_count
      ∧ (WinM.bring_to_front s idx).window_count = s.window_count)
    ∧ (idx ∉ s.z_order.take s.window_count → WinM.bring_to_front s idx = s) := by
  set zo := s.z_order with hzo
  set wc := s.window_count with hwc
  constructor
  · intro hmem
    obtain ⟨p, hp⟩ : ∃ p, WinM.position (· == idx) (zo.take wc) = some p := by
      cases hpos : WinM.position (· == idx) (zo.take wc) with
      | none => exact absurd hmem (WinM.win_position_eq_none.mp hpos)
      | some p => exact ⟨p, rfl⟩
    obtain ⟨hplt, hpval, _⟩ := WinM.win_position_eq_some hp
    rw [List.length_take] at hplt
    have hpwc : p < wc := (lt_min_iff.mp hplt).1
    have hplen : p < zo.length := (lt_min_iff.mp hplt).2
    have hwc1 : wc - 1 < zo.length := by omega
    have hval : zo[p] = idx := by
      rw [List.getD_eq_getElem?_getD, List.getElem?_take, if_pos hpwc] at hpval
      rw [List.getElem?_eq_getElem hplen] at hpval
      simpa using hpval
    have hbtf : (WinM.bring_to_front s idx).z_order
        = zo.take p ++ (zo.drop (p + 1)).take (wc - 1 - p) ++ idx :: zo.drop wc := by
      show (WinM.bring_to_front s idx).z_order = _
      unfold WinM.bring_to_front
      rw [← hzo, ← hwc, hp]
      simp only
      rw [WinM.shiftFold_eq zo p (wc - 1 - p) (by omega)]
      have hstep : p + (wc - 1 - p) = wc - 1 := by omega
      rw [hstep]
      set A := zo.take p with hA
      set B := (zo.drop (p + 1)).take (wc - 1 - p) with hB
      have hAlen : A.length = p := by rw [hA, List.length_take]; omega
      have hBlen : B.length = wc - 1 - p := by
        rw [hB, List.length_take, List.length_drop]; omega
      rw [List.append_assoc, List.set_append, if_neg (by omega)]
      rw [List.set_append, if_neg (by omega)]
      rw [List.drop_eq_getElem_cons hwc1, hAlen, hBlen]
      have hz : wc - 1 - p - (wc - 1 - p) = 0 := by omega
      rw [hz, List.set_cons_zero]
      rw [show wc - 1 + 1 = wc from by omega]
      simp [List.append_assoc]
    -- the prefix of the new z-order and the untouched suffix
    have hABlen : (zo.take p ++ (zo.drop (p + 1)).take (wc - 1 - p)).length = wc - 1 := by
      rw [List.length_append, List.length_take, List.length_take, List.length_drop]
      omega
    have htake : (WinM.bring_to_front s idx).z_order.take wc
        = (zo.take p ++ (zo.drop (p + 1)).take (wc - 1 - p)) ++ [idx] := by
      rw [hbtf]
      have h' := @List.take_append Nat
        (zo.take p ++ (zo.drop (p + 1)).take (wc - 1 - p)) (idx :: zo.drop wc) 1
      rw [hABlen, show wc - 1 + 1 = wc from by omega] at h'
      rw [h']
      simp
    have hdrop : (WinM.bring_to_front s idx).z_order.drop wc = zo.drop wc := by
      rw [hbtf]
      have h' := @List.drop_append Nat
        (zo.take p ++ (zo.drop (p + 1)).take (wc - 1 - p)) (idx :: zo.drop wc) 1
      rw [hABlen, show wc - 1 + 1 = wc from by omega] at h'
      rw [h']
      simp
    -- the original prefix, decomposed around position p
    have hdecomp : zo.take wc
        = zo.take p ++ idx :: ((zo.drop (p + 1)).take (wc - 1 - p)) := by
      conv_lhs => rw [← List.take_append_drop p (zo.take wc)]
      rw [List.take_take, min_eq_left (by omega), List.drop_take]
      rw [List.drop_eq_getElem_cons hplen, hval]
      rw [show wc - p = (wc - 1 - p) + 1 from by omega, List.take_cons]
      rw [Nat.add_sub_cancel]
      omega
    have hcount : (WinM.bring_to_front s idx).window_count = wc := by
      unfold WinM.bring_to_front
      rw [← hzo, ← hwc, hp]
    refine ⟨?_, ?_, ?_, hdrop, hcount⟩
    · rw [htake, hdecomp]
      exact (List.perm_append_singleton idx _).trans List.perm_middle.symm
    · rw [htake, List.getLast?_concat]
    · rw [htake, hdecomp, List.filter_append, List.filter_append, List.filter_cons]
      simp
  · intro hmem
    have hpos : WinM.position (· == idx) (zo.take wc) = none :=
      WinM.win_position_eq_none.mpr hmem
    show WinM.bring_to_front s idx = s
    unfold WinM.bring_to_front
    rw [← hzo, ← hwc, hpos]

/-- C10 witness: a three-window z-order `[3, 1, 2]` (with junk beyond the
count) brought to front at window 3. -/
theorem bring_to_front_spec_witness :
    ((WinM.bring_to_front ⟨[3, 1, 2, 7, 7], 3⟩ 3).z_order.take 3).Perm
        (([3, 1, 2, 7, 7] : List Nat).take 3)
    ∧ ((WinM.bring_to_front ⟨[3, 1, 2, 7, 7], 3⟩ 3).z_order.take 3).getLast? = some 3
    ∧ ((WinM.bring_to_front ⟨[3, 1, 2, 7, 7], 3⟩ 3).z_order.take 3).filter (· != 3)
        = (([3, 1, 2, 7, 7] : List Nat).take 3).filter (· != 3)
    ∧ (WinM.bring_to_front ⟨[3, 1, 2, 7, 7], 3⟩ 3).z_order.drop 3
        = ([3, 1, 2, 7, 7] : List Nat).drop 3
    ∧ (WinM.bring_to_front ⟨[3, 1, 2, 7, 7], 3⟩ 3).window_count = 3 :=
  (bring_to_front_spec ⟨[3, 1, 2, 7, 7], 3⟩ 3 (by decide)).1 (by decide)

namespace Disp

/-- `color_to_bytes` never fails (every format arm returns `some`). -/
theorem color_to_bytes_isSome (c : Nat) (fmt : PixelFormat) :
    (color_to_bytes c fmt).isSome = true := by
  cases fmt <;> rfl

/-- The fourth byte emitted by `color_to_bytes` is the (possibly promoted)
alpha, for every pixel format. -/
theorem color_to_bytes_getD_three (c : Nat) (fmt : PixelFormat) (bs : List Nat)
    (hb : color_to_bytes c fmt = some bs) :
    bs.getD 3 0 =
      if (c >>> 24) &&& 255 = 0
          ∧ ((c >>> 16) &&& 255) ||| ((c >>> 8) &&& 255) ||| (c &&& 255) ≠ 0
        then 255 else (c >>> 24) &&& 255 := by
  unfold color_to_bytes at hb
  cases fmt <;> (injection hb with h; rw [← h]; rfl)

end Disp

/-- C9 counterexample, refuting both halves of the claim. First half: the
colour `0x00FF0000` has alpha byte 0, yet `write_pixel` is not a no-op on
it — `color_to_bytes` promotes the zero alpha of a non-black colour to
`0xFF` and the red byte is written. Second half: on the padded 1×1 screen
(width 1, stride 2) the write at `x = 1 ≥ width` is *not* dropped —
`write_to_buffer` checks only the byte offset against the span, never
`x < width`, so the bytes land in the row padding and the framebuffer
changes. -/
theorem write_pixel_alpha_zero_not_noop :
    (Disp.write_pixel Disp.oneByOne 0 0 0x00FF0000).1.fb 2 = 255
    ∧ Disp.oneByOne.fb 2 = 0
    ∧ (Disp.write_pixel Disp.oneByOne 0 0 0x00FF0000).2 = true
    ∧ Disp.oneByOnePadded.width ≤ 1
    ∧ Disp.oneByOnePadded.fb 4 = 0
    ∧ (Disp.write_pixel Disp.oneByOnePadded 1 0 0xFF123456).1.fb 4 = 0x56
    ∧ (Disp.write_pixel Disp.oneByOnePadded 1 0 0xFF123456).2 = true := by
  refine ⟨rfl, rfl, rfl, by decide, rfl, rfl, rfl⟩

/-- C9 (amended): (a) a colour whose alpha *and* RGB bytes are all zero is a
no-op on both buffers and reports success; (b) a colour with zero alpha but
non-zero RGB has its alpha promoted to `0xFF` by `color_to_bytes` (so it is
written, as the counterexample shows); (c) any write with `y ≥ height`
touches neither buffer (the byte offset falls outside both spans); (d) but
`x ≥ width` does *not* imply a no-op: with row padding (`width ≤ x <
stride`, direct mode) the write succeeds, landing in the padding bytes. -/
theorem write_pixel_framing_amended :
    (∀ (s : Disp.Screen) (x y c : Nat),
        (c >>> 24) &&& 255 = 0 →
        ((c >>> 16) &&& 255) ||| ((c >>> 8) &&& 255) ||| (c &&& 255) = 0 →
        Disp.write_pixel s x y c = (s, true))
    ∧ (∀ (c : Nat) (fmt : Disp.PixelFormat) (bs : List Nat),
        (c >>> 24) &&& 255 = 0 →
        ((c >>> 16) &&& 255) ||| ((c >>> 8) &&& 255) ||| (c &&& 255) ≠ 0 →
        Disp.color_to_bytes c fmt = some bs → bs.getD 3 0 = 255)
    ∧ (∀ (s : Disp.Screen) (x y c : Nat),
        s.fbLen = s.stride * s.height * s.bytes_per_pixel →
        s.bbLen ≤ s.fbLen → 0 < s.bytes_per_pixel → s.height ≤ y →
        (Disp.write_pixel s x y c).1 = s)
    ∧ (∀ (s : Disp.Screen) (x y c : Nat),
        s.use_back_buffer = false →
        s.fbLen = s.stride * s.height * s.bytes_per_pixel →
        s.width ≤ x → x < s.stride → y < s.height →
        (c >>> 24) &&& 255 ≠ 0 →
        (Disp.write_pixel s x y c).2 = true) := by
  refine ⟨?_, ?_, ?_, ?_⟩
  · intro s x y c h1 h2
    unfold Disp.write_pixel Disp.color_to_bytes
    cases s.pixel_format <;> simp [h1, h2]
  · intro c fmt bs h1 h2 hb
    rw [Disp.color_to_bytes_getD_three c fmt bs hb, if_pos ⟨h1, h2⟩]
  · intro s x y c hfl hbl hbpp hy
    have h4 : s.stride * s.height * s.bytes_per_pixel
        = s.height * s.stride * s.bytes_per_pixel := by ring
    have hoff : s.fbLen < (y * s.stride + x) * s.bytes_per_pixel + s.bytes_per_pixel := by
      have h1 : s.height * s.stride ≤ y * s.stride := Nat.mul_le_mul_right _ hy
      have h2 : s.height * s.stride * s.bytes_per_pixel ≤
          (y * s.stride + x) * s.bytes_per_pixel :=
        Nat.mul_le_mul_right _ (le_trans h1 (Nat.le_add_right _ _))
      omega
    unfold Disp.write_pixel
    cases hcb : Disp.color_to_bytes c s.pixel_format with
    | none => rfl
    | some bs =>
      simp only
      split
      · rfl
      · unfold Disp.write_to_buffer
        split
        · rw [if_neg (by omega)]
        · rw [if_neg (by omega)]
  · intro s x y c hub hfl hx hxs hyh ha
    have hoff : (y * s.stride + x) * s.bytes_per_pixel + s.bytes_per_pixel ≤ s.fbLen := by
      have h2 : y * s.stride ≤ (s.height - 1) * s.stride :=
        Nat.mul_le_mul_right _ (by omega)
      have h3 : (s.height - 1) * s.stride = s.height * s.stride - s.stride :=
        Nat.sub_one_mul _ _
      have h4 : s.stride ≤ s.height * s.stride :=
        Nat.le_mul_of_pos_left _ (by omega)
      have h1 : y * s.stride + x + 1 ≤ s.height * s.stride := by omega
      calc (y * s.stride + x) * s.bytes_per_pixel + s.bytes_per_pixel
          = (y * s.stride + x + 1) * s.bytes_per_pixel := by ring
        _ ≤ s.height * s.stride * s.bytes_per_pixel :=
            Nat.mul_le_mul_right _ h1
        _ = s.stride * s.height * s.bytes_per_pixel := by ring
        _ = s.fbLen := hfl.symm
    unfold Disp.write_pixel
    cases hcb : Disp.color_to_bytes c s.pixel_format with
    | none =>
      have := Disp.color_to_bytes_isSome c s.pixel_format
      rw [hcb] at this
      cases this
    | some bs =>
      have hb3 := Disp.color_to_bytes_getD_three c s.pixel_format bs hcb
      have hne : bs.getD 3 0 ≠ 0 := by
        rw [hb3]
        split
        · decide
        · exact ha
      simp only
      rw [if_neg hne]
      unfold Disp.write_to_buffer
      rw [if_neg (by simp [hub])]
      rw [if_pos hoff]

/-- C9 witness: the amended theorem instantiated on concrete 1×1 screens —
transparent black is a no-op, `0x00FF0000` gets alpha `0xFF`, a `y ≥ height`
write is dropped, and an `x ≥ width` write inside the stride succeeds. -/
theorem write_pixel_framing_amended_witness :
    Disp.write_pixel Disp.oneByOne 0 0 0 = (Disp.oneByOne, true)
    ∧ ([0, 0, 255, 255] : List Nat).getD 3 0 = 255
    ∧ (Disp.write_pixel Disp.oneByOne 0 5 123).1 = Disp.oneByOne
    ∧ (Disp.write_pixel Disp.oneByOnePadded 1 0 0xFF123456).2 = true :=
  ⟨write_pixel_framing_amended.1 Disp.oneByOne 0 0 0 (by decide) (by decide),
   write_pixel_framing_amended.2.1 0x00FF0000 .bgr [0, 0, 255, 255]
     (by decide) (by decide) (by decide),
   write_pixel_framing_amended.2.2.1 Disp.oneByOne 0 5 123
     (by decide) (by decide) (by decide) (by decide),
   write_pixel_framing_amended.2.2.2 Disp.oneByOnePadded 1 0 0xFF123456
     (by decide) (by decide) (by decide) (by decide) (by decide) (by decide)⟩

/-- A fold preserves any invariant its step preserves. -/
theorem foldl_inv {α : Type} {β : Type} {P : β → Prop} (f : β → α → β)
    (h : ∀ x a, P x → P (f x a)) :
    ∀ (l : List α) (b : β), P b → P (l.foldl f b) := by
  intro l
  induction l with
  | nil => intro b hb; exact hb
  | cons a rest ih => intro b hb; exact ih (f b a) (h b a hb)

namespace Drives

theorem fatbits_eq : FAT_BITS = 32768 := rfl
theorem fatbytes_eq : FAT_BYTES = 4096 := rfl
theorem u32_eq : U32 = 4294967296 := rfl

theorem one_shiftLeft (k : Nat) : 1 <<< k = 2 ^ k := by
  rw [Nat.shiftLeft_eq, one_mul]

theorem testBit_255 (j : Nat) : Nat.testBit 255 j = decide (j < 8) := by
  have h : (255 : Nat) = 2 ^ 8 - 1 := by norm_num
  rw [h, Nat.testBit_two_pow_sub_one]

/-- Clearing bit `k` of a byte clears exactly bit `k`. -/
theorem land_clear_self (v k : Nat) (hk : k < 8) :
    (v &&& (255 ^^^ (1 <<< k))) &&& (1 <<< k) = 0 := by
  apply Nat.eq_of_testBit_eq
  intro j
  simp only [Nat.testBit_land, Nat.testBit_xor, Nat.zero_testBit,
    one_shiftLeft, Nat.testBit_two_pow, testBit_255]
  by_cases hkj : k = j
  · subst hkj; simp [hk]
  · simp [hkj]

theorem land_clear_other (v k j : Nat) (hk : k < 8) (hj : j < 8) (hne : j ≠ k) :
    (v &&& (255 ^^^ (1 <<< k))) &&& (1 <<< j) = v &&& (1 <<< j) := by
  apply Nat.eq_of_testBit_eq
  intro i
  simp only [Nat.testBit_land, Nat.testBit_xor, one_shiftLeft,
    Nat.testBit_two_pow, testBit_255]
  by_cases hji : j = i
  · subst hji
    have hne' : ¬(k = j) := fun h => hne h.symm
    simp [hne', hj]
  · simp [hji]

theorem lor_set_self (v k : Nat) : (v ||| (1 <<< k)) &&& (1 <<< k) = 1 <<< k := by
  apply Nat.eq_of_testBit_eq
  intro i
  simp only [Nat.testBit_land, Nat.testBit_lor, one_shiftLeft, Nat.testBit_two_pow]
  by_cases hki : k = i <;> simp [hki]

theorem lor_set_other (v k j : Nat) (hne : j ≠ k) :
    (v ||| (1 <<< k)) &&& (1 <<< j) = v &&& (1 <<< j) := by
  apply Nat.eq_of_testBit_eq
  intro i
  simp only [Nat.testBit_land, Nat.testBit_lor, one_shiftLeft, Nat.testBit_two_pow]
  by_cases hji : j = i
  · subst hji
    have hne' : ¬(k = j) := fun h => hne h.symm
    simp [hne']
  · simp [hji]

/-- `free_block` clears exactly the requested bit (for an in-range block). -/
theorem fatBitSet_free_block (s : MountedDrive) (b : Nat) (hb : b < FAT_BITS) (i : Nat) :
    fatBitSet (free_block s b) i = if i = b then false else fatBitSet s i := by
  rw [fatbits_eq] at hb
  have hbyte : b / 8 < FAT_BYTES := by rw [fatbytes_eq]; omega
  unfold free_block fatBitSet
  rw [if_pos hbyte]
  simp only
  by_cases hib : i = b
  · subst hib
    rw [if_pos rfl, land_clear_self _ _ (by omega)]
    simp
  · rw [if_neg hib]
    by_cases hdiv : i / 8 = b / 8
    · have hmod : i % 8 ≠ b % 8 := by omega
      rw [if_pos hdiv, hdiv, land_clear_other _ _ _ (by omega) (by omega) hmod]
    · rw [if_neg hdiv]

/-- `free_block` on an in-range block bumps `free_blocks` (wrapping). -/
theorem free_block_sb (s : MountedDrive) (b : Nat) (hb : b < FAT_BITS) :
    (free_block s b).superblock.free_blocks = (s.superblock.free_blocks + 1) % U32 := by
  rw [fatbits_eq] at hb
  have hbyte : b / 8 < FAT_BYTES := by rw [fatbytes_eq]; omega
  unfold free_block
  rw [if_pos hbyte]

/-- `free_block` never touches entries, disk, or the non-free superblock
fields, in or out of range. -/
theorem free_block_frame (s : MountedDrive) (b : Nat) :
    (free_block s b).superblock.total_blocks = s.superblock.total_blocks
    ∧ (free_block s b).superblock.used_entries = s.superblock.used_entries
    ∧ (free_block s b).entries = s.entries
    ∧ (free_block s b).disk = s.disk := by
  unfold free_block
  split <;> exact ⟨rfl, rfl, rfl, rfl⟩

/-- The freeing loop leaves entries, disk, `total_blocks` and
`used_entries` unchanged. -/
theorem freeOldBlocks_frame (s : MountedDrive) (e : DirEntry) :
    (freeOldBlocks s e).superblock.total_blocks = s.superblock.total_blocks
    ∧ (freeOldBlocks s e).superblock.used_entries = s.superblock.used_entries
    ∧ (freeOldBlocks s e).entries = s.entries
    ∧ (freeOldBlocks s e).disk = s.disk := by
  unfold freeOldBlocks
  refine foldl_inv (P := fun t =>
      t.superblock.total_blocks = s.superblock.total_blocks
      ∧ t.superblock.used_entries = s.superblock.used_entries
      ∧ t.entries = s.entries
      ∧ t.disk = s.disk) _ ?_ _ s ⟨rfl, rfl, rfl, rfl⟩
  intro x a hx
  obtain ⟨h1, h2, h3, h4⟩ := free_block_frame x ((e.first_block + a) % U32)
  exact ⟨h1.trans hx.1, h2.trans hx.2.1, h3.trans hx.2.2.1, h4.trans hx.2.2.2⟩

/-- Accounting of the freeing loop: `free_blocks` goes up by `block_count`
(no `u32` wrap under the stated bounds). -/
theorem freeOldBlocks_free_blocks (s : MountedDrive) (e : DirEntry)
    (hr : e.first_block + e.block_count ≤ FAT_BITS)
    (hw : s.superblock.free_blocks + e.block_count < U32) :
    (freeOldBlocks s e).superblock.free_blocks
      = s.superblock.free_blocks + e.block_count := by
  rw [fatbits_eq] at hr
  rw [u32_eq] at hw
  unfold freeOldBlocks
  suffices H : ∀ n, e.first_block + n ≤ 32768 → s.superblock.free_blocks + n < 4294967296 →
      ((List.range n).foldl (fun t i => free_block t ((e.first_block + i) % U32)) s).superblock.free_blocks
        = s.superblock.free_blocks + n by
    exact H e.block_count hr hw
  intro n
  induction n with
  | zero => intro _ _; simp
  | succ m ih =>
    intro h1 h2
    rw [List.range_succ, List.foldl_append, List.foldl_cons, List.foldl_nil]
    have hmod : (e.first_block + m) % U32 = e.first_block + m := by
      rw [u32_eq]; apply Nat.mod_eq_of_lt; omega
    have hblt : e.first_block + m < FAT_BITS := by rw [fatbits_eq]; omega
    rw [hmod]
    rw [free_block_sb _ _ hblt]
    rw [ih (by omega) (by omega)]
    rw [u32_eq, Nat.mod_eq_of_lt (by omega)]
    omega

/-- The freeing loop clears every bit of the entry's recorded range. -/
theorem freeOldBlocks_clears (s : MountedDrive) (e : DirEntry)
    (hr : e.first_block + e.block_count ≤ FAT_BITS) :
    ∀ i < e.block_count, fatBitSet (freeOldBlocks s e) (e.first_block + i) = false := by
  rw [fatbits_eq] at hr
  unfold freeOldBlocks
  suffices H : ∀ n, e.first_block + n ≤ 32768 →
      ∀ i < n, fatBitSet
        ((List.range n).foldl (fun t i => free_block t ((e.first_block + i) % U32)) s)
        (e.first_block + i) = false by
    exact H e.block_count hr
  intro n
  induction n with
  | zero => intro _ i hi; omega
  | succ m ih =>
    intro h1 i hi
    rw [List.range_succ, List.foldl_append, List.foldl_cons, List.foldl_nil]
    have hmod : (e.first_block + m) % U32 = e.first_block + m := by
      rw [u32_eq]; apply Nat.mod_eq_of_lt; omega
    rw [hmod, fatBitSet_free_block _ _ (by rw [fatbits_eq]; omega)]
    by_cases him : i = m
    · rw [if_pos (by omega)]
    · rw [if_neg (by omega)]
      exact ih (by omega) i (by omega)

end Drives

/-- C4: an oversize write (`data.len() > 64·512`) to a file that currently
owns blocks returns `false` but has already freed the old blocks: the
recorded bits are cleared, `free_blocks` has grown by the old
`block_count`, while the directory entry (size, first_block, block_count)
is left exactly as it was.  The bounds say the old entry's range lies in
the FAT and the counter does not wrap — true of every entry the code
itself creates. -/
theorem write_file_oversize_mutates (s : Drives.MountedDrive) (n data : List Nat) (idx : Nat)
    (hfind : Drives.find_entry s n = some idx)
    (hcount : 0 < (s.entries.getD idx Drives.DirEntry.empty).block_count)
    (hrange : (s.entries.getD idx Drives.DirEntry.empty).first_block
        + (s.entries.getD idx Drives.DirEntry.empty).block_count ≤ Drives.FAT_BITS)
    (hwrap : s.superblock.free_blocks
        + (s.entries.getD idx Drives.DirEntry.empty).block_count < Drives.U32)
    (hlen : 64 * 512 < data.length) :
    (Drives.write_file s n data).2 = false
    ∧ (Drives.write_file s n data).1.superblock.free_blocks
        = s.superblock.free_blocks + (s.entries.getD idx Drives.DirEntry.empty).block_count
    ∧ (∀ i < (s.entries.getD idx Drives.DirEntry.empty).block_count,
        Drives.fatBitSet (Drives.write_file s n data).1
          ((s.entries.getD idx Drives.DirEntry.empty).first_block + i) = false)
    ∧ (Drives.write_file s n data).1.entries = s.entries := by
  have hbn : (data.length + Drives.SECTOR_SIZE - 1) / Drives.SECTOR_SIZE
      > Drives.BLOCKS_PER_FILE := by
    rw [show Drives.SECTOR_SIZE = 512 from rfl, show Drives.BLOCKS_PER_FILE = 64 from rfl]
    omega
  have hwf : Drives.write_file s n data
      = (Drives.freeOldBlocks s (s.entries.getD idx Drives.DirEntry.empty), false) := by
    unfold Drives.write_file
    rw [hfind]
    simp only [if_pos hbn]
  rw [hwf]
  obtain ⟨-, -, hent, -⟩ :=
    Drives.freeOldBlocks_frame s (s.entries.getD idx Drives.DirEntry.empty)
  exact ⟨rfl,
    Drives.freeOldBlocks_free_blocks s _ hrange hwrap,
    fun i hi => Drives.freeOldBlocks_clears s _ hrange i hi,
    hent⟩

set_option maxRecDepth 16384 in
/-- C4 witness: the reachable one-file state with a one-block file `f`,
written `64·512+1` bytes. -/
theorem write_file_oversize_mutates_witness :
    (Drives.write_file Drives.oneFileDrive Drives.fname Drives.bigData).2 = false
    ∧ (Drives.write_file Drives.oneFileDrive Drives.fname Drives.bigData).1.superblock.free_blocks
        = Drives.oneFileDrive.superblock.free_blocks
          + (Drives.oneFileDrive.entries.getD 0 Drives.DirEntry.empty).block_count
    ∧ Drives.fatBitSet (Drives.write_file Drives.oneFileDrive Drives.fname Drives.bigData).1
        ((Drives.oneFileDrive.entries.getD 0 Drives.DirEntry.empty).first_block + 0) = false
    ∧ (Drives.write_file Drives.oneFileDrive Drives.fname Drives.bigData).1.entries
        = Drives.oneFileDrive.entries := by
  obtain ⟨h1, h2, h3, h4⟩ := write_file_oversize_mutates Drives.oneFileDrive Drives.fname
    Drives.bigData 0 (by decide) (by decide) (by decide) (by decide)
    (by rw [show Drives.bigData = List.replicate (64 * 512 + 1) 0 from rfl,
            List.length_replicate]
        omega)
  exact ⟨h1, h2, h3 0 (by decide), h4⟩

namespace Drives

/-- `position` (over the entry table) finds the first matching index. -/
theorem position_eq_some {pred : DirEntry → Bool} :
    ∀ {l : List DirEntry} {p : Nat}, position pred l = some p →
      p < l.length ∧ pred (l.getD p DirEntry.empty) = true
        ∧ ∀ j < p, pred (l.getD j DirEntry.empty) = false := by
  intro l
  induction l with
  | nil => intro p h; simp [position] at h
  | cons x xs ih =>
    intro p h
    by_cases hx : pred x = true
    · simp [position, hx] at h
      subst h
      exact ⟨Nat.succ_pos _, by simpa using hx, by omega⟩
    · simp only [position, hx, Bool.false_eq_true, if_false, Option.map_eq_some'] at h
      obtain ⟨q, hq, rfl⟩ := h
      obtain ⟨h1, h2, h3⟩ := ih hq
      refine ⟨by simpa using h1, by simpa using h2, ?_⟩
      intro j hj
      cases j with
      | zero => simpa using hx
      | succ k => simpa using h3 k (by omega)

/-- `position` misses exactly when no element matches. -/
theorem position_eq_none {pred : DirEntry → Bool} :
    ∀ {l : List DirEntry}, position pred l = none ↔ ∀ e ∈ l, pred e = false := by
  intro l
  induction l with
  | nil => simp [position]
  | cons x xs ih =>
    by_cases hx : pred x = true
    · simp [position, hx]
    · simp only [position, hx, Bool.false_eq_true, if_false, Option.map_eq_none']
      simp only [Bool.not_eq_true] at hx
      simp [ih, hx]

/-- Converse: the first matching index is what `position` returns. -/
theorem position_eq_some_of {pred : DirEntry → Bool} :
    ∀ (l : List DirEntry) (i : Nat), i < l.length → pred (l.getD i DirEntry.empty) = true →
      (∀ j < i, pred (l.getD j DirEntry.empty) = false) → position pred l = some i := by
  intro l
  induction l with
  | nil => intro i hi _ _; simp at hi
  | cons x xs ih =>
    intro i hi hp hmin
    cases i with
    | zero => simp [position, hp.symm ▸ hp]; simpa using hp
    | succ k =>
      have hx : pred x = false := by simpa using hmin 0 (by omega)
      simp only [position, hx, Bool.false_eq_true, if_false]
      rw [ih k (by simpa using hi) (by simpa using hp)
        (fun j hj => by simpa using hmin (j + 1) (by omega))]
      rfl

/-- Replacing one list element, seen through `map`-`sum`. -/
theorem mapSum_set (f : DirEntry → Nat) :
    ∀ (l : List DirEntry) (idx : Nat) (e : DirEntry), idx < l.length →
      ((l.set idx e).map f).sum + f (l.getD idx DirEntry.empty)
        = (l.map f).sum + f e := by
  intro l
  induction l with
  | nil => intro idx e h; simp at h
  | cons x xs ih =>
    intro idx e h
    cases idx with
    | zero => simp [List.set]; omega
    | succ k =>
      simp only [List.set, List.map_cons, List.sum_cons, List.getD_cons_succ]
      have := ih k e (by simpa using h)
      omega

/-- An element is at most the whole `map`-`sum`. -/
theorem mapSum_getD_le (f : DirEntry → Nat) :
    ∀ (l : List DirEntry) (idx : Nat), idx < l.length →
      f (l.getD idx DirEntry.empty) ≤ (l.map f).sum := by
  intro l
  induction l with
  | nil => intro idx h; simp at h
  | cons x xs ih =>
    intro idx h
    cases idx with
    | zero => simp
    | succ k =>
      simp only [List.getD_cons_succ, List.map_cons, List.sum_cons]
      have := ih k (by simpa using h)
      omega

/-- The non-empty entry count as a `map`-`sum`. -/
theorem filter_length_eq_mapSum :
    ∀ l : List DirEntry,
      (l.filter fun e => !e.is_empty).length
        = (l.map fun e => if e.is_empty then 0 else 1).sum := by
  intro l
  induction l with
  | nil => rfl
  | cons x xs ih =>
    rw [List.filter_cons, List.map_cons, List.sum_cons]
    by_cases hx : x.is_empty = true <;> simp [hx, ih] <;> omega

/-- The block-count sum over non-empty entries as a `map`-`sum`. -/
theorem filter_blockSum_eq_mapSum :
    ∀ l : List DirEntry,
      ((l.filter fun e => !e.is_empty).map (·.block_count)).sum
        = (l.map fun e => if e.is_empty then 0 else e.block_count).sum := by
  intro l
  induction l with
  | nil => rfl
  | cons x xs ih =>
    rw [List.filter_cons, List.map_cons, List.sum_cons]
    by_cases hx : x.is_empty = true <;> simp [hx, ih]

end Drives

namespace Drives

theorem save_to_disk_frame (s : MountedDrive) :
    (save_to_disk s).entries = s.entries ∧ (save_to_disk s).superblock = s.superblock
    ∧ (save_to_disk s).fat = s.fat :=
  ⟨rfl, rfl, rfl⟩

theorem write_sector_frame (s : MountedDrive) (sec : Nat) (d : List Nat) :
    (write_sector s sec d).entries = s.entries
    ∧ (write_sector s sec d).superblock = s.superblock
    ∧ (write_sector s sec d).fat = s.fat :=
  ⟨rfl, rfl, rfl⟩

/-- `findFreeFrom` characterisation: a hit is the first clear bit of its
scan window. -/
theorem findFreeFrom_some {fat : Nat → Nat} :
    ∀ {fuel i b : Nat}, findFreeFrom fat i fuel = some b →
      i ≤ b ∧ b < i + fuel ∧ fat (b / 8) &&& (1 <<< (b % 8)) = 0
        ∧ ∀ j, i ≤ j → j < b → fat (j / 8) &&& (1 <<< (j % 8)) ≠ 0 := by
  intro fuel
  induction fuel with
  | zero => intro i b h; simp [findFreeFrom] at h
  | succ f ih =>
    intro i b h
    unfold findFreeFrom at h
    by_cases hbit : fat (i / 8) &&& (1 <<< (i % 8)) = 0
    · simp only [hbit, beq_self_eq_true, if_true] at h
      cases h
      exact ⟨le_refl _, by omega, hbit, fun j h1 h2 => by omega⟩
    · have hbit' : (fat (i / 8) &&& (1 <<< (i % 8)) == 0) = false := by
        simpa using hbit
      simp only [hbit', Bool.false_eq_true, if_false] at h
      obtain ⟨h1, h2, h3, h4⟩ := ih h
      refine ⟨by omega, by omega, h3, ?_⟩
      intro j hj1 hj2
      by_cases hji : j = i
      · subst hji; exact hbit
      · exact h4 j (by omega) hj2

/-- A failed scan means every bit of the window is set. -/
theorem findFreeFrom_none {fat : Nat → Nat} :
    ∀ {fuel i : Nat}, findFreeFrom fat i fuel = none →
      ∀ j, i ≤ j → j < i + fuel → fat (j / 8) &&& (1 <<< (j % 8)) ≠ 0 := by
  intro fuel
  induction fuel with
  | zero => intro i _ j h1 h2; omega
  | succ f ih =>
    intro i h j h1 h2
    unfold findFreeFrom at h
    by_cases hbit : fat (i / 8) &&& (1 <<< (i % 8)) = 0
    · simp [hbit] at h
    · have hbit' : (fat (i / 8) &&& (1 <<< (i % 8)) == 0) = false := by
        simpa using hbit
      simp only [hbit', Bool.false_eq_true, if_false] at h
      by_cases hji : j = i
      · subst hji; exact hbit
      · exact ih h j (by omega) (by omega)

/-- `allocate_block` success: returns the first clear bit, sets exactly it,
decrements `free_blocks` by one (saturating) and touches nothing else. -/
theorem allocate_block_some {s : MountedDrive} {b : Nat} {t : MountedDrive}
    (h : allocate_block s = some (b, t)) :
    b < FAT_BITS ∧ fatBitSet s b = false
    ∧ (∀ k, fatBitSet t k = if k = b then true else fatBitSet s k)
    ∧ t.superblock.free_blocks = s.superblock.free_blocks - 1
    ∧ t.superblock.total_blocks = s.superblock.total_blocks
    ∧ t.superblock.used_entries = s.superblock.used_entries
    ∧ t.entries = s.entries ∧ t.disk = s.disk := by
  unfold allocate_block at h
  cases hf : findFreeBit s with
  | none => rw [hf] at h; cases h
  | some i =>
    rw [hf] at h
    simp only [Option.some_inj, Prod.mk.injEq] at h
    obtain ⟨rfl, rfl⟩ := h
    obtain ⟨-, hlt, hclear, -⟩ := findFreeFrom_some hf
    refine ⟨by simpa using hlt, by simp [fatBitSet, hclear], ?_, rfl, rfl, rfl, rfl, rfl⟩
    intro k
    unfold fatBitSet
    simp only
    by_cases hki : k = i
    · subst hki
      rw [if_pos rfl, if_pos rfl, lor_set_self]
      simp only [one_shiftLeft, bne_iff_ne, ne_eq]
      positivity
    · rw [if_neg hki]
      by_cases hdiv : k / 8 = i / 8
      · have hmod : k % 8 ≠ i % 8 := by omega
        rw [if_pos hdiv, hdiv, lor_set_other _ _ _ hmod]
      · rw [if_neg hdiv]

/-- If the scan fails, the FAT has no clear bit. -/
theorem findFreeBit_none_count {s : MountedDrive} (h : findFreeBit s = none) :
    freeBitCount s = 0 := by
  unfold freeBitCount
  rw [List.length_eq_zero, List.filter_eq_nil_iff]
  intro a ha
  rw [List.mem_range] at ha
  have := findFreeFrom_none h a (by omega) (by omega)
  simp [fatBitSet, this]

/-- Flipping one satisfied element of a duplicate-free list to unsatisfied
drops the filtered length by exactly one. -/
theorem filter_flip_length {p q : Nat → Bool} {b : Nat}
    (hq : ∀ j, q j = if j = b then false else p j) (hpb : p b = true) :
    ∀ {l : List Nat}, l.Nodup → b ∈ l →
      (l.filter q).length + 1 = (l.filter p).length := by
  intro l
  induction l with
  | nil => intro _ h; cases h
  | cons x xs ih =>
    intro hnd hmem
    rw [List.nodup_cons] at hnd
    rw [List.filter_cons, List.filter_cons]
    by_cases hxb : x = b
    · subst hxb
      rw [hq x, if_pos rfl, hpb]
      simp only [Bool.false_eq_true, if_false, if_true, List.length_cons]
      have hcongr : xs.filter q = xs.filter p := by
        apply List.filter_congr
        intro a ha
        rw [hq a, if_neg]
        intro hab
        exact hnd.1 (hab ▸ ha)
      rw [hcongr]
    · have hmem' : b ∈ xs := by
        rcases List.mem_cons.mp hmem with h | h
        · exact absurd h.symm hxb
        · exact h
      rw [hq x, if_neg hxb]
      have hih := ih hnd.2 hmem'
      by_cases hpx : p x = true
      · rw [hpx]
        simp only [if_true, List.length_cons]
        omega
      · have hpx' : p x = false := by simpa using hpx
        rw [hpx']
        simpa using hih

/-- Setting one clear bit lowers the clear-bit count by exactly one. -/
theorem freeBitCount_allocate {s : MountedDrive} {b : Nat} {t : MountedDrive}
    (h : allocate_block s = some (b, t)) :
    freeBitCount t + 1 = freeBitCount s := by
  obtain ⟨hlt, hclear, hbits, -⟩ := allocate_block_some h
  unfold freeBitCount
  refine filter_flip_length ?_ ?_ (List.nodup_range _) (List.mem_range.mpr hlt)
  · intro j
    rw [hbits j]
    by_cases hjb : j = b <;> simp [hjb]
  · simp [hclear]

end Drives


namespace Drives

theorem allocDrop_frame (s : MountedDrive) :
    (allocDrop s).entries = s.entries ∧ (allocDrop s).disk = s.disk
    ∧ (allocDrop s).superblock.total_blocks = s.superblock.total_blocks
    ∧ (allocDrop s).superblock.used_entries = s.superblock.used_entries := by
  unfold allocDrop
  cases h : allocate_block s with
  | none => exact ⟨rfl, rfl, rfl, rfl⟩
  | some p =>
    obtain ⟨-, -, -, -, h5, h6, h7, h8⟩ :=
      allocate_block_some (s := s) (b := p.1) (t := p.2) (by rw [h])
    exact ⟨h7, h8, h5, h6⟩

/-- `k` ignored allocations from a state with at least `k` clear bits and
`free_blocks ≥ k`: all succeed, each clearing one bit and decrementing the
counter by exactly one. -/
theorem allocDrop_run :
    ∀ (k : Nat) (s : MountedDrive), k ≤ freeBitCount s → k ≤ s.superblock.free_blocks →
      ((List.range k).foldl (fun t _ => allocDrop t) s).superblock.free_blocks
          = s.superblock.free_blocks - k
      ∧ freeBitCount ((List.range k).foldl (fun t _ => allocDrop t) s)
          = freeBitCount s - k
      ∧ ((List.range k).foldl (fun t _ => allocDrop t) s).entries = s.entries
      ∧ ((List.range k).foldl (fun t _ => allocDrop t) s).disk = s.disk
      ∧ ((List.range k).foldl (fun t _ => allocDrop t) s).superblock.total_blocks
          = s.superblock.total_blocks
      ∧ ((List.range k).foldl (fun t _ => allocDrop t) s).superblock.used_entries
          = s.superblock.used_entries := by
  intro k
  induction k with
  | zero => intro s _ _; simp
  | succ m ih =>
    intro s h1 h2
    rw [List.range_succ, List.foldl_append, List.foldl_cons, List.foldl_nil]
    obtain ⟨g1, g2, g3, g4, g5, g6⟩ := ih s (by omega) (by omega)
    set t := (List.range m).foldl (fun t _ => allocDrop t) s with ht
    have hcnt : 0 < freeBitCount t := by omega
    cases halloc : allocate_block t with
    | none =>
      exfalso
      unfold allocate_block at halloc
      cases hft : findFreeBit t with
      | none => rw [findFreeBit_none_count hft] at hcnt; omega
      | some i => rw [hft] at halloc; cases halloc
    | some p =>
      obtain ⟨-, -, -, a4, a5, a6, a7, a8⟩ :=
        allocate_block_some (s := t) (b := p.1) (t := p.2) (by rw [halloc])
      have hdrop : allocDrop t = p.2 := by unfold allocDrop; rw [halloc]
      have hcnt' := freeBitCount_allocate (s := t) (b := p.1) (t := p.2) (by rw [halloc])
      rw [hdrop]
      refine ⟨by omega, by omega, a7.trans g3, a8.trans g4, a5.trans g5, a6.trans g6⟩

/-- Fields of `write_file` untouched in every path: `used_entries` and
`total_blocks`; and the entry table is either unchanged or one entry is
replaced by one of equal emptiness status. -/
theorem write_file_used_shape (s : MountedDrive) (n data : List Nat) :
    (write_file s n data).1.superblock.used_entries = s.superblock.used_entries
    ∧ (write_file s n data).1.superblock.total_blocks = s.superblock.total_blocks
    ∧ ((write_file s n data).1.entries = s.entries
      ∨ ∃ idx e1, idx < s.entries.length
          ∧ (write_file s n data).1.entries = s.entries.set idx e1
          ∧ e1.is_empty = (s.entries.getD idx DirEntry.empty).is_empty) := by
  unfold write_file
  cases hfind : find_entry s n with
  | none => exact ⟨rfl, rfl, Or.inl rfl⟩
  | some idx =>
    simp only
    obtain ⟨hidx, hpred, -⟩ := position_eq_some hfind
    obtain ⟨f1, f2, f3, f4⟩ := freeOldBlocks_frame s (s.entries.getD idx DirEntry.empty)
    split
    · exact ⟨f2, f1, Or.inl f3⟩
    · split
      · refine ⟨f2, f1, Or.inr ⟨idx,
          { s.entries.getD idx DirEntry.empty with
            size := data.length % U32, first_block := 0, block_count := 0 },
          hidx, ?_, rfl⟩⟩
        show ((freeOldBlocks s (s.entries.getD idx DirEntry.empty)).entries.set idx _) = _
        rw [f3]
      · cases halloc : allocate_block (freeOldBlocks s (s.entries.getD idx DirEntry.empty)) with
        | none => exact ⟨f2, f1, Or.inl f3⟩
        | some p =>
          obtain ⟨-, -, -, -, a5, a6, a7, -⟩ :=
            allocate_block_some (b := p.1) (t := p.2) (by rw [halloc])
          simp only
          set s3 := (List.range ((data.length + SECTOR_SIZE - 1) / SECTOR_SIZE - 1)).foldl
            (fun t _ => allocDrop t) p.2 with hs3
          have hal : s3.entries = p.2.entries ∧ s3.superblock.total_blocks
              = p.2.superblock.total_blocks ∧ s3.superblock.used_entries
              = p.2.superblock.used_entries := by
            rw [hs3]
            refine foldl_inv (P := fun (t : MountedDrive) => t.entries = p.2.entries
              ∧ t.superblock.total_blocks = p.2.superblock.total_blocks
              ∧ t.superblock.used_entries = p.2.superblock.used_entries) _ ?_ _ _
              ⟨rfl, rfl, rfl⟩
            intro x a hx
            obtain ⟨d1, -, d3, d4⟩ := allocDrop_frame x
            exact ⟨d1.trans hx.1, d3.trans hx.2.1, d4.trans hx.2.2⟩
          set s4 := (List.range ((data.length + SECTOR_SIZE - 1) / SECTOR_SIZE)).foldl
            (fun t i => write_sector t (DATA_START_SECTOR + p.1 + i) (chunk512 data i)) s3 with hs4
          have hws : s4.entries = s3.entries ∧ s4.superblock = s3.superblock := by
            rw [hs4]
            refine foldl_inv (P := fun (t : MountedDrive) => t.entries = s3.entries
              ∧ t.superblock = s3.superblock) _ ?_ _ _ ⟨rfl, rfl⟩
            intro x a hx
            exact ⟨hx.1, hx.2⟩
          refine ⟨?_, ?_, Or.inr ⟨idx,
            { s.entries.getD idx DirEntry.empty with
              size := data.length % U32, first_block := p.1,
              block_count := (data.length + SECTOR_SIZE - 1) / SECTOR_SIZE },
            hidx, ?_, rfl⟩⟩
          · show s4.superblock.used_entries = _
            rw [hws.2]
            exact hal.2.2.trans (a6.trans f2)
          · show s4.superblock.total_blocks = _
            rw [hws.2]
            exact hal.2.1.trans (a5.trans f1)
          · show (s4.entries.set idx _) = _
            rw [hws.1, hal.1, a7, f3]

end Drives

namespace Drives

/-- Non-empty-entry count after filling an empty slot. -/
theorem count_set_nonempty (l : List DirEntry) (idx : Nat) (e1 : DirEntry)
    (hidx : idx < l.length) (hold : (l.getD idx DirEntry.empty).is_empty = true)
    (hnew : e1.is_empty = false) :
    ((l.set idx e1).filter fun e => !e.is_empty).length
      = (l.filter fun e => !e.is_empty).length + 1 := by
  rw [filter_length_eq_mapSum, filter_length_eq_mapSum]
  have hms := mapSum_set (fun e => if e.is_empty then 0 else 1) l idx e1 hidx
  simp only at hms
  rw [hold, hnew] at hms
  simp only [if_true, Bool.false_eq_true, if_false] at hms
  omega

/-- Non-empty-entry count after emptying a non-empty slot. -/
theorem count_set_empty (l : List DirEntry) (idx : Nat)
    (hidx : idx < l.length) (hold : (l.getD idx DirEntry.empty).is_empty = false) :
    ((l.set idx DirEntry.empty).filter fun e => !e.is_empty).length + 1
      = (l.filter fun e => !e.is_empty).length := by
  rw [filter_length_eq_mapSum, filter_length_eq_mapSum]
  have hms := mapSum_set (fun e => if e.is_empty then 0 else 1) l idx DirEntry.empty hidx
  simp only at hms
  rw [hold] at hms
  have hde : DirEntry.empty.is_empty = true := rfl
  rw [hde] at hms
  simp only [if_true, Bool.false_eq_true, if_false] at hms
  omega

/-- Non-empty-entry count is stable under replacement of equal emptiness. -/
theorem count_set_same (l : List DirEntry) (idx : Nat) (e1 : DirEntry)
    (hidx : idx < l.length)
    (hsame : e1.is_empty = (l.getD idx DirEntry.empty).is_empty) :
    ((l.set idx e1).filter fun e => !e.is_empty).length
      = (l.filter fun e => !e.is_empty).length := by
  rw [filter_length_eq_mapSum, filter_length_eq_mapSum]
  have hms := mapSum_set (fun e => if e.is_empty then 0 else 1) l idx e1 hidx
  simp only at hms
  rw [hsame] at hms
  omega

/-- Block-count sum after replacing a non-empty entry with a non-empty one. -/
theorem blockSum_set (l : List DirEntry) (idx : Nat) (e1 : DirEntry)
    (hidx : idx < l.length) (hold : (l.getD idx DirEntry.empty).is_empty = false)
    (hnew : e1.is_empty = false) :
    (((l.set idx e1).filter fun e => !e.is_empty).map (·.block_count)).sum
        + (l.getD idx DirEntry.empty).block_count
      = ((l.filter fun e => !e.is_empty).map (·.block_count)).sum + e1.block_count := by
  rw [filter_blockSum_eq_mapSum, filter_blockSum_eq_mapSum]
  have hms := mapSum_set (fun e => if e.is_empty then 0 else e.block_count) l idx e1 hidx
  simp only at hms
  rw [hold, hnew] at hms
  simp only [Bool.false_eq_true, if_false] at hms
  omega

/-- Block-count sum is unchanged when a zero-block entry replaces an empty
slot. -/
theorem blockSum_set_zero (l : List DirEntry) (idx : Nat) (e1 : DirEntry)
    (hidx : idx < l.length) (hold : (l.getD idx DirEntry.empty).is_empty = true)
    (hbc : e1.block_count = 0) :
    (((l.set idx e1).filter fun e => !e.is_empty).map (·.block_count)).sum
      = ((l.filter fun e => !e.is_empty).map (·.block_count)).sum := by
  rw [filter_blockSum_eq_mapSum, filter_blockSum_eq_mapSum]
  have hms := mapSum_set (fun e => if e.is_empty then 0 else e.block_count) l idx e1 hidx
  simp only at hms
  rw [hold, hbc] at hms
  simp only [if_true, ite_self] at hms
  omega

/-- Block-count sum after emptying a non-empty slot. -/
theorem blockSum_set_to_empty (l : List DirEntry) (idx : Nat)
    (hidx : idx < l.length) (hold : (l.getD idx DirEntry.empty).is_empty = false) :
    (((l.set idx DirEntry.empty).filter fun e => !e.is_empty).map (·.block_count)).sum
        + (l.getD idx DirEntry.empty).block_count
      = ((l.filter fun e => !e.is_empty).map (·.block_count)).sum := by
  rw [filter_blockSum_eq_mapSum, filter_blockSum_eq_mapSum]
  have hms := mapSum_set (fun e => if e.is_empty then 0 else e.block_count) l idx
    DirEntry.empty hidx
  simp only at hms
  rw [hold] at hms
  have hde : DirEntry.empty.is_empty = true := rfl
  have hdbc : DirEntry.empty.block_count = 0 := rfl
  rw [hde, hdbc] at hms
  simp only [if_true, Bool.false_eq_true, if_false] at hms
  omega

/-- A non-empty entry's block count is bounded by the block-count sum. -/
theorem blockSum_ge (l : List DirEntry) (idx : Nat)
    (hidx : idx < l.length) (hold : (l.getD idx DirEntry.empty).is_empty = false) :
    (l.getD idx DirEntry.empty).block_count
      ≤ ((l.filter fun e => !e.is_empty).map (·.block_count)).sum := by
  rw [filter_blockSum_eq_mapSum]
  have := mapSum_getD_le (fun e => if e.is_empty then 0 else e.block_count) l idx hidx
  simp only at this
  rw [hold] at this
  simpa using this

end Drives

namespace Drives

/-- `create_file` keeps a 128-entry table and the `used_entries` count. -/
theorem create_file_len_used (s : MountedDrive) (n : List Nat)
    (hlen : s.entries.length = 128) (hinv : usedInv s) :
    (create_file s n).1.entries.length = 128 ∧ usedInv (create_file s n).1 := by
  unfold create_file
  by_cases hfe : (find_entry s n).isSome = true
  · rw [if_pos hfe]; exact ⟨hlen, hinv⟩
  · rw [if_neg hfe]
    cases hff : find_free_entry s with
    | none => exact ⟨hlen, hinv⟩
    | some idx =>
      obtain ⟨hidx, hpred, -⟩ := position_eq_some hff
      have hemp : (s.entries.getD idx DirEntry.empty).is_empty = true := hpred
      have hnew : ({ DirEntry.empty.set_name n with file_type := 1 } : DirEntry).is_empty
          = false := rfl
      have hcnt := count_set_nonempty s.entries idx
        { DirEntry.empty.set_name n with file_type := 1 } hidx hemp hnew
      have hle : (s.entries.filter fun e => !e.is_empty).length ≤ 128 := by
        rw [← hlen]; exact List.length_filter_le _ _
      have hinv' : s.superblock.used_entries
          = (s.entries.filter fun e => !e.is_empty).length := hinv
      refine ⟨?_, ?_⟩
      · show (s.entries.set idx { DirEntry.empty.set_name n with file_type := 1 }).length = 128
        rw [List.length_set]; exact hlen
      · show (s.superblock.used_entries + 1) % U32
          = ((s.entries.set idx { DirEntry.empty.set_name n with file_type := 1 }).filter
              fun e => !e.is_empty).length
        rw [hcnt, hinv', u32_eq]
        omega

/-- `create_directory` keeps a 128-entry table and the `used_entries`
count. -/
theorem create_directory_len_used (s : MountedDrive) (n : List Nat)
    (hlen : s.entries.length = 128) (hinv : usedInv s) :
    (create_directory s n).1.entries.length = 128 ∧ usedInv (create_directory s n).1 := by
  unfold create_directory
  by_cases hfe : (find_entry s n).isSome = true
  · rw [if_pos hfe]; exact ⟨hlen, hinv⟩
  · rw [if_neg hfe]
    cases hff : find_free_entry s with
    | none => exact ⟨hlen, hinv⟩
    | some idx =>
      obtain ⟨hidx, hpred, -⟩ := position_eq_some hff
      have hemp : (s.entries.getD idx DirEntry.empty).is_empty = true := hpred
      have hnew : ({ DirEntry.empty.set_name n with file_type := 2 } : DirEntry).is_empty
          = false := rfl
      have hcnt := count_set_nonempty s.entries idx
        { DirEntry.empty.set_name n with file_type := 2 } hidx hemp hnew
      have hle : (s.entries.filter fun e => !e.is_empty).length ≤ 128 := by
        rw [← hlen]; exact List.length_filter_le _ _
      have hinv' : s.superblock.used_entries
          = (s.entries.filter fun e => !e.is_empty).length := hinv
      refine ⟨?_, ?_⟩
      · show (s.entries.set idx { DirEntry.empty.set_name n with file_type := 2 }).length = 128
        rw [List.length_set]; exact hlen
      · show (s.superblock.used_entries + 1) % U32
          = ((s.entries.set idx { DirEntry.empty.set_name n with file_type := 2 }).filter
              fun e => !e.is_empty).length
        rw [hcnt, hinv', u32_eq]
        omega

/-- `delete_file` keeps a 128-entry table and the `used_entries` count. -/
theorem delete_file_len_used (s : MountedDrive) (n : List Nat)
    (hlen : s.entries.length = 128) (hinv : usedInv s) :
    (delete_file s n).1.entries.length = 128 ∧ usedInv (delete_file s n).1 := by
  unfold delete_file
  cases hfind : find_entry s n with
  | none => exact ⟨hlen, hinv⟩
  | some idx =>
    obtain ⟨hidx, hpred, -⟩ := position_eq_some hfind
    have hemp : (s.entries.getD idx DirEntry.empty).is_empty = false := by
      have hp := hpred
      simp only [Bool.and_eq_true, Bool.not_eq_true'] at hp
      exact hp.1
    obtain ⟨-, hue, hent, -⟩ := freeOldBlocks_frame s (s.entries.getD idx DirEntry.empty)
    refine ⟨?_, ?_⟩
    · show ((freeOldBlocks s (s.entries.getD idx DirEntry.empty)).entries.set idx
        DirEntry.empty).length = 128
      rw [hent, List.length_set]; exact hlen
    · show (freeOldBlocks s (s.entries.getD idx DirEntry.empty)).superblock.used_entries - 1
        = (((freeOldBlocks s (s.entries.getD idx DirEntry.empty)).entries.set idx
            DirEntry.empty).filter fun e => !e.is_empty).length
      rw [hent, hue]
      have hcnt := count_set_empty s.entries idx hidx hemp
      have hinv' : s.superblock.used_entries
          = (s.entries.filter fun e => !e.is_empty).length := hinv
      omega

/-- `write_file` keeps a 128-entry table and the `used_entries` count. -/
theorem write_file_len_used (s : MountedDrive) (n data : List Nat)
    (hlen : s.entries.length = 128) (hinv : usedInv s) :
    (write_file s n data).1.entries.length = 128 ∧ usedInv (write_file s n data).1 := by
  obtain ⟨hue, -, hsh⟩ := write_file_used_shape s n data
  rcases hsh with h | ⟨idx, e1, hidx, hset, hsame⟩
  · refine ⟨by rw [h]; exact hlen, ?_⟩
    show (write_file s n data).1.superblock.used_entries
        = (((write_file s n data).1.entries.filter fun e => !e.is_empty)).length
    rw [hue, h]
    exact hinv
  · refine ⟨by rw [hset, List.length_set]; exact hlen, ?_⟩
    show (write_file s n data).1.superblock.used_entries
        = (((write_file s n data).1.entries.filter fun e => !e.is_empty)).length
    rw [hue, hset, count_set_same s.entries idx e1 hidx hsame]
    exact hinv

end Drives

namespace Drives

/-- `create_file` preserves block accounting unconditionally: a fresh entry
records zero blocks. -/
theorem create_file_blockInv (s : MountedDrive) (n : List Nat)
    (hinv : blockInv s) : blockInv (create_file s n).1 := by
  unfold create_file
  by_cases hfe : (find_entry s n).isSome = true
  · rw [if_pos hfe]; exact hinv
  · rw [if_neg hfe]
    cases hff : find_free_entry s with
    | none => exact hinv
    | some idx =>
      obtain ⟨hidx, hpred, -⟩ := position_eq_some hff
      show s.superblock.free_blocks
          + (((s.entries.set idx { DirEntry.empty.set_name n with file_type := 1 }).filter
              fun e => !e.is_empty).map (·.block_count)).sum
        = s.superblock.total_blocks
      rw [blockSum_set_zero s.entries idx
        { DirEntry.empty.set_name n with file_type := 1 } hidx hpred rfl]
      exact hinv

/-- `create_directory` preserves block accounting unconditionally. -/
theorem create_directory_blockInv (s : MountedDrive) (n : List Nat)
    (hinv : blockInv s) : blockInv (create_directory s n).1 := by
  unfold create_directory
  by_cases hfe : (find_entry s n).isSome = true
  · rw [if_pos hfe]; exact hinv
  · rw [if_neg hfe]
    cases hff : find_free_entry s with
    | none => exact hinv
    | some idx =>
      obtain ⟨hidx, hpred, -⟩ := position_eq_some hff
      show s.superblock.free_blocks
          + (((s.entries.set idx { DirEntry.empty.set_name n with file_type := 2 }).filter
              fun e => !e.is_empty).map (·.block_count)).sum
        = s.superblock.total_blocks
      rw [blockSum_set_zero s.entries idx
        { DirEntry.empty.set_name n with file_type := 2 } hidx hpred rfl]
      exact hinv

/-- `delete_file` on a missing name is a no-op. -/
theorem delete_file_none (s : MountedDrive) (n : List Nat)
    (hnone : find_entry s n = none) (hinv : blockInv s) :
    blockInv (delete_file s n).1 := by
  unfold delete_file
  rw [hnone]
  exact hinv

/-- `delete_file` on an existing entry preserves block accounting when the
entry's recorded range lies in the FAT and `free_blocks` does not wrap. -/
theorem delete_file_blockInv (s : MountedDrive) (n : List Nat) (idx : Nat)
    (hfind : find_entry s n = some idx)
    (hinv : blockInv s)
    (hr : (s.entries.getD idx DirEntry.empty).first_block
        + (s.entries.getD idx DirEntry.empty).block_count ≤ FAT_BITS)
    (hw : s.superblock.free_blocks
        + (s.entries.getD idx DirEntry.empty).block_count < U32) :
    blockInv (delete_file s n).1 := by
  obtain ⟨hidx, hpred, -⟩ := position_eq_some hfind
  have hemp : (s.entries.getD idx DirEntry.empty).is_empty = false := by
    have hp := hpred
    simp only [Bool.and_eq_true, Bool.not_eq_true'] at hp
    exact hp.1
  obtain ⟨ftot, -, fent, -⟩ := freeOldBlocks_frame s (s.entries.getD idx DirEntry.empty)
  have hfree1 := freeOldBlocks_free_blocks s (s.entries.getD idx DirEntry.empty) hr hw
  unfold delete_file
  rw [hfind]
  show (freeOldBlocks s (s.entries.getD idx DirEntry.empty)).superblock.free_blocks
      + ((((freeOldBlocks s (s.entries.getD idx DirEntry.empty)).entries.set idx
          DirEntry.empty).filter fun e => !e.is_empty).map (·.block_count)).sum
    = (freeOldBlocks s (s.entries.getD idx DirEntry.empty)).superblock.total_blocks
  rw [fent, hfree1, ftot]
  have hbs := blockSum_set_to_empty s.entries idx hidx hemp
  have hinv' : s.superblock.free_blocks
      + ((s.entries.filter fun e => !e.is_empty).map (·.block_count)).sum
      = s.superblock.total_blocks := hinv
  omega

/-- `write_file` on a missing name is a no-op. -/
theorem write_file_none (s : MountedDrive) (n data : List Nat)
    (hnone : find_entry s n = none) (hinv : blockInv s) :
    blockInv (write_file s n data).1 := by
  unfold write_file
  rw [hnone]
  exact hinv

end Drives

namespace Drives

/-- `write_file` on an existing entry preserves block accounting when the
needed block count fits the per-file cap, enough FAT bits and enough counted
free blocks remain after the old blocks are freed, the old entry's range
lies in the FAT, and `free_blocks` does not wrap while freeing. -/
theorem write_file_blockInv (s : MountedDrive) (n data : List Nat) (idx : Nat)
    (hfind : find_entry s n = some idx)
    (hinv : blockInv s)
    (hr : (s.entries.getD idx DirEntry.empty).first_block
        + (s.entries.getD idx DirEntry.empty).block_count ≤ FAT_BITS)
    (hw : s.superblock.free_blocks
        + (s.entries.getD idx DirEntry.empty).block_count < U32)
    (hk : (data.length + SECTOR_SIZE - 1) / SECTOR_SIZE ≤ BLOCKS_PER_FILE)
    (hfb : (data.length + SECTOR_SIZE - 1) / SECTOR_SIZE
        ≤ freeBitCount (freeOldBlocks s (s.entries.getD idx DirEntry.empty)))
    (hfree : (data.length + SECTOR_SIZE - 1) / SECTOR_SIZE
        ≤ s.superblock.free_blocks
          + (s.entries.getD idx DirEntry.empty).block_count) :
    blockInv (write_file s n data).1 := by
  obtain ⟨hidx, hpred, -⟩ := position_eq_some hfind
  have hemp : (s.entries.getD idx DirEntry.empty).is_empty = false := by
    have hp := hpred
    simp only [Bool.and_eq_true, Bool.not_eq_true'] at hp
    exact hp.1
  obtain ⟨ftot, -, fent, -⟩ := freeOldBlocks_frame s (s.entries.getD idx DirEntry.empty)
  have hfree1 := freeOldBlocks_free_blocks s (s.entries.getD idx DirEntry.empty) hr hw
  have hge := blockSum_ge s.entries idx hidx hemp
  have hinv' : s.superblock.free_blocks
      + ((s.entries.filter fun e => !e.is_empty).map (·.block_count)).sum
      = s.superblock.total_blocks := hinv
  unfold write_file
  rw [hfind]
  simp only
  rw [if_neg (Nat.not_lt.mpr hk)]
  by_cases hk0 : (data.length + SECTOR_SIZE - 1) / SECTOR_SIZE = 0
  · rw [if_pos hk0]
    show (freeOldBlocks s (s.entries.getD idx DirEntry.empty)).superblock.free_blocks
        + ((((freeOldBlocks s (s.entries.getD idx DirEntry.empty)).entries.set idx
            { s.entries.getD idx DirEntry.empty with
              size := data.length % U32
              first_block := 0
              block_count := 0 }).filter fun e => !e.is_empty).map (·.block_count)).sum
      = (freeOldBlocks s (s.entries.getD idx DirEntry.empty)).superblock.total_blocks
    rw [fent, hfree1, ftot]
    have hnew : ({ s.entries.getD idx DirEntry.empty with
        size := data.length % U32
        first_block := 0
        block_count := 0 } : DirEntry).is_empty = false := hemp
    have hbs := blockSum_set s.entries idx
      { s.entries.getD idx DirEntry.empty with
        size := data.length % U32
        first_block := 0
        block_count := 0 } hidx hemp hnew
    have hbc : ({ s.entries.getD idx DirEntry.empty with
        size := data.length % U32
        first_block := 0
        block_count := 0 } : DirEntry).block_count = 0 := rfl
    rw [hbc] at hbs
    omega
  · rw [if_neg hk0]
    cases halloc : allocate_block (freeOldBlocks s (s.entries.getD idx DirEntry.empty)) with
    | none =>
      exfalso
      unfold allocate_block at halloc
      cases hft : findFreeBit (freeOldBlocks s (s.entries.getD idx DirEntry.empty)) with
      | none =>
        have h0 := findFreeBit_none_count hft
        exact hk0 (Nat.le_zero.mp (h0 ▸ hfb))
      | some i =>
        rw [hft] at halloc
        cases halloc
    | some p =>
      obtain ⟨-, -, -, a4, a5, -, a7, -⟩ :=
        allocate_block_some (b := p.1) (t := p.2) (by rw [halloc])
      have hfbc2 := freeBitCount_allocate (b := p.1) (t := p.2) (by rw [halloc])
      simp only
      obtain ⟨g1, -, g3, -, g5, -⟩ := allocDrop_run
        ((data.length + SECTOR_SIZE - 1) / SECTOR_SIZE - 1) p.2 (by omega) (by omega)
      set s3 := (List.range ((data.length + SECTOR_SIZE - 1) / SECTOR_SIZE - 1)).foldl
        (fun t _ => allocDrop t) p.2 with hs3
      set s4 := (List.range ((data.length + SECTOR_SIZE - 1) / SECTOR_SIZE)).foldl
        (fun t i => write_sector t (DATA_START_SECTOR + p.1 + i) (chunk512 data i)) s3 with hs4
      have hws : s4.entries = s3.entries ∧ s4.superblock = s3.superblock := by
        rw [hs4]
        refine foldl_inv (P := fun (t : MountedDrive) => t.entries = s3.entries
          ∧ t.superblock = s3.superblock) _ ?_ _ _ ⟨rfl, rfl⟩
        intro x a hx
        exact ⟨hx.1, hx.2⟩
      show s4.superblock.free_blocks
          + (((s4.entries.set idx
              { s.entries.getD idx DirEntry.empty with
                size := data.length % U32
                first_block := p.1
                block_count := (data.length + SECTOR_SIZE - 1) / SECTOR_SIZE }).filter
                fun e => !e.is_empty).map (·.block_count)).sum
        = s4.superblock.total_blocks
      rw [hws.1, hws.2, g1, g3, g5, a4, a5, a7, fent, ftot, hfree1]
      have hnew : ({ s.entries.getD idx DirEntry.empty with
          size := data.length % U32
          first_block := p.1
          block_count := (data.length + SECTOR_SIZE - 1) / SECTOR_SIZE } : DirEntry).is_empty
          = false := hemp
      have hbs := blockSum_set s.entries idx
        { s.entries.getD idx DirEntry.empty with
          size := data.length % U32
          first_block := p.1
          block_count := (data.length + SECTOR_SIZE - 1) / SECTOR_SIZE } hidx hemp hnew
      have hbc : ({ s.entries.getD idx DirEntry.empty with
          size := data.length % U32
          first_block := p.1
          block_count := (data.length + SECTOR_SIZE - 1) / SECTOR_SIZE } : DirEntry).block_count
          = (data.length + SECTOR_SIZE - 1) / SECTOR_SIZE := rfl
      rw [hbc] at hbs
      omega

end Drives

namespace Drives

/-- Every state reachable from a freshly formatted drive by the four
mutating calls keeps a 128-entry table with `used_entries` equal to the
number of non-empty entries. -/
theorem runOps_len_used (d : MountedDrive) (ops : List FsOp) :
    (runOps (format d) ops).entries.length = 128 ∧ usedInv (runOps (format d) ops) := by
  unfold runOps
  refine foldl_inv (P := fun (t : MountedDrive) => t.entries.length = 128 ∧ usedInv t)
    applyOp ?_ ops (format d) ⟨?_, ?_⟩
  · intro x a hx
    cases a with
    | create n => exact create_file_len_used x n hx.1 hx.2
    | mkdir n => exact create_directory_len_used x n hx.1 hx.2
    | write n dt => exact write_file_len_used x n dt hx.1 hx.2
    | delete n => exact delete_file_len_used x n hx.1 hx.2
  · show (List.replicate 128 DirEntry.empty).length = 128
    rfl
  · show Superblock.new.used_entries
        = ((List.replicate 128 DirEntry.empty).filter fun e => !e.is_empty).length
    decide

end Drives

set_option maxRecDepth 16384 in
/-- C2 counterexample: the reachable state format; create `f`; write `f`
one byte; write `f` `64·512+1` bytes violates
`free_blocks + Σ block_count = total_blocks` — the oversize write frees the
old block (free_blocks back to 4096) but leaves the entry's
`block_count = 1`, so the sum is 4097 ≠ 4096. -/
theorem fs_accounting_counterexample :
    ¬ Drives.blockInv (Drives.runOps (Drives.format Drives.emptyDrive)
        [Drives.FsOp.create Drives.fname, Drives.FsOp.write Drives.fname [7],
         Drives.FsOp.write Drives.fname Drives.bigData]) := by
  have hbn : (Drives.bigData.length + Drives.SECTOR_SIZE - 1) / Drives.SECTOR_SIZE
      > Drives.BLOCKS_PER_FILE := by
    rw [show Drives.bigData = List.replicate (64 * 512 + 1) 0 from rfl, List.length_replicate,
      show Drives.SECTOR_SIZE = 512 from rfl, show Drives.BLOCKS_PER_FILE = 64 from rfl]
    omega
  have hfind : Drives.find_entry Drives.oneFileDrive Drives.fname = some 0 := by decide
  have hwf : Drives.write_file Drives.oneFileDrive Drives.fname Drives.bigData
      = (Drives.freeOldBlocks Drives.oneFileDrive
          (Drives.oneFileDrive.entries.getD 0 Drives.DirEntry.empty), false) := by
    unfold Drives.write_file
    rw [hfind]
    simp only [if_pos hbn]
  have e1 : ∀ (s : Drives.MountedDrive) (n d : List Nat),
      Drives.applyOp s (Drives.FsOp.write n d) = (Drives.write_file s n d).1 :=
    fun _ _ _ => rfl
  have e2 : ∀ (s : Drives.MountedDrive) (n : List Nat),
      Drives.applyOp s (Drives.FsOp.create n) = (Drives.create_file s n).1 :=
    fun _ _ => rfl
  unfold Drives.runOps
  rw [List.foldl_cons, List.foldl_cons, List.foldl_cons, List.foldl_nil, e2, e1, e1,
    show (Drives.write_file (Drives.create_file (Drives.format Drives.emptyDrive)
        Drives.fname).1 Drives.fname [7]).1 = Drives.oneFileDrive from rfl,
    hwf]
  unfold Drives.blockInv
  decide

/-- C2 (amended): the `used_entries` half of the accounting invariant does
hold in every state reachable from a freshly formatted drive by any
sequence of the four mutating calls.  The
`free_blocks + Σ block_count = total_blocks` half is preserved by
`create_file` and `create_directory` unconditionally and by `delete_file`
and `write_file` on a missing name; on an existing entry it is preserved by
`delete_file` when the entry's recorded block range lies inside the FAT and
the counter does not wrap, and by `write_file` additionally when the needed
block count fits the 64-block cap and, after the old blocks are freed,
enough FAT bits and enough counted free blocks remain.  It is not an
invariant of arbitrary call sequences (see the counterexample). -/
theorem fs_accounting_amended :
    (∀ (d : Drives.MountedDrive) (ops : List Drives.FsOp),
        Drives.usedInv (Drives.runOps (Drives.format d) ops))
    ∧ (∀ (s : Drives.MountedDrive) (n : List Nat),
        Drives.blockInv s → Drives.blockInv (Drives.create_file s n).1)
    ∧ (∀ (s : Drives.MountedDrive) (n : List Nat),
        Drives.blockInv s → Drives.blockInv (Drives.create_directory s n).1)
    ∧ (∀ (s : Drives.MountedDrive) (n data : List Nat),
        Drives.find_entry s n = none → Drives.blockInv s →
        Drives.blockInv (Drives.delete_file s n).1
          ∧ Drives.blockInv (Drives.write_file s n data).1)
    ∧ (∀ (s : Drives.MountedDrive) (n : List Nat) (idx : Nat),
        Drives.find_entry s n = some idx → Drives.blockInv s →
        (s.entries.getD idx Drives.DirEntry.empty).first_block
          + (s.entries.getD idx Drives.DirEntry.empty).block_count ≤ Drives.FAT_BITS →
        s.superblock.free_blocks
          + (s.entries.getD idx Drives.DirEntry.empty).block_count < Drives.U32 →
        Drives.blockInv (Drives.delete_file s n).1)
    ∧ (∀ (s : Drives.MountedDrive) (n data : List Nat) (idx : Nat),
        Drives.find_entry s n = some idx → Drives.blockInv s →
        (s.entries.getD idx Drives.DirEntry.empty).first_block
          + (s.entries.getD idx Drives.DirEntry.empty).block_count ≤ Drives.FAT_BITS →
        s.superblock.free_blocks
          + (s.entries.getD idx Drives.DirEntry.empty).block_count < Drives.U32 →
        (data.length + Drives.SECTOR_SIZE - 1) / Drives.SECTOR_SIZE
          ≤ Drives.BLOCKS_PER_FILE →
        (data.length + Drives.SECTOR_SIZE - 1) / Drives.SECTOR_SIZE
          ≤ Drives.freeBitCount
              (Drives.freeOldBlocks s (s.entries.getD idx Drives.DirEntry.empty)) →
        (data.length + Drives.SECTOR_SIZE - 1) / Drives.SECTOR_SIZE
          ≤ s.superblock.free_blocks
            + (s.entries.getD idx Drives.DirEntry.empty).block_count →
        Drives.blockInv (Drives.write_file s n data).1) :=
  ⟨fun d ops => (Drives.runOps_len_used d ops).2,
    Drives.create_file_blockInv,
    Drives.create_directory_blockInv,
    fun s n data h1 h2 =>
      ⟨Drives.delete_file_none s n h1 h2, Drives.write_file_none s n data h1 h2⟩,
    Drives.delete_file_blockInv,
    Drives.write_file_blockInv⟩

set_option maxRecDepth 16384 in
/-- C2 witness: the amended invariants instantiated on concrete reachable
states — a fresh format followed by `create f` (and a one-byte write for the
`used_entries` part), a directory creation, a delete of the created file,
and an empty-data write to it, discharging every side condition. -/
theorem fs_accounting_amended_witness :
    Drives.usedInv (Drives.runOps (Drives.format Drives.emptyDrive)
      [Drives.FsOp.create Drives.fname, Drives.FsOp.write Drives.fname [7]])
    ∧ Drives.blockInv (Drives.create_file (Drives.format Drives.emptyDrive) Drives.fname).1
    ∧ Drives.blockInv
        (Drives.create_directory (Drives.format Drives.emptyDrive) Drives.fname).1
    ∧ Drives.blockInv (Drives.delete_file
        (Drives.create_file (Drives.format Drives.emptyDrive) Drives.fname).1 Drives.fname).1
    ∧ Drives.blockInv (Drives.write_file
        (Drives.create_file (Drives.format Drives.emptyDrive) Drives.fname).1
        Drives.fname []).1 := by
  obtain ⟨h1, h2, h3, -, h5, h6⟩ := fs_accounting_amended
  refine ⟨h1 Drives.emptyDrive
      [Drives.FsOp.create Drives.fname, Drives.FsOp.write Drives.fname [7]],
    h2 (Drives.format Drives.emptyDrive) Drives.fname ?_,
    h3 (Drives.format Drives.emptyDrive) Drives.fname ?_,
    h5 (Drives.create_file (Drives.format Drives.emptyDrive) Drives.fname).1
      Drives.fname 0 (by decide) ?_ (by decide) (by decide),
    h6 (Drives.create_file (Drives.format Drives.emptyDrive) Drives.fname).1
      Drives.fname [] 0 (by decide) ?_ (by decide) (by decide) (by decide) ?_ (by decide)⟩
  · unfold Drives.blockInv
    decide
  · unfold Drives.blockInv
    decide
  · unfold Drives.blockInv
    decide
  · unfold Drives.blockInv
    decide
  · rw [show (([] : List Nat).length + Drives.SECTOR_SIZE - 1) / Drives.SECTOR_SIZE
        = 0 from rfl]
    exact Nat.zero_le _

namespace Drives

/-- Reading back the element just replaced. -/
theorem getD_set_self : ∀ (l : List DirEntry) (idx : Nat) (e : DirEntry), idx < l.length →
    (l.set idx e).getD idx DirEntry.empty = e := by
  intro l
  induction l with
  | nil => intro idx e h; simp at h
  | cons x xs ih =>
    intro idx e h
    cases idx with
    | zero => rfl
    | succ k => simpa using ih k e (by simpa using h)

/-- A successful allocation returns the first clear bit: every earlier bit
is set. -/
theorem allocate_block_first (s : MountedDrive) (b : Nat) (t : MountedDrive)
    (h : allocate_block s = some (b, t)) :
    ∀ j < b, j < FAT_BITS → fatBitSet s j = true := by
  unfold allocate_block at h
  cases hft : findFreeBit s with
  | none => rw [hft] at h; cases h
  | some i =>
    rw [hft] at h
    simp only [Option.some_inj, Prod.mk.injEq] at h
    obtain ⟨rfl, -⟩ := h
    obtain ⟨-, -, -, hmin⟩ := findFreeFrom_some hft
    intro j hj _
    have hne := hmin j (Nat.zero_le _) hj
    unfold fatBitSet
    simpa using hne

/-- One ignored allocation extends a solid set-bit prefix by one (or the
FAT is already entirely set). -/
theorem allocDrop_covers (s : MountedDrive) (c : Nat)
    (h : ∀ j, j < c → j < FAT_BITS → fatBitSet s j = true) :
    ∀ j, j < c + 1 → j < FAT_BITS → fatBitSet (allocDrop s) j = true := by
  intro j hj hjf
  unfold allocDrop
  cases halloc : allocate_block s with
  | none =>
    unfold allocate_block at halloc
    cases hft : findFreeBit s with
    | some i => rw [hft] at halloc; cases halloc
    | none =>
      have hall := findFreeFrom_none hft j (Nat.zero_le _) (by omega)
      unfold fatBitSet
      simpa using hall
  | some p =>
    obtain ⟨hblt, hclear, hbits, -⟩ :=
      allocate_block_some (b := p.1) (t := p.2) (by rw [halloc])
    have hfirst := allocate_block_first s p.1 p.2 (by rw [halloc])
    rw [hbits j]
    by_cases hjb : j = p.1
    · rw [if_pos hjb]
    · rw [if_neg hjb]
      by_cases hjlt : j < p.1
      · exact hfirst j hjlt hjf
      · have hcp : c ≤ p.1 := by
          by_contra hcp
          push_neg at hcp
          have hset := h p.1 hcp hblt
          exact (by decide : (true : Bool) ≠ false) (hset.symm.trans hclear)
        omega

/-- `m` ignored allocations extend a solid set-bit prefix by `m`. -/
theorem allocRun_covers :
    ∀ (m : Nat) (s : MountedDrive) (c : Nat),
      (∀ j, j < c → j < FAT_BITS → fatBitSet s j = true) →
      ∀ j, j < c + m → j < FAT_BITS →
        fatBitSet ((List.range m).foldl (fun t _ => allocDrop t) s) j = true := by
  intro m
  induction m with
  | zero =>
    intro s c h j hj hjf
    simpa using h j (by omega) hjf
  | succ q ih =>
    intro s c h j hj hjf
    rw [List.range_succ, List.foldl_append, List.foldl_cons, List.foldl_nil]
    exact allocDrop_covers _ (c + q) (fun j' hj' hjf' => ih s c h j' hj' hjf') j (by omega) hjf

end Drives

/-- C3: whenever `write_file` succeeds, the entry records
`ceil(len/512)` blocks at the consecutive numbers
`first_block, …, first_block + block_count - 1`, and every one of those
numbers that denotes a bit of the bitmap is set afterwards — for every
prior bitmap state, fragmented ones included. -/
theorem write_file_contiguous (s : Drives.MountedDrive) (n data : List Nat) (idx : Nat)
    (hfind : Drives.find_entry s n = some idx)
    (hok : (Drives.write_file s n data).2 = true) :
    ((Drives.write_file s n data).1.entries.getD idx Drives.DirEntry.empty).block_count
      = (data.length + Drives.SECTOR_SIZE - 1) / Drives.SECTOR_SIZE
    ∧ ∀ i < ((Drives.write_file s n data).1.entries.getD idx
          Drives.DirEntry.empty).block_count,
        ((Drives.write_file s n data).1.entries.getD idx
            Drives.DirEntry.empty).first_block + i < Drives.FAT_BITS →
        Drives.fatBitSet (Drives.write_file s n data).1
          (((Drives.write_file s n data).1.entries.getD idx
              Drives.DirEntry.empty).first_block + i) = true := by
  obtain ⟨hidx, -, -⟩ := Drives.position_eq_some hfind
  obtain ⟨-, -, fent, -⟩ :=
    Drives.freeOldBlocks_frame s (s.entries.getD idx Drives.DirEntry.empty)
  revert hok
  unfold Drives.write_file
  rw [hfind]
  simp only
  split
  · intro hok
    exact absurd hok Bool.false_ne_true
  · split
    · intro _hok
      have hgd := Drives.getD_set_self
        (Drives.freeOldBlocks s (s.entries.getD idx Drives.DirEntry.empty)).entries idx
        { s.entries.getD idx Drives.DirEntry.empty with
          size := data.length % Drives.U32
          first_block := 0
          block_count := 0 } (by rw [fent]; exact hidx)
      rename_i hk0
      constructor
      · show (((Drives.freeOldBlocks s
            (s.entries.getD idx Drives.DirEntry.empty)).entries.set idx
            { s.entries.getD idx Drives.DirEntry.empty with
              size := data.length % Drives.U32
              first_block := 0
              block_count := 0 }).getD idx Drives.DirEntry.empty).block_count
          = (data.length + Drives.SECTOR_SIZE - 1) / Drives.SECTOR_SIZE
        rw [hgd, hk0]
      · show ∀ i < (((Drives.freeOldBlocks s
            (s.entries.getD idx Drives.DirEntry.empty)).entries.set idx
            { s.entries.getD idx Drives.DirEntry.empty with
              size := data.length % Drives.U32
              first_block := 0
              block_count := 0 }).getD idx Drives.DirEntry.empty).block_count, _
        rw [hgd]
        intro i hi _
        rw [show ({ s.entries.getD idx Drives.DirEntry.empty with
            size := data.length % Drives.U32
            first_block := 0
            block_count := 0 } : Drives.DirEntry).block_count = 0 from rfl] at hi
        exact absurd hi (Nat.not_lt_zero i)
    · rename_i hk0
      cases halloc : Drives.allocate_block
          (Drives.freeOldBlocks s (s.entries.getD idx Drives.DirEntry.empty)) with
      | none =>
        intro hok
        exact absurd hok Bool.false_ne_true
      | some p =>
        intro _hok
        obtain ⟨hblt, hclear, hbits, -, -, -, a7, -⟩ :=
          Drives.allocate_block_some (b := p.1) (t := p.2) (by rw [halloc])
        have hfirst := Drives.allocate_block_first _ p.1 p.2 (by rw [halloc])
        simp only
        set s3 := (List.range ((data.length + Drives.SECTOR_SIZE - 1)
            / Drives.SECTOR_SIZE - 1)).foldl (fun t _ => Drives.allocDrop t) p.2 with hs3
        set s4 := (List.range ((data.length + Drives.SECTOR_SIZE - 1)
            / Drives.SECTOR_SIZE)).foldl
          (fun t i => Drives.write_sector t (Drives.DATA_START_SECTOR + p.1 + i)
            (Drives.chunk512 data i)) s3 with hs4
        have hws : s4.entries = s3.entries ∧ s4.fat = s3.fat := by
          rw [hs4]
          refine foldl_inv (P := fun (t : Drives.MountedDrive) => t.entries = s3.entries
            ∧ t.fat = s3.fat) _ ?_ _ _ ⟨rfl, rfl⟩
          intro x a hx
          exact ⟨hx.1, hx.2⟩
        have hent3 : s3.entries = p.2.entries := by
          rw [hs3]
          refine foldl_inv (P := fun (t : Drives.MountedDrive) => t.entries = p.2.entries)
            _ ?_ _ _ rfl
          intro x a hx
          exact (Drives.allocDrop_frame x).1.trans hx
        have hcov2 : ∀ j, j < p.1 + 1 → j < Drives.FAT_BITS →
            Drives.fatBitSet p.2 j = true := by
          intro j hj hjf
          rw [hbits j]
          by_cases hjb : j = p.1
          · rw [if_pos hjb]
          · rw [if_neg hjb]
            exact hfirst j (by omega) hjf
        have hcov3 := Drives.allocRun_covers
          ((data.length + Drives.SECTOR_SIZE - 1) / Drives.SECTOR_SIZE - 1) p.2
          (p.1 + 1) hcov2
        rw [← hs3] at hcov3
        have hgd := Drives.getD_set_self s4.entries idx
          { s.entries.getD idx Drives.DirEntry.empty with
            size := data.length % Drives.U32
            first_block := p.1
            block_count := (data.length + Drives.SECTOR_SIZE - 1) / Drives.SECTOR_SIZE }
          (by rw [hws.1, hent3, a7, fent]; exact hidx)
        constructor
        · show ((s4.entries.set idx
              { s.entries.getD idx Drives.DirEntry.empty with
                size := data.length % Drives.U32
                first_block := p.1
                block_count := (data.length + Drives.SECTOR_SIZE - 1)
                  / Drives.SECTOR_SIZE }).getD idx Drives.DirEntry.empty).block_count
            = (data.length + Drives.SECTOR_SIZE - 1) / Drives.SECTOR_SIZE
          rw [hgd]
        · show ∀ i < ((s4.entries.set idx
              { s.entries.getD idx Drives.DirEntry.empty with
                size := data.length % Drives.U32
                first_block := p.1
                block_count := (data.length + Drives.SECTOR_SIZE - 1)
                  / Drives.SECTOR_SIZE }).getD idx Drives.DirEntry.empty).block_count,
            ((s4.entries.set idx
              { s.entries.getD idx Drives.DirEntry.empty with
                size := data.length % Drives.U32
                first_block := p.1
                block_count := (data.length + Drives.SECTOR_SIZE - 1)
                  / Drives.SECTOR_SIZE }).getD idx Drives.DirEntry.empty).first_block + i
              < Drives.FAT_BITS →
            Drives.fatBitSet
              (Drives.save_to_disk
                { s4 with
                  entries := s4.entries.set idx
                    { s.entries.getD idx Drives.DirEntry.empty with
                      size := data.length % Drives.U32
                      first_block := p.1
                      block_count := (data.length + Drives.SECTOR_SIZE - 1)
                        / Drives.SECTOR_SIZE } })
              (((s4.entries.set idx
                { s.entries.getD idx Drives.DirEntry.empty with
                  size := data.length % Drives.U32
                  first_block := p.1
                  block_count := (data.length + Drives.SECTOR_SIZE - 1)
                    / Drives.SECTOR_SIZE }).getD idx Drives.DirEntry.empty).first_block + i)
              = true
          rw [hgd]
          intro i hik hif
          rw [show ({ s.entries.getD idx Drives.DirEntry.empty with
              size := data.length % Drives.U32
              first_block := p.1
              block_count := (data.length + Drives.SECTOR_SIZE - 1)
                / Drives.SECTOR_SIZE } : Drives.DirEntry).block_count
              = (data.length + Drives.SECTOR_SIZE - 1) / Drives.SECTOR_SIZE from rfl] at hik
          show Drives.fatBitSet
              (Drives.save_to_disk
                { s4 with
                  entries := s4.entries.set idx
                    { s.entries.getD idx Drives.DirEntry.empty with
                      size := data.length % Drives.U32
                      first_block := p.1
                      block_count := (data.length + Drives.SECTOR_SIZE - 1)
                        / Drives.SECTOR_SIZE } })
              (p.1 + i) = true
          unfold Drives.fatBitSet
          rw [show (Drives.save_to_disk
              { s4 with
                entries := s4.entries.set idx
                  { s.entries.getD idx Drives.DirEntry.empty with
                    size := data.length % Drives.U32
                    first_block := p.1
                    block_count := (data.length + Drives.SECTOR_SIZE - 1)
                      / Drives.SECTOR_SIZE } }).fat = s4.fat from rfl, hws.2]
          exact hcov3 (p.1 + i) (by omega) hif

set_option maxRecDepth 16384 in
/-- C3 witness: a one-byte write to the file `f` created on a fresh format
records one block, and the bit of the single recorded number is set. -/
theorem write_file_contiguous_witness :
    ((Drives.write_file (Drives.create_file (Drives.format Drives.emptyDrive)
          Drives.fname).1 Drives.fname [7]).1.entries.getD 0
        Drives.DirEntry.empty).block_count
      = (([7] : List Nat).length + Drives.SECTOR_SIZE - 1) / Drives.SECTOR_SIZE
    ∧ Drives.fatBitSet (Drives.write_file (Drives.create_file
          (Drives.format Drives.emptyDrive) Drives.fname).1 Drives.fname [7]).1
        (((Drives.write_file (Drives.create_file (Drives.format Drives.emptyDrive)
              Drives.fname).1 Drives.fname [7]).1.entries.getD 0
            Drives.DirEntry.empty).first_block + 0) = true := by
  obtain ⟨h1, h2⟩ := write_file_contiguous
    (Drives.create_file (Drives.format Drives.emptyDrive) Drives.fname).1
    Drives.fname [7] 0 (by decide) (by decide)
  exact ⟨h1, h2 0 (by decide) (by decide)⟩

namespace Drives

/-- Reading an untouched slot. -/
theorem getD_set_ne : ∀ (l : List DirEntry) (idx j : Nat) (e : DirEntry), j ≠ idx →
    (l.set idx e).getD j DirEntry.empty = l.getD j DirEntry.empty := by
  intro l
  induction l with
  | nil => intro idx j e _; simp
  | cons x xs ih =>
    intro idx j e hne
    cases idx with
    | zero =>
      cases j with
      | zero => exact absurd rfl hne
      | succ m => simp [List.set]
    | succ k =>
      cases j with
      | zero => simp [List.set]
      | succ m => simpa [List.set] using ih k m e (by omega)

/-- A positionally read entry is a member of the table. -/
theorem getD_mem : ∀ (l : List DirEntry) (j : Nat), j < l.length →
    l.getD j DirEntry.empty ∈ l := by
  intro l
  induction l with
  | nil => intro j h; simp at h
  | cons x xs ih =>
    intro j h
    cases j with
    | zero => exact List.mem_cons_self _ _
    | succ m => exact List.mem_cons_of_mem _ (ih m (by simpa using h))

/-- `takeWhile (≠ 0)` of a NUL-free prefix followed by a NUL. -/
theorem takeWhile_nonzero_append :
    ∀ (u rest : List Nat), (∀ c ∈ u, c ≠ 0) →
      (u ++ 0 :: rest).takeWhile (· != 0) = u := by
  intro u
  induction u with
  | nil => intro rest _; simp [List.takeWhile]
  | cons x xs ih =>
    intro rest h
    have hx : x ≠ 0 := h x (List.mem_cons_self _ _)
    have hx' : (x != 0) = true := by simpa using hx
    simp only [List.cons_append, List.takeWhile_cons, hx', if_true]
    rw [ih rest (fun c hc => h c (List.mem_cons_of_mem _ hc))]

/-- `set_name` then `get_name` round-trips NUL-free names of at most 31
bytes. -/
theorem get_name_set_name (e : DirEntry) (n : List Nat)
    (h31 : n.length ≤ 31) (hnz : ∀ c ∈ n, c ≠ 0) :
    (e.set_name n).get_name = n := by
  unfold DirEntry.set_name DirEntry.get_name
  simp only
  rw [show MAX_FILENAME - 1 = 31 from rfl]
  have ht : n.take 31 = n := List.take_of_length_le h31
  rw [ht]
  rw [show MAX_FILENAME - n.length = (31 - n.length) + 1 from by
    rw [show MAX_FILENAME = 32 from rfl]; omega]
  rw [List.replicate_succ]
  exact takeWhile_nonzero_append n _ hnz

/-- A sector image produced by `chunk512` is exactly 512 bytes. -/
theorem chunk512_len (data : List Nat) (i : Nat) : (chunk512 data i).length = 512 := by
  unfold chunk512
  simp only [List.length_append, List.length_replicate, List.length_take]
  omega

/-- Sector normalisation is the identity on chunk images. -/
theorem sector512_chunk (data : List Nat) (i : Nat) :
    sector512 (chunk512 data i) = chunk512 data i := by
  unfold sector512
  rw [chunk512_len, show (512 : Nat) - 512 = 0 from rfl]
  rw [List.take_of_length_le (le_of_eq (chunk512_len data i))]
  simp

/-- Wrapping `usize` subtraction agrees with `Nat` subtraction below
`2^64`. -/
theorem wrapSub64_eq (a b : Nat) (hb : b ≤ a) (ha : a < Script.U64) :
    wrapSub64 a b = a - b := by
  unfold wrapSub64
  rw [Nat.mod_eq_of_lt (show a < Script.U64 from ha),
    Nat.mod_eq_of_lt (show b < Script.U64 by omega),
    show a + Script.U64 - b = (a - b) + Script.U64 from by omega,
    Nat.add_mod_right, Nat.mod_eq_of_lt (by omega)]

/-- Folds over `range k` agree when the step functions agree below `k`. -/
theorem foldl_congr_range {α : Type} (f g : α → Nat → α) :
    ∀ (k : Nat) (b : α), (∀ (a : α) (i : Nat), i < k → f a i = g a i) →
      (List.range k).foldl f b = (List.range k).foldl g b := by
  intro k
  induction k with
  | zero => intro b _; rfl
  | succ q ih =>
    intro b h
    rw [List.range_succ, List.foldl_append, List.foldl_append,
      List.foldl_cons, List.foldl_cons, List.foldl_nil, List.foldl_nil,
      ih b (fun a i hi => h a i (by omega)), h _ q (by omega)]

/-- The data-writing loop of `write_file` puts chunk `i` at sector
`DATA_START_SECTOR + first + i`. -/
theorem writeRun_disk (base : MountedDrive) (first : Nat) (data : List Nat) :
    ∀ (k i : Nat), i < k →
      (((List.range k).foldl
        (fun t j => write_sector t (DATA_START_SECTOR + first + j) (chunk512 data j))
        base).disk (DATA_START_SECTOR + first + i)) = chunk512 data i := by
  intro k
  induction k with
  | zero => intro i hi; omega
  | succ q ih =>
    intro i hi
    rw [List.range_succ, List.foldl_append, List.foldl_cons, List.foldl_nil]
    unfold write_sector
    simp only
    by_cases hiq : i = q
    · subst hiq
      rw [if_pos rfl]
    · rw [if_neg (by omega)]
      exact ih i (by omega)

/-- Reading the chunks back in order reassembles a `take` prefix of the
data. -/
theorem readFoldChunks (data : List Nat) (hU : data.length < Script.U64) :
    ∀ m, (∀ i < m, 512 * i < data.length) →
      (List.range m).foldl
        (fun acc i => acc ++ (chunk512 data i).take
          (min (wrapSub64 data.length acc.length) 512)) ([] : List Nat)
        = data.take (512 * m) := by
  intro m
  induction m with
  | zero => intro _; simp
  | succ q ih =>
    intro hpre
    rw [List.range_succ, List.foldl_append, List.foldl_cons, List.foldl_nil,
      ih (fun i hi => hpre i (by omega))]
    have hlq : 512 * q < data.length := hpre q (by omega)
    show data.take (512 * q) ++ (chunk512 data q).take
        (min (wrapSub64 data.length (data.take (512 * q)).length) 512)
      = data.take (512 * (q + 1))
    have hacclen : (data.take (512 * q)).length = 512 * q := by
      rw [List.length_take]
      omega
    rw [hacclen, wrapSub64_eq data.length (512 * q) (by omega) hU]
    unfold chunk512
    simp only
    have hplen : ((data.drop (q * 512)).take 512).length
        = min (data.length - 512 * q) 512 := by
      rw [List.length_take, List.length_drop]
      omega
    rw [← hplen, List.take_left]
    rw [show q * 512 = 512 * q from Nat.mul_comm q 512]
    rw [← List.take_add]
    rw [show 512 * q + 512 = 512 * (q + 1) from by ring]

end Drives

namespace Drives

/-- Writing `data` to an existing zero-block file entry succeeds and reads
back exactly `data`, provided a free FAT bit exists and
`0 < |data| ≤ 64·512`. -/
theorem write_then_read (s : MountedDrive) (n data : List Nat) (idx b : Nat)
    (hfind : find_entry s n = some idx)
    (hfile : (s.entries.getD idx DirEntry.empty).is_file = true)
    (hbc0 : (s.entries.getD idx DirEntry.empty).block_count = 0)
    (hff : findFreeBit s = some b)
    (hlen : 0 < data.length) (hcap : data.length ≤ 64 * 512) :
    (write_file s n data).2 = true
    ∧ read_file (write_file s n data).1 n = some data := by
  obtain ⟨hidx, hpred0, hmin0⟩ := position_eq_some hfind
  have hfob : freeOldBlocks s (s.entries.getD idx DirEntry.empty) = s := by
    unfold freeOldBlocks
    rw [hbc0]
    rfl
  have hd117 : DATA_START_SECTOR = 117 := rfl
  have hsz : SECTOR_SIZE = 512 := rfl
  have hKle : ¬((data.length + SECTOR_SIZE - 1) / SECTOR_SIZE > BLOCKS_PER_FILE) := by
    rw [hsz, show BLOCKS_PER_FILE = 64 from rfl]
    omega
  have hK0 : ¬((data.length + SECTOR_SIZE - 1) / SECTOR_SIZE = 0) := by
    rw [hsz]
    omega
  unfold write_file
  rw [hfind]
  simp only
  rw [hfob]
  rw [if_neg hKle, if_neg hK0]
  cases halloc : allocate_block s with
  | none =>
    exfalso
    unfold allocate_block at halloc
    rw [hff] at halloc
    cases halloc
  | some p =>
    obtain ⟨hblt, -, -, -, -, -, a7, -⟩ :=
      allocate_block_some (b := p.1) (t := p.2) (by rw [halloc])
    simp only
    set s3 := (List.range ((data.length + SECTOR_SIZE - 1) / SECTOR_SIZE - 1)).foldl
      (fun t _ => allocDrop t) p.2 with hs3
    set s4 := (List.range ((data.length + SECTOR_SIZE - 1) / SECTOR_SIZE)).foldl
      (fun t i => write_sector t (DATA_START_SECTOR + p.1 + i) (chunk512 data i)) s3 with hs4
    have hent3 : s3.entries = p.2.entries := by
      rw [hs3]
      refine foldl_inv (P := fun (t : MountedDrive) => t.entries = p.2.entries) _ ?_ _ _ rfl
      intro x a hx
      exact (allocDrop_frame x).1.trans hx
    have hws : s4.entries = s3.entries := by
      rw [hs4]
      refine foldl_inv (P := fun (t : MountedDrive) => t.entries = s3.entries) _ ?_ _ _ rfl
      intro x a hx
      exact hx
    have hent4 : s4.entries = s.entries := by rw [hws, hent3, a7]
    refine ⟨trivial, ?_⟩
    show read_file (save_to_disk
        { s4 with
          entries := s4.entries.set idx
            { s.entries.getD idx DirEntry.empty with
              size := data.length % U32
              first_block := p.1
              block_count := (data.length + SECTOR_SIZE - 1) / SECTOR_SIZE } }) n
      = some data
    set F := save_to_disk
        { s4 with
          entries := s4.entries.set idx
            { s.entries.getD idx DirEntry.empty with
              size := data.length % U32
              first_block := p.1
              block_count := (data.length + SECTOR_SIZE - 1) / SECTOR_SIZE } } with hF
    have hFent : F.entries = s4.entries.set idx
        { s.entries.getD idx DirEntry.empty with
          size := data.length % U32
          first_block := p.1
          block_count := (data.length + SECTOR_SIZE - 1) / SECTOR_SIZE } := by
      rw [hF]
      rfl
    have hgdF : F.entries.getD idx DirEntry.empty
        = { s.entries.getD idx DirEntry.empty with
            size := data.length % U32
            first_block := p.1
            block_count := (data.length + SECTOR_SIZE - 1) / SECTOR_SIZE } := by
      rw [hFent]
      exact getD_set_self _ idx _ (by rw [hent4]; exact hidx)
    have hpredE : (!({ s.entries.getD idx DirEntry.empty with
        size := data.length % U32
        first_block := p.1
        block_count := (data.length + SECTOR_SIZE - 1) / SECTOR_SIZE } : DirEntry).is_empty
        && (({ s.entries.getD idx DirEntry.empty with
            size := data.length % U32
            first_block := p.1
            block_count := (data.length + SECTOR_SIZE - 1)
              / SECTOR_SIZE } : DirEntry).get_name == n)) = true := hpred0
    have hfindF : find_entry F n = some idx := by
      unfold find_entry
      rw [hFent]
      refine position_eq_some_of _ idx ?_ ?_ ?_
      · rw [List.length_set, hent4]
        exact hidx
      · rw [getD_set_self _ idx _ (by rw [hent4]; exact hidx)]
        exact hpredE
      · intro j hj
        rw [getD_set_ne _ idx j _ (by omega), hent4]
        exact hmin0 j hj
    unfold read_file
    rw [hfindF]
    simp only
    rw [hgdF]
    have hisf : ({ s.entries.getD idx DirEntry.empty with
        size := data.length % U32
        first_block := p.1
        block_count := (data.length + SECTOR_SIZE - 1) / SECTOR_SIZE } : DirEntry).is_file
        = true := hfile
    have hszE : ({ s.entries.getD idx DirEntry.empty with
        size := data.length % U32
        first_block := p.1
        block_count := (data.length + SECTOR_SIZE - 1) / SECTOR_SIZE } : DirEntry).size
        = data.length % U32 := rfl
    have hmod : data.length % U32 = data.length :=
      Nat.mod_eq_of_lt (by rw [u32_eq]; omega)
    rw [if_neg (by rw [hisf]; decide)]
    rw [if_neg (by rw [hszE, hmod]; omega)]
    refine congrArg some ?_
    rw [show ({ s.entries.getD idx DirEntry.empty with
        size := data.length % U32
        first_block := p.1
        block_count := (data.length + SECTOR_SIZE - 1)
          / SECTOR_SIZE } : DirEntry).block_count
        = (data.length + SECTOR_SIZE - 1) / SECTOR_SIZE from rfl]
    rw [show ({ s.entries.getD idx DirEntry.empty with
        size := data.length % U32
        first_block := p.1
        block_count := (data.length + SECTOR_SIZE - 1)
          / SECTOR_SIZE } : DirEntry).first_block = p.1 from rfl]
    rw [hszE, hmod]
    have hsec : ∀ i, i < (data.length + SECTOR_SIZE - 1) / SECTOR_SIZE →
        read_sector F ((DATA_START_SECTOR + p.1 + i) % U32) = chunk512 data i := by
      intro i hi
      have hfbits := fatbits_eq
      have hu := u32_eq
      have hiK : i < 64 := by rw [hsz] at hi; omega
      have hmods : (DATA_START_SECTOR + p.1 + i) % U32 = DATA_START_SECTOR + p.1 + i := by
        apply Nat.mod_eq_of_lt
        omega
      rw [hmods]
      unfold read_sector
      have hdisk : F.disk (DATA_START_SECTOR + p.1 + i) = chunk512 data i := by
        rw [hF]
        unfold save_to_disk
        simp only
        rw [if_neg (by omega), if_neg (by omega), if_neg (by omega)]
        show s4.disk (DATA_START_SECTOR + p.1 + i) = chunk512 data i
        rw [hs4]
        exact writeRun_disk s3 p.1 data _ i hi
      rw [hdisk, sector512_chunk]
    rw [foldl_congr_range _
      (fun acc i => acc ++ (chunk512 data i).take
        (min (wrapSub64 data.length acc.length) 512))
      _ [] (fun a i hi => by rw [hsec i hi, hsz])]
    rw [readFoldChunks data (by rw [show Script.U64 = 2 ^ 64 from rfl]; omega)
      ((data.length + SECTOR_SIZE - 1) / SECTOR_SIZE)
      (fun i hi => by rw [hsz] at hi; omega)]
    rw [List.take_of_length_le (by rw [hsz]; omega)]

end Drives

/-- C1 (amended): the round trip `create(n); write(n, data); read(n) =
some data` holds for non-empty `data` of at most `64·512` bytes and a fresh
NUL-free name of at most 31 bytes — provided a directory slot is free and a
FAT bit is free after the create.  Without the free-slot condition the
sequence fails (see the counterexample). -/
theorem roundtrip_amended (s : Drives.MountedDrive) (n data : List Nat) (idx b : Nat)
    (hfresh : Drives.find_entry s n = none)
    (hslot : Drives.find_free_entry s = some idx)
    (h31 : n.length ≤ 31) (hnz : ∀ c ∈ n, c ≠ 0)
    (hff : Drives.findFreeBit (Drives.create_file s n).1 = some b)
    (hlen : 0 < data.length) (hcap : data.length ≤ 64 * 512) :
    (Drives.create_file s n).2 = true
    ∧ (Drives.write_file (Drives.create_file s n).1 n data).2 = true
    ∧ Drives.read_file (Drives.write_file (Drives.create_file s n).1 n data).1 n
      = some data := by
  obtain ⟨hidx, -, -⟩ := Drives.position_eq_some hslot
  have hcr : Drives.create_file s n = (Drives.save_to_disk
      { s with
        entries := s.entries.set idx
          { Drives.DirEntry.empty.set_name n with file_type := 1 }
        superblock := { s.superblock with
                        used_entries := (s.superblock.used_entries + 1) % Drives.U32 } },
      true) := by
    unfold Drives.create_file
    rw [hfresh, hslot]
    rfl
  set S1 := Drives.save_to_disk
      { s with
        entries := s.entries.set idx
          { Drives.DirEntry.empty.set_name n with file_type := 1 }
        superblock := { s.superblock with
                        used_entries := (s.superblock.used_entries + 1) % Drives.U32 } }
    with hS1
  have hS1ent : S1.entries = s.entries.set idx
      { Drives.DirEntry.empty.set_name n with file_type := 1 } := by
    rw [hS1]
    rfl
  have hgd1 : S1.entries.getD idx Drives.DirEntry.empty
      = { Drives.DirEntry.empty.set_name n with file_type := 1 } := by
    rw [hS1ent]
    exact Drives.getD_set_self _ idx _ hidx
  have hgn : ({ Drives.DirEntry.empty.set_name n with
      file_type := 1 } : Drives.DirEntry).get_name = n :=
    Drives.get_name_set_name Drives.DirEntry.empty n h31 hnz
  have hie : ({ Drives.DirEntry.empty.set_name n with
      file_type := 1 } : Drives.DirEntry).is_empty = false := rfl
  have hfindS1 : Drives.find_entry S1 n = some idx := by
    unfold Drives.find_entry
    rw [hS1ent]
    refine Drives.position_eq_some_of _ idx ?_ ?_ ?_
    · rw [List.length_set]
      exact hidx
    · rw [Drives.getD_set_self _ idx _ hidx, hie, hgn]
      simp
    · intro j hj
      rw [Drives.getD_set_ne _ idx j _ (by omega)]
      exact (Drives.position_eq_none.mp hfresh) _
        (Drives.getD_mem _ j (by omega))
  have hfileS1 : (S1.entries.getD idx Drives.DirEntry.empty).is_file = true := by
    rw [hgd1]
    rfl
  have hbc0S1 : (S1.entries.getD idx Drives.DirEntry.empty).block_count = 0 := by
    rw [hgd1]
    rfl
  have hff' : Drives.findFreeBit S1 = some b := by
    rw [hcr] at hff
    exact hff
  obtain ⟨hw2, hread⟩ :=
    Drives.write_then_read S1 n data idx b hfindS1 hfileS1 hbc0S1 hff' hlen hcap
  refine ⟨by rw [hcr], ?_, ?_⟩
  · rw [hcr]
    exact hw2
  · rw [hcr]
    exact hread

set_option maxRecDepth 16384 in
/-- C1 counterexample: on a drive whose 128-entry directory is full of
files named `a`, the fresh name `b` is not present, yet
create; write; read of one byte returns `none`, not the content — the
round trip needs a free directory slot. -/
theorem roundtrip_counterexample :
    Drives.find_entry Drives.fullDrive [98] = none
    ∧ Drives.read_file (Drives.write_file
        (Drives.create_file Drives.fullDrive [98]).1 [98] [7]).1 [98] ≠ some [7] := by
  decide

set_option maxRecDepth 16384 in
/-- C1 witness: on a freshly formatted drive, create `f`, write the byte
`[7]`, read it back. -/
theorem roundtrip_amended_witness :
    (Drives.create_file (Drives.format Drives.emptyDrive) Drives.fname).2 = true
    ∧ (Drives.write_file (Drives.create_file (Drives.format Drives.emptyDrive)
        Drives.fname).1 Drives.fname [7]).2 = true
    ∧ Drives.read_file (Drives.write_file (Drives.create_file
        (Drives.format Drives.emptyDrive) Drives.fname).1 Drives.fname [7]).1 Drives.fname
      = some [7] :=
  roundtrip_amended (Drives.format Drives.emptyDrive) Drives.fname [7] 0 0
    (by decide) (by decide) (by decide) (by decide) (by decide) (by decide) (by decide)

namespace Disp

/-- Bits 8 and above of a byte value are clear. -/
theorem testBit_byte (v : Nat) (hv : v < 256) (k : Nat) (hk : 8 ≤ k) :
    v.testBit k = false :=
  Nat.testBit_lt_two_pow
    (lt_of_lt_of_le hv (le_trans (by norm_num) (Nat.pow_le_pow_right (by omega) hk)))

/-- The alpha byte of a read-back pixel XORed with `0x00FFFFFF` stays
`0xFF`. -/
theorem xor_read_alpha (r g b : Nat) (hr : r < 256) (hg : g < 256) (hb : b < 256) :
    (((0xFF000000 ||| (r <<< 16) ||| (g <<< 8) ||| b) ^^^ 0x00FFFFFF) >>> 24) &&& 255
      = 255 := by
  apply Nat.eq_of_testBit_eq
  intro j
  rw [show (0xFF000000 : Nat) = 255 <<< 24 from rfl,
    show (0x00FFFFFF : Nat) = 2 ^ 24 - 1 from rfl]
  simp only [Nat.testBit_and, Nat.testBit_xor, Nat.testBit_lor, Nat.testBit_shiftRight,
    Nat.testBit_shiftLeft, Nat.testBit_two_pow_sub_one]
  rw [show 24 + j - 24 = j from by omega, show 24 + j - 16 = 8 + j from by omega,
    show 24 + j - 8 = 16 + j from by omega,
    testBit_byte r hr (8 + j) (by omega), testBit_byte g hg (16 + j) (by omega),
    testBit_byte b hb (24 + j) (by omega)]
  simp

/-- The red byte of a read-back pixel XORed with `0x00FFFFFF` is the
complement. -/
theorem xor_read_red (r g b : Nat) (hr : r < 256) (hg : g < 256) (hb : b < 256) :
    (((0xFF000000 ||| (r <<< 16) ||| (g <<< 8) ||| b) ^^^ 0x00FFFFFF) >>> 16) &&& 255
      = r ^^^ 255 := by
  apply Nat.eq_of_testBit_eq
  intro j
  rw [show (0xFF000000 : Nat) = 255 <<< 24 from rfl,
    show (0x00FFFFFF : Nat) = 2 ^ 24 - 1 from rfl]
  simp only [Nat.testBit_and, Nat.testBit_xor, Nat.testBit_lor, Nat.testBit_shiftRight,
    Nat.testBit_shiftLeft, Nat.testBit_two_pow_sub_one]
  by_cases hj : j < 8
  · rw [show 16 + j - 16 = j from by omega,
      decide_eq_false (by omega : ¬(16 + j ≥ 24)),
      decide_eq_true (by omega : 16 + j < 24),
      testBit_byte g hg (16 + j - 8) (by omega),
      testBit_byte b hb (16 + j) (by omega)]
    have h255 : Nat.testBit 255 j = true := by
      rw [show (255 : Nat) = 2 ^ 8 - 1 from rfl, Nat.testBit_two_pow_sub_one]
      simpa using hj
    simp [h255]
  · rw [testBit_byte r hr j (by omega)]
    have h255 : Nat.testBit 255 j = false := by
      rw [show (255 : Nat) = 2 ^ 8 - 1 from rfl, Nat.testBit_two_pow_sub_one]
      simpa using hj
    simp [h255]

/-- The green byte of a read-back pixel XORed with `0x00FFFFFF` is the
complement. -/
theorem xor_read_green (r g b : Nat) (hr : r < 256) (hg : g < 256) (hb : b < 256) :
    (((0xFF000000 ||| (r <<< 16) ||| (g <<< 8) ||| b) ^^^ 0x00FFFFFF) >>> 8) &&& 255
      = g ^^^ 255 := by
  apply Nat.eq_of_testBit_eq
  intro j
  rw [show (0xFF000000 : Nat) = 255 <<< 24 from rfl,
    show (0x00FFFFFF : Nat) = 2 ^ 24 - 1 from rfl]
  simp only [Nat.testBit_and, Nat.testBit_xor, Nat.testBit_lor, Nat.testBit_shiftRight,
    Nat.testBit_shiftLeft, Nat.testBit_two_pow_sub_one]
  by_cases hj : j < 8
  · rw [show 8 + j - 8 = j from by omega,
      decide_eq_false (by omega : ¬(8 + j ≥ 24)),
      decide_eq_false (by omega : ¬(8 + j ≥ 16)),
      decide_eq_true (by omega : 8 + j < 24),
      testBit_byte b hb (8 + j) (by omega)]
    have h255 : Nat.testBit 255 j = true := by
      rw [show (255 : Nat) = 2 ^ 8 - 1 from rfl, Nat.testBit_two_pow_sub_one]
      simpa using hj
    simp [h255]
  · rw [testBit_byte g hg j (by omega)]
    have h255 : Nat.testBit 255 j = false := by
      rw [show (255 : Nat) = 2 ^ 8 - 1 from rfl, Nat.testBit_two_pow_sub_one]
      simpa using hj
    simp [h255]

/-- The blue byte of a read-back pixel XORed with `0x00FFFFFF` is the
complement. -/
theorem xor_read_blue (r g b : Nat) (hr : r < 256) (hg : g < 256) (hb : b < 256) :
    ((0xFF000000 ||| (r <<< 16) ||| (g <<< 8) ||| b) ^^^ 0x00FFFFFF) &&& 255
      = b ^^^ 255 := by
  apply Nat.eq_of_testBit_eq
  intro j
  rw [show (0xFF000000 : Nat) = 255 <<< 24 from rfl,
    show (0x00FFFFFF : Nat) = 2 ^ 24 - 1 from rfl]
  simp only [Nat.testBit_and, Nat.testBit_xor, Nat.testBit_lor, Nat.testBit_shiftRight,
    Nat.testBit_shiftLeft, Nat.testBit_two_pow_sub_one]
  by_cases hj : j < 8
  · rw [decide_eq_false (by omega : ¬(j ≥ 24)),
      decide_eq_false (by omega : ¬(j ≥ 16)),
      decide_eq_false (by omega : ¬(j ≥ 8)),
      decide_eq_true (by omega : j < 24)]
    have h255 : Nat.testBit 255 j = true := by
      rw [show (255 : Nat) = 2 ^ 8 - 1 from rfl, Nat.testBit_two_pow_sub_one]
      simpa using hj
    simp [h255]
  · rw [testBit_byte b hb j (by omega)]
    have h255 : Nat.testBit 255 j = false := by
      rw [show (255 : Nat) = 2 ^ 8 - 1 from rfl, Nat.testBit_two_pow_sub_one]
      simpa using hj
    simp [h255]

/-- `updBytes` inside the window. -/
theorem updBytes_in (f : Nat → Nat) (o : Nat) (bs : List Nat) (i : Nat)
    (h1 : o ≤ i) (h2 : i < o + bs.length) : updBytes f o bs i = bs.getD (i - o) 0 := by
  unfold updBytes
  rw [if_pos ⟨h1, h2⟩]

/-- `updBytes` outside the window. -/
theorem updBytes_out (f : Nat → Nat) (o : Nat) (bs : List Nat) (i : Nat)
    (h : i < o ∨ o + bs.length ≤ i) : updBytes f o bs i = f i := by
  unfold updBytes
  rw [if_neg (by omega)]

/-- `xorStep` on a BGR direct-mode screen complements the three colour
bytes and sets the alpha byte. -/
theorem xorStep_bgr (s : Screen) (x y : Nat)
    (hbb : s.use_back_buffer = false)
    (hfmt : s.pixel_format = PixelFormat.bgr)
    (hbpp : s.bytes_per_pixel = 4)
    (hin : (y * s.stride + x) * 4 + 4 ≤ s.fbLen)
    (hfbok : ∀ i, s.fb i < 256) :
    xorStep s x y
      = { s with
          fb := updBytes s.fb ((y * s.stride + x) * 4)
            [s.fb ((y * s.stride + x) * 4) ^^^ 255,
             s.fb ((y * s.stride + x) * 4 + 1) ^^^ 255,
             s.fb ((y * s.stride + x) * 4 + 2) ^^^ 255, 255] } := by
  have hread : read_pixel s x y
      = 0xFF000000 ||| (s.fb ((y * s.stride + x) * 4 + 2) <<< 16)
        ||| (s.fb ((y * s.stride + x) * 4 + 1) <<< 8) ||| s.fb ((y * s.stride + x) * 4) := by
    unfold read_pixel
    simp only
    rw [hbpp, if_pos hin]
  have hctb : color_to_bytes (read_pixel s x y ^^^ 0x00FFFFFF) s.pixel_format
      = some [s.fb ((y * s.stride + x) * 4) ^^^ 255,
              s.fb ((y * s.stride + x) * 4 + 1) ^^^ 255,
              s.fb ((y * s.stride + x) * 4 + 2) ^^^ 255, 255] := by
    rw [hread, hfmt]
    unfold color_to_bytes
    simp only
    rw [xor_read_alpha _ _ _ (hfbok _) (hfbok _) (hfbok _),
      xor_read_red _ _ _ (hfbok _) (hfbok _) (hfbok _),
      xor_read_green _ _ _ (hfbok _) (hfbok _) (hfbok _),
      xor_read_blue _ _ _ (hfbok _) (hfbok _) (hfbok _)]
    rw [if_neg (by simp)]
  unfold xorStep write_pixel
  rw [hctb]
  simp only
  rw [if_neg (by simp)]
  unfold write_to_buffer
  simp only
  rw [if_neg (by simp [hbb]), hbpp, if_pos hin,
    List.take_of_length_le (by simp)]

/-- `xorStep` on an RGB direct-mode screen complements the three colour
bytes crosswise and sets the alpha byte. -/
theorem xorStep_rgb (s : Screen) (x y : Nat)
    (hbb : s.use_back_buffer = false)
    (hfmt : s.pixel_format = PixelFormat.rgb)
    (hbpp : s.bytes_per_pixel = 4)
    (hin : (y * s.stride + x) * 4 + 4 ≤ s.fbLen)
    (hfbok : ∀ i, s.fb i < 256) :
    xorStep s x y
      = { s with
          fb := updBytes s.fb ((y * s.stride + x) * 4)
            [s.fb ((y * s.stride + x) * 4 + 2) ^^^ 255,
             s.fb ((y * s.stride + x) * 4 + 1) ^^^ 255,
             s.fb ((y * s.stride + x) * 4) ^^^ 255, 255] } := by
  have hread : read_pixel s x y
      = 0xFF000000 ||| (s.fb ((y * s.stride + x) * 4 + 2) <<< 16)
        ||| (s.fb ((y * s.stride + x) * 4 + 1) <<< 8) ||| s.fb ((y * s.stride + x) * 4) := by
    unfold read_pixel
    simp only
    rw [hbpp, if_pos hin]
  have hctb : color_to_bytes (read_pixel s x y ^^^ 0x00FFFFFF) s.pixel_format
      = some [s.fb ((y * s.stride + x) * 4 + 2) ^^^ 255,
              s.fb ((y * s.stride + x) * 4 + 1) ^^^ 255,
              s.fb ((y * s.stride + x) * 4) ^^^ 255, 255] := by
    rw [hread, hfmt]
    unfold color_to_bytes
    simp only
    rw [xor_read_alpha _ _ _ (hfbok _) (hfbok _) (hfbok _),
      xor_read_red _ _ _ (hfbok _) (hfbok _) (hfbok _),
      xor_read_green _ _ _ (hfbok _) (hfbok _) (hfbok _),
      xor_read_blue _ _ _ (hfbok _) (hfbok _) (hfbok _)]
    rw [if_neg (by simp)]
  unfold xorStep write_pixel
  rw [hctb]
  simp only
  rw [if_neg (by simp)]
  unfold write_to_buffer
  simp only
  rw [if_neg (by simp [hbb]), hbpp, if_pos hin,
    List.take_of_length_le (by simp)]

end Disp

/-- `foldl_inv` with list membership available in the step hypothesis. -/
theorem foldl_inv_mem {α : Type} {β : Type} {P : β → Prop} (f : β → α → β) :
    ∀ (l : List α), (∀ x a, a ∈ l → P x → P (f x a)) → ∀ b, P b → P (l.foldl f b) := by
  intro l
  induction l with
  | nil => intro _ b hb; exact hb
  | cons x xs ih =>
    intro hf b hb
    exact ih (fun t a ha ht => hf t a (List.mem_cons_of_mem _ ha) ht) (f b x)
      (hf b x (List.mem_cons_self _ _) hb)

namespace Disp

theorem sameGeom_refl (s : Screen) : sameGeom s s :=
  ⟨rfl, rfl, rfl, rfl, rfl, rfl, rfl, rfl⟩

theorem sameGeom_trans {s t u : Screen} (h1 : sameGeom s t) (h2 : sameGeom t u) :
    sameGeom s u := by
  obtain ⟨a1, a2, a3, a4, a5, a6, a7, a8⟩ := h1
  obtain ⟨b1, b2, b3, b4, b5, b6, b7, b8⟩ := h2
  exact ⟨b1.trans a1, b2.trans a2, b3.trans a3, b4.trans a4, b5.trans a5,
    b6.trans a6, b7.trans a7, b8.trans a8⟩

theorem pixEquiv_refl (s : Screen) : pixEquiv s s :=
  ⟨sameGeom_refl s, fun _ _ => rfl⟩

theorem pixEquiv_trans {s t u : Screen} (h1 : pixEquiv s t) (h2 : pixEquiv t u) :
    pixEquiv s u :=
  ⟨sameGeom_trans h1.1 h2.1, fun i hi => (h2.2 i hi).trans (h1.2 i hi)⟩

/-- `xorStep` never touches the geometry fields, in any mode. -/
theorem xorStep_shape0 (s : Screen) (x y : Nat) : sameGeom s (xorStep s x y) := by
  unfold xorStep write_pixel write_to_buffer
  simp only
  repeat' split
  all_goals exact ⟨rfl, rfl, rfl, rfl, rfl, rfl, rfl, rfl⟩

/-- Every byte list `color_to_bytes` emits is byte-valued. -/
theorem color_to_bytes_bounded (c : Nat) (fmt : PixelFormat) (bs : List Nat)
    (h : color_to_bytes c fmt = some bs) : ∀ v ∈ bs, v < 256 := by
  have hand : ∀ a : Nat, a &&& 255 < 256 := fun a =>
    lt_of_le_of_lt (Nat.and_le_right) (by omega)
  have halpha : (if (c >>> 24) &&& 255 = 0
        ∧ ((c >>> 16) &&& 255) ||| ((c >>> 8) &&& 255) ||| (c &&& 255) ≠ 0
      then 255 else (c >>> 24) &&& 255) < 256 := by
    split
    · omega
    · exact hand _
  unfold color_to_bytes at h
  cases fmt with
  | rgb =>
    injection h with h
    subst h
    intro v hv
    simp only [List.mem_cons, List.not_mem_nil, or_false] at hv
    rcases hv with rfl | rfl | rfl | rfl
    · exact hand _
    · exact hand _
    · exact hand _
    · exact halpha
  | bgr =>
    injection h with h
    subst h
    intro v hv
    simp only [List.mem_cons, List.not_mem_nil, or_false] at hv
    rcases hv with rfl | rfl | rfl | rfl
    · exact hand _
    · exact hand _
    · exact hand _
    · exact halpha
  | u8 =>
    injection h with h
    subst h
    intro v hv
    simp only [List.mem_cons, List.not_mem_nil, or_false] at hv
    have h1 := hand ((c >>> 16))
    have h2 := hand ((c >>> 8))
    have h3 := hand c
    rcases hv with rfl | rfl | rfl | rfl
    · omega
    · omega
    · omega
    · exact halpha
  | unknown rp gp bp =>
    injection h with h
    subst h
    intro v hv
    simp only [List.mem_cons, List.not_mem_nil, or_false] at hv
    rcases hv with rfl | rfl | rfl | rfl
    · exact hand _
    · exact hand _
    · exact hand _
    · exact halpha

/-- `getD` of a byte-valued list with a byte-valued default. -/
theorem getD_lt256 : ∀ (l : List Nat) (i : Nat), (∀ v ∈ l, v < 256) →
    l.getD i 0 < 256 := by
  intro l
  induction l with
  | nil => intro i _; simp [List.getD]
  | cons x xs ih =>
    intro i h
    cases i with
    | zero => exact h x (List.mem_cons_self _ _)
    | succ k =>
      simpa using ih k (fun v hv => h v (List.mem_cons_of_mem _ hv))

/-- `xorStep` keeps the framebuffer byte-valued, in any mode. -/
theorem xorStep_fbok0 (s : Screen) (x y : Nat) (hfbok : ∀ i, s.fb i < 256) :
    ∀ i, (xorStep s x y).fb i < 256 := by
  intro i
  unfold xorStep write_pixel
  cases hc : color_to_bytes (read_pixel s x y ^^^ 0x00FFFFFF) s.pixel_format with
  | none => exact hfbok i
  | some bs =>
    simp only
    split
    · exact hfbok i
    · unfold write_to_buffer
      simp only
      have hbnd := color_to_bytes_bounded _ _ _ hc
      split
      · split
        · exact hfbok i
        · exact hfbok i
      · split
        · show updBytes s.fb _ (bs.take s.bytes_per_pixel) i < 256
          unfold updBytes
          split
          · refine getD_lt256 _ _ ?_
            intro v hv
            exact hbnd v (List.mem_of_mem_take hv)
          · exact hfbok i
        · exact hfbok i

end Disp

namespace Disp

/-- `xorStep_bgr` with the byte offset abstracted. -/
theorem xorStep_bgr_off (s : Screen) (x y o : Nat)
    (ho : o = (y * s.stride + x) * 4)
    (hbb : s.use_back_buffer = false)
    (hfmt : s.pixel_format = PixelFormat.bgr)
    (hbpp : s.bytes_per_pixel = 4)
    (hin : o + 4 ≤ s.fbLen)
    (hfbok : ∀ i, s.fb i < 256) :
    xorStep s x y
      = { s with
          fb := updBytes s.fb o
            [s.fb o ^^^ 255, s.fb (o + 1) ^^^ 255, s.fb (o + 2) ^^^ 255, 255] } := by
  subst ho
  exact xorStep_bgr s x y hbb hfmt hbpp hin hfbok

/-- `xorStep_rgb` with the byte offset abstracted. -/
theorem xorStep_rgb_off (s : Screen) (x y o : Nat)
    (ho : o = (y * s.stride + x) * 4)
    (hbb : s.use_back_buffer = false)
    (hfmt : s.pixel_format = PixelFormat.rgb)
    (hbpp : s.bytes_per_pixel = 4)
    (hin : o + 4 ≤ s.fbLen)
    (hfbok : ∀ i, s.fb i < 256) :
    xorStep s x y
      = { s with
          fb := updBytes s.fb o
            [s.fb (o + 2) ^^^ 255, s.fb (o + 1) ^^^ 255, s.fb o ^^^ 255, 255] } := by
  subst ho
  exact xorStep_rgb s x y hbb hfmt hbpp hin hfbok

/-- The four in-window reads of a freshly updated 4-byte window. -/
theorem updBytes4_at (f : Nat → Nat) (o a b c d : Nat) :
    updBytes f o [a, b, c, d] o = a
    ∧ updBytes f o [a, b, c, d] (o + 1) = b
    ∧ updBytes f o [a, b, c, d] (o + 2) = c
    ∧ updBytes f o [a, b, c, d] (o + 3) = d := by
  refine ⟨?_, ?_, ?_, ?_⟩
  · rw [updBytes_in _ _ _ _ (le_refl o) (by simp), Nat.sub_self]
    rfl
  · rw [updBytes_in _ _ _ _ (by omega) (by simp),
      show o + 1 - o = 1 from by omega]
    rfl
  · rw [updBytes_in _ _ _ _ (by omega) (by simp),
      show o + 2 - o = 2 from by omega]
    rfl
  · rw [updBytes_in _ _ _ _ (by omega) (by simp),
      show o + 3 - o = 3 from by omega]
    rfl

/-- Writing back the original three colour bytes over a toggled window
restores everything but the alpha byte. -/
theorem updBytes_restore (f : Nat → Nat) (o : Nat) (L1 : List Nat) (hL1 : L1.length = 4) :
    ∀ i, updBytes (updBytes f o L1) o [f o, f (o + 1), f (o + 2), 255] i
      = if i = o + 3 then 255 else f i := by
  intro i
  by_cases hwin : o ≤ i ∧ i < o + 4
  · rw [updBytes_in _ _ _ _ hwin.1 (by simp; omega)]
    have h4 : i - o = 0 ∨ i - o = 1 ∨ i - o = 2 ∨ i - o = 3 := by omega
    rcases h4 with h | h | h | h
    · rw [h, show i = o from by omega, if_neg (by omega)]
      rfl
    · rw [h, show i = o + 1 from by omega, if_neg (by omega)]
      rfl
    · rw [h, show i = o + 2 from by omega, if_neg (by omega)]
      rfl
    · rw [h, show i = o + 3 from by omega, if_pos rfl]
      rfl
  · rw [updBytes_out _ _ _ _ (by simp; omega),
      updBytes_out _ _ _ _ (by rw [hL1]; omega), if_neg (by omega)]

/-- `xorStep` leaves bytes outside its 4-byte window untouched. -/
theorem xorStep_out (s : Screen) (x y o : Nat)
    (ho : o = (y * s.stride + x) * 4)
    (hbb : s.use_back_buffer = false)
    (hfmt : s.pixel_format = PixelFormat.bgr ∨ s.pixel_format = PixelFormat.rgb)
    (hbpp : s.bytes_per_pixel = 4)
    (hin : o + 4 ≤ s.fbLen)
    (hfbok : ∀ i, s.fb i < 256) :
    ∀ i, i < o ∨ o + 4 ≤ i → (xorStep s x y).fb i = s.fb i := by
  intro i hi
  rcases hfmt with h | h
  · rw [xorStep_bgr_off s x y o ho hbb h hbpp hin hfbok]
    exact updBytes_out _ _ _ _ (by simp; omega)
  · rw [xorStep_rgb_off s x y o ho hbb h hbpp hin hfbok]
    exact updBytes_out _ _ _ _ (by simp; omega)

/-- Toggling the same pixel twice restores the three colour bytes and
leaves `255` in the alpha byte. -/
theorem xorStep_double (s : Screen) (x y o : Nat)
    (ho : o = (y * s.stride + x) * 4)
    (hbb : s.use_back_buffer = false)
    (hfmt : s.pixel_format = PixelFormat.bgr ∨ s.pixel_format = PixelFormat.rgb)
    (hbpp : s.bytes_per_pixel = 4)
    (hin : o + 4 ≤ s.fbLen)
    (hfbok : ∀ i, s.fb i < 256) :
    ∀ i, (xorStep (xorStep s x y) x y).fb i = if i = o + 3 then 255 else s.fb i := by
  have hxor : ∀ v : Nat, v ^^^ 255 ^^^ 255 = v := fun v => by
    rw [Nat.xor_assoc, Nat.xor_self, Nat.xor_zero]
  obtain ⟨g1, g2, g3, g4, g5, g6, g7, g8⟩ := xorStep_shape0 s x y
  have hfbok1 := xorStep_fbok0 s x y hfbok
  intro i
  rcases hfmt with h | h
  · have h1 := xorStep_bgr_off s x y o ho hbb h hbpp hin hfbok
    have hf1 : (xorStep s x y).fb = updBytes s.fb o
        [s.fb o ^^^ 255, s.fb (o + 1) ^^^ 255, s.fb (o + 2) ^^^ 255, 255] := by
      rw [h1]
    have h2 := xorStep_bgr_off (xorStep s x y) x y o
      (by rw [g4]; exact ho) (g8.trans hbb) (g6.trans h) (g3.trans hbpp)
      (by rw [g5]; exact hin) hfbok1
    rw [h2]
    show updBytes (xorStep s x y).fb o
        [(xorStep s x y).fb o ^^^ 255, (xorStep s x y).fb (o + 1) ^^^ 255,
         (xorStep s x y).fb (o + 2) ^^^ 255, 255] i = _
    obtain ⟨e0, e1, e2, -⟩ := updBytes4_at s.fb o (s.fb o ^^^ 255) (s.fb (o + 1) ^^^ 255)
      (s.fb (o + 2) ^^^ 255) 255
    rw [hf1, e0, e1, e2, hxor, hxor, hxor]
    exact updBytes_restore s.fb o _ (by simp) i
  · have h1 := xorStep_rgb_off s x y o ho hbb h hbpp hin hfbok
    have hf1 : (xorStep s x y).fb = updBytes s.fb o
        [s.fb (o + 2) ^^^ 255, s.fb (o + 1) ^^^ 255, s.fb o ^^^ 255, 255] := by
      rw [h1]
    have h2 := xorStep_rgb_off (xorStep s x y) x y o
      (by rw [g4]; exact ho) (g8.trans hbb) (g6.trans h) (g3.trans hbpp)
      (by rw [g5]; exact hin) hfbok1
    rw [h2]
    show updBytes (xorStep s x y).fb o
        [(xorStep s x y).fb (o + 2) ^^^ 255, (xorStep s x y).fb (o + 1) ^^^ 255,
         (xorStep s x y).fb o ^^^ 255, 255] i = _
    obtain ⟨e0, e1, e2, -⟩ := updBytes4_at s.fb o (s.fb (o + 2) ^^^ 255)
      (s.fb (o + 1) ^^^ 255) (s.fb o ^^^ 255) 255
    rw [hf1, e0, e1, e2, hxor, hxor, hxor]
    exact updBytes_restore s.fb o _ (by simp) i

end Disp

namespace Disp

/-- `xorStep` at the same pixel respects pixel-level equivalence. -/
theorem xorStep_pixEquiv (s t : Screen) (x y o : Nat)
    (ho : o = (y * s.stride + x) * 4)
    (hbb : s.use_back_buffer = false)
    (hfmt : s.pixel_format = PixelFormat.bgr ∨ s.pixel_format = PixelFormat.rgb)
    (hbpp : s.bytes_per_pixel = 4)
    (hin : o + 4 ≤ s.fbLen)
    (hfboks : ∀ i, s.fb i < 256)
    (hfbokt : ∀ i, t.fb i < 256)
    (heq : pixEquiv s t) :
    pixEquiv (xorStep s x y) (xorStep t x y) := by
  obtain ⟨⟨q1, q2, q3, q4, q5, q6, q7, q8⟩, hfb⟩ := heq
  obtain ⟨g1, g2, g3, g4, g5, g6, g7, g8⟩ := xorStep_shape0 s x y
  obtain ⟨p1, p2, p3, p4, p5, p6, p7, p8⟩ := xorStep_shape0 t x y
  have ho4 : o % 4 = 0 := by omega
  have hvals : t.fb o = s.fb o ∧ t.fb (o + 1) = s.fb (o + 1)
      ∧ t.fb (o + 2) = s.fb (o + 2) :=
    ⟨hfb o (by omega), hfb (o + 1) (by omega), hfb (o + 2) (by omega)⟩
  refine ⟨⟨p1.trans (q1.trans g1.symm), p2.trans (q2.trans g2.symm),
    p3.trans (q3.trans g3.symm), p4.trans (q4.trans g4.symm),
    p5.trans (q5.trans g5.symm), p6.trans (q6.trans g6.symm),
    p7.trans (q7.trans g7.symm), p8.trans (q8.trans g8.symm)⟩, ?_⟩
  intro i hi
  rcases hfmt with h | h
  · rw [xorStep_bgr_off s x y o ho hbb h hbpp hin hfboks,
      xorStep_bgr_off t x y o (by rw [q4]; exact ho) (q8.trans hbb) (q6.trans h)
        (q3.trans hbpp) (by rw [q5]; exact hin) hfbokt]
    show updBytes t.fb o
        [t.fb o ^^^ 255, t.fb (o + 1) ^^^ 255, t.fb (o + 2) ^^^ 255, 255] i
      = updBytes s.fb o
        [s.fb o ^^^ 255, s.fb (o + 1) ^^^ 255, s.fb (o + 2) ^^^ 255, 255] i
    rw [hvals.1, hvals.2.1, hvals.2.2]
    by_cases hwin : o ≤ i ∧ i < o + 4
    · rw [updBytes_in _ _ _ _ hwin.1 (by simp; omega),
        updBytes_in _ _ _ _ hwin.1 (by simp; omega)]
    · rw [updBytes_out _ _ _ _ (by simp; omega), updBytes_out _ _ _ _ (by simp; omega)]
      exact hfb i hi
  · rw [xorStep_rgb_off s x y o ho hbb h hbpp hin hfboks,
      xorStep_rgb_off t x y o (by rw [q4]; exact ho) (q8.trans hbb) (q6.trans h)
        (q3.trans hbpp) (by rw [q5]; exact hin) hfbokt]
    show updBytes t.fb o
        [t.fb (o + 2) ^^^ 255, t.fb (o + 1) ^^^ 255, t.fb o ^^^ 255, 255] i
      = updBytes s.fb o
        [s.fb (o + 2) ^^^ 255, s.fb (o + 1) ^^^ 255, s.fb o ^^^ 255, 255] i
    rw [hvals.1, hvals.2.1, hvals.2.2]
    by_cases hwin : o ≤ i ∧ i < o + 4
    · rw [updBytes_in _ _ _ _ hwin.1 (by simp; omega),
        updBytes_in _ _ _ _ hwin.1 (by simp; omega)]
    · rw [updBytes_out _ _ _ _ (by simp; omega), updBytes_out _ _ _ _ (by simp; omega)]
      exact hfb i hi

/-- Disjoint-window `updBytes` writes commute. -/
theorem updBytes_comm (f : Nat → Nat) (o o' : Nat) (L L' : List Nat)
    (hdisj : o + L.length ≤ o' ∨ o' + L'.length ≤ o) :
    updBytes (updBytes f o L) o' L' = updBytes (updBytes f o' L') o L := by
  funext i
  by_cases hw' : o' ≤ i ∧ i < o' + L'.length
  · rw [updBytes_in _ _ _ _ hw'.1 hw'.2, updBytes_out _ _ _ _ (by omega),
      updBytes_in _ _ _ _ hw'.1 hw'.2]
  · rw [updBytes_out _ _ _ _ (by omega)]
    by_cases hw : o ≤ i ∧ i < o + L.length
    · rw [updBytes_in _ _ _ _ hw.1 hw.2, updBytes_in _ _ _ _ hw.1 hw.2]
    · rw [updBytes_out _ _ _ _ (by omega), updBytes_out _ _ _ _ (by omega),
        updBytes_out _ _ _ _ (by omega)]

/-- Toggles of pixels with disjoint byte windows commute. -/
theorem xorStep_comm (s : Screen) (x y x' y' o o' : Nat)
    (ho : o = (y * s.stride + x) * 4)
    (ho' : o' = (y' * s.stride + x') * 4)
    (hbb : s.use_back_buffer = false)
    (hfmt : s.pixel_format = PixelFormat.bgr ∨ s.pixel_format = PixelFormat.rgb)
    (hbpp : s.bytes_per_pixel = 4)
    (hin : o + 4 ≤ s.fbLen)
    (hin' : o' + 4 ≤ s.fbLen)
    (hfbok : ∀ i, s.fb i < 256)
    (hdisj : o + 4 ≤ o' ∨ o' + 4 ≤ o) :
    xorStep (xorStep s x y) x' y' = xorStep (xorStep s x' y') x y := by
  obtain ⟨g1, g2, g3, g4, g5, g6, g7, g8⟩ := xorStep_shape0 s x y
  obtain ⟨p1, p2, p3, p4, p5, p6, p7, p8⟩ := xorStep_shape0 s x' y'
  have hfbok1 := xorStep_fbok0 s x y hfbok
  have hfbok1' := xorStep_fbok0 s x' y' hfbok
  have hout := xorStep_out s x y o ho hbb hfmt hbpp hin hfbok
  have hout' := xorStep_out s x' y' o' ho' hbb hfmt hbpp hin' hfbok
  rcases hfmt with h | h
  · have h1 := xorStep_bgr_off s x y o ho hbb h hbpp hin hfbok
    have h1' := xorStep_bgr_off s x' y' o' ho' hbb h hbpp hin' hfbok
    have h2 := xorStep_bgr_off (xorStep s x y) x' y' o' (by rw [g4]; exact ho')
      (g8.trans hbb) (g6.trans h) (g3.trans hbpp) (by rw [g5]; exact hin') hfbok1
    have h2' := xorStep_bgr_off (xorStep s x' y') x y o (by rw [p4]; exact ho)
      (p8.trans hbb) (p6.trans h) (p3.trans hbpp) (by rw [p5]; exact hin) hfbok1'
    rw [h2, h2', hout o' (by omega), hout (o' + 1) (by omega), hout (o' + 2) (by omega),
      hout' o (by omega), hout' (o + 1) (by omega), hout' (o + 2) (by omega), h1, h1']
    show ({ s with
            fb := updBytes (updBytes s.fb o
              [s.fb o ^^^ 255, s.fb (o + 1) ^^^ 255, s.fb (o + 2) ^^^ 255, 255]) o'
              [s.fb o' ^^^ 255, s.fb (o' + 1) ^^^ 255, s.fb (o' + 2) ^^^ 255, 255] } : Screen)
      = { s with
          fb := updBytes (updBytes s.fb o'
            [s.fb o' ^^^ 255, s.fb (o' + 1) ^^^ 255, s.fb (o' + 2) ^^^ 255, 255]) o
            [s.fb o ^^^ 255, s.fb (o + 1) ^^^ 255, s.fb (o + 2) ^^^ 255, 255] }
    rw [updBytes_comm _ _ _ _ _ (by simp; omega)]
  · have h1 := xorStep_rgb_off s x y o ho hbb h hbpp hin hfbok
    have h1' := xorStep_rgb_off s x' y' o' ho' hbb h hbpp hin' hfbok
    have h2 := xorStep_rgb_off (xorStep s x y) x' y' o' (by rw [g4]; exact ho')
      (g8.trans hbb) (g6.trans h) (g3.trans hbpp) (by rw [g5]; exact hin') hfbok1
    have h2' := xorStep_rgb_off (xorStep s x' y') x y o (by rw [p4]; exact ho)
      (p8.trans hbb) (p6.trans h) (p3.trans hbpp) (by rw [p5]; exact hin) hfbok1'
    rw [h2, h2', hout o' (by omega), hout (o' + 1) (by omega), hout (o' + 2) (by omega),
      hout' o (by omega), hout' (o + 1) (by omega), hout' (o + 2) (by omega), h1, h1']
    show ({ s with
            fb := updBytes (updBytes s.fb o
              [s.fb (o + 2) ^^^ 255, s.fb (o + 1) ^^^ 255, s.fb o ^^^ 255, 255]) o'
              [s.fb (o' + 2) ^^^ 255, s.fb (o' + 1) ^^^ 255, s.fb o' ^^^ 255, 255] } : Screen)
      = { s with
          fb := updBytes (updBytes s.fb o'
            [s.fb (o' + 2) ^^^ 255, s.fb (o' + 1) ^^^ 255, s.fb o' ^^^ 255, 255]) o
            [s.fb (o + 2) ^^^ 255, s.fb (o + 1) ^^^ 255, s.fb o ^^^ 255, 255] }
    rw [updBytes_comm _ _ _ _ _ (by simp; omega)]

end Disp

namespace Disp

/-- A toggle fold keeps the geometry. -/
theorem fold_shape (L : List (Nat × Nat)) (s : Screen) :
    sameGeom s (L.foldl (fun t d => xorStep t d.1 d.2) s) := by
  refine foldl_inv (P := fun (t : Screen) => sameGeom s t) _ ?_ _ _ (sameGeom_refl s)
  intro t d ht
  exact sameGeom_trans ht (xorStep_shape0 t d.1 d.2)

/-- A toggle fold keeps the framebuffer byte-valued. -/
theorem fold_fbok0 (L : List (Nat × Nat)) (s : Screen) (h : ∀ i, s.fb i < 256) :
    ∀ i, (L.foldl (fun t d => xorStep t d.1 d.2) s).fb i < 256 := by
  refine foldl_inv (P := fun (t : Screen) => ∀ i, t.fb i < 256) _ ?_ _ _ h
  intro t d ht
  exact xorStep_fbok0 t d.1 d.2 ht

/-- A toggle whose window is disjoint from every pixel of a fold moves
through the fold. -/
theorem fold_comm (st fl : Nat) :
    ∀ (L : List (Nat × Nat)) (s : Screen) (c : Nat × Nat),
      s.use_back_buffer = false →
      (s.pixel_format = PixelFormat.bgr ∨ s.pixel_format = PixelFormat.rgb) →
      s.bytes_per_pixel = 4 → s.stride = st → s.fbLen = fl →
      (∀ i, s.fb i < 256) →
      (∀ d ∈ L, (d.2 * st + d.1) * 4 + 4 ≤ fl) →
      (c.2 * st + c.1) * 4 + 4 ≤ fl →
      (∀ d ∈ L, (d.2 * st + d.1) * 4 + 4 ≤ (c.2 * st + c.1) * 4
        ∨ (c.2 * st + c.1) * 4 + 4 ≤ (d.2 * st + d.1) * 4) →
      xorStep (L.foldl (fun t d => xorStep t d.1 d.2) s) c.1 c.2
        = L.foldl (fun t d => xorStep t d.1 d.2) (xorStep s c.1 c.2) := by
  intro L
  induction L with
  | nil =>
    intro s c _ _ _ _ _ _ _ _ _
    rfl
  | cons d L' ih =>
    intro s c hbb hfmt hbpp hst hfl hfbok hinL hinc hdisj
    obtain ⟨g1, g2, g3, g4, g5, g6, g7, g8⟩ := xorStep_shape0 s d.1 d.2
    rw [List.foldl_cons, List.foldl_cons]
    rw [ih (xorStep s d.1 d.2) c (g8.trans hbb)
      (by rcases hfmt with h | h
          · exact Or.inl (g6.trans h)
          · exact Or.inr (g6.trans h))
      (g3.trans hbpp) (g4.trans hst) (g5.trans hfl)
      (xorStep_fbok0 s d.1 d.2 hfbok)
      (fun e he => hinL e (List.mem_cons_of_mem _ he)) hinc
      (fun e he => hdisj e (List.mem_cons_of_mem _ he))]
    rw [xorStep_comm s d.1 d.2 c.1 c.2 ((d.2 * st + d.1) * 4) ((c.2 * st + c.1) * 4)
      (by rw [hst]) (by rw [hst]) hbb hfmt hbpp
      (by rw [hfl]; exact hinL d (List.mem_cons_self _ _))
      (by rw [hfl]; exact hinc) hfbok
      (hdisj d (List.mem_cons_self _ _))]

/-- Toggle folds respect pixel-level equivalence. -/
theorem fold_pixEquiv (st fl : Nat) :
    ∀ (L : List (Nat × Nat)) (s t : Screen),
      s.use_back_buffer = false →
      (s.pixel_format = PixelFormat.bgr ∨ s.pixel_format = PixelFormat.rgb) →
      s.bytes_per_pixel = 4 → s.stride = st → s.fbLen = fl →
      (∀ i, s.fb i < 256) → (∀ i, t.fb i < 256) →
      (∀ d ∈ L, (d.2 * st + d.1) * 4 + 4 ≤ fl) →
      pixEquiv s t →
      pixEquiv (L.foldl (fun u d => xorStep u d.1 d.2) s)
        (L.foldl (fun u d => xorStep u d.1 d.2) t) := by
  intro L
  induction L with
  | nil =>
    intro s t _ _ _ _ _ _ _ _ heq
    exact heq
  | cons d L' ih =>
    intro s t hbb hfmt hbpp hst hfl hfboks hfbokt hinL heq
    obtain ⟨g1, g2, g3, g4, g5, g6, g7, g8⟩ := xorStep_shape0 s d.1 d.2
    rw [List.foldl_cons, List.foldl_cons]
    refine ih (xorStep s d.1 d.2) (xorStep t d.1 d.2) (g8.trans hbb)
      (by rcases hfmt with h | h
          · exact Or.inl (g6.trans h)
          · exact Or.inr (g6.trans h))
      (g3.trans hbpp) (g4.trans hst) (g5.trans hfl)
      (xorStep_fbok0 s d.1 d.2 hfboks) (xorStep_fbok0 t d.1 d.2 hfbokt)
      (fun e he => hinL e (List.mem_cons_of_mem _ he))
      (xorStep_pixEquiv s t d.1 d.2 ((d.2 * st + d.1) * 4) (by rw [hst]) hbb hfmt hbpp
        (by rw [hfl]; exact hinL d (List.mem_cons_self _ _)) hfboks hfbokt heq)

/-- Running a toggle fold twice over pairwise-distinct in-range pixels is
the identity at pixel level. -/
theorem fold_double (st fl : Nat) :
    ∀ (L : List (Nat × Nat)) (s : Screen),
      s.use_back_buffer = false →
      (s.pixel_format = PixelFormat.bgr ∨ s.pixel_format = PixelFormat.rgb) →
      s.bytes_per_pixel = 4 → s.stride = st → s.fbLen = fl →
      (∀ i, s.fb i < 256) →
      (∀ d ∈ L, (d.2 * st + d.1) * 4 + 4 ≤ fl) →
      List.Pairwise (fun a b => a.2 * st + a.1 ≠ b.2 * st + b.1) L →
      pixEquiv s
        (L.foldl (fun u d => xorStep u d.1 d.2)
          (L.foldl (fun u d => xorStep u d.1 d.2) s)) := by
  intro L
  induction L with
  | nil =>
    intro s _ _ _ _ _ _ _ _
    exact pixEquiv_refl s
  | cons a L' ih =>
    intro s hbb hfmt hbpp hst hfl hfbok hinL hpw
    rw [List.pairwise_cons] at hpw
    obtain ⟨ghead, gtail⟩ := hpw
    obtain ⟨g1, g2, g3, g4, g5, g6, g7, g8⟩ := xorStep_shape0 s a.1 a.2
    obtain ⟨k1, k2, k3, k4, k5, k6, k7, k8⟩ :=
      xorStep_shape0 (xorStep s a.1 a.2) a.1 a.2
    have hina : (a.2 * st + a.1) * 4 + 4 ≤ fl := hinL a (List.mem_cons_self _ _)
    have hfbok1 := xorStep_fbok0 s a.1 a.2 hfbok
    rw [List.foldl_cons, List.foldl_cons]
    rw [fold_comm st fl L' (xorStep s a.1 a.2) a (g8.trans hbb)
      (by rcases hfmt with h | h
          · exact Or.inl (g6.trans h)
          · exact Or.inr (g6.trans h))
      (g3.trans hbpp) (g4.trans hst) (g5.trans hfl) hfbok1
      (fun e he => hinL e (List.mem_cons_of_mem _ he)) hina
      (fun e he => by
        have := ghead e he
        omega)]
    have hu : pixEquiv s (xorStep (xorStep s a.1 a.2) a.1 a.2) := by
      refine ⟨sameGeom_trans (xorStep_shape0 s a.1 a.2)
        (xorStep_shape0 (xorStep s a.1 a.2) a.1 a.2), ?_⟩
      intro i hi
      rw [xorStep_double s a.1 a.2 ((a.2 * st + a.1) * 4) (by rw [hst]) hbb hfmt hbpp
        (by rw [hfl]; exact hina) hfbok i]
      rw [if_neg (by omega)]
    refine pixEquiv_trans hu
      (ih (xorStep (xorStep s a.1 a.2) a.1 a.2)
        (k8.trans (g8.trans hbb))
        (by rcases hfmt with h | h
            · exact Or.inl (k6.trans (g6.trans h))
            · exact Or.inr (k6.trans (g6.trans h)))
        (k3.trans (g3.trans hbpp)) (k4.trans (g4.trans hst)) (k5.trans (g5.trans hfl))
        (xorStep_fbok0 _ a.1 a.2 hfbok1)
        (fun e he => hinL e (List.mem_cons_of_mem _ he)) gtail)

/-- `read_pixel` only sees the pixel-level equivalence class. -/
theorem read_pixel_pixEquiv (s t : Screen) (heq : pixEquiv s t)
    (hbpp : s.bytes_per_pixel = 4) :
    ∀ x y, read_pixel t x y = read_pixel s x y := by
  obtain ⟨⟨q1, q2, q3, q4, q5, q6, q7, q8⟩, hfb⟩ := heq
  intro x y
  unfold read_pixel
  simp only
  rw [q3, q4, q5, hbpp]
  by_cases hc : (y * s.stride + x) * 4 + 4 ≤ s.fbLen
  · rw [if_pos hc, if_pos hc, hfb _ (by omega), hfb _ (by omega), hfb _ (by omega)]
  · rw [if_neg hc, if_neg hc]

end Disp

namespace Disp

/-- `usize` cast of a small non-negative integer. -/
theorem usizeOfInt_natCast (n : Nat) (h : n < 2 ^ 31) : usizeOfInt (n : Int) = n := by
  unfold usizeOfInt
  omega

/-- `wrap32` is the identity on in-range values. -/
theorem wrap32_small (v : Int) (h1 : -(2 : Int) ^ 31 ≤ v) (h2 : v < 2 ^ 31) :
    wrap32 v = v := by
  unfold wrap32
  omega

/-- In-range `usize → i32` cast. -/
theorem i32ofNat_small (n : Nat) (h : n < 2 ^ 31) : i32ofNat n = (n : Int) :=
  Mouse.i32cast_of_lt h

/-- The composite coordinate cast of the dashed loops is plain addition in
range. -/
theorem coordCast (a px : Nat) (h : a + px < 2 ^ 31) :
    usizeOfInt (wrap32 ((a : Int) + i32ofNat px)) = a + px := by
  rw [i32ofNat_small px (by omega),
    wrap32_small ((a : Int) + (px : Int)) (by push_cast; omega) (by push_cast; omega),
    show ((a : Int) + px) = ((a + px : Nat) : Int) from by push_cast; ring]
  exact usizeOfInt_natCast _ h

/-- The `end - 1` coordinate of the bottom/right edges in range. -/
theorem lastCast (a n : Nat) (h2 : 2 ≤ n) (h : a + n < 2 ^ 31) :
    wrap32 (wrap32 ((a : Int) + i32ofNat n) - 1) = ((a + n - 1 : Nat) : Int) := by
  rw [i32ofNat_small n (by omega),
    wrap32_small ((a : Int) + (n : Int)) (by push_cast; omega) (by push_cast; omega),
    wrap32_small ((a : Int) + (n : Int) - 1) (by push_cast; omega) (by push_cast; omega)]
  omega

/-- A dashed horizontal loop is a toggle fold over its clipped pixel
list. -/
theorem row_fold_eq (s : Screen) (rx yv : Nat) (P : Prop) [Decidable P] :
    ∀ (w : Nat), rx + w < 2 ^ 31 → ∀ (u : Screen),
      (List.range w).foldl (fun t px =>
        if px % 4 < 2 then
          if usizeOfInt (wrap32 ((rx : Int) + i32ofNat px)) < s.width ∧ P then
            xorStep t (usizeOfInt (wrap32 ((rx : Int) + i32ofNat px))) yv
          else t
        else t) u
      = (((List.range w).filter (fun px => decide (px % 4 < 2)
            && decide (rx + px < s.width ∧ P))).map (fun px => (rx + px, yv))).foldl
          (fun t d => xorStep t d.1 d.2) u := by
  intro w
  induction w with
  | zero => intro _ u; rfl
  | succ q ih =>
    intro hxw u
    rw [List.range_succ, List.foldl_append, List.foldl_cons, List.foldl_nil,
      List.filter_append, List.map_append, List.foldl_append, ih (by omega) u]
    have hxeq : usizeOfInt (wrap32 ((rx : Int) + i32ofNat q)) = rx + q :=
      coordCast rx q (by omega)
    by_cases h4 : q % 4 < 2
    · by_cases hcp : rx + q < s.width ∧ P
      · rw [if_pos h4, if_pos (show usizeOfInt (wrap32 ((rx : Int) + i32ofNat q)) < s.width
            ∧ P from by rw [hxeq]; exact hcp), hxeq]
        rw [List.filter_cons, List.filter_nil,
          show (decide (q % 4 < 2) && decide (rx + q < s.width ∧ P)) = true from by
            simp [h4, hcp]]
        rfl
      · rw [if_pos h4, if_neg (show ¬(usizeOfInt (wrap32 ((rx : Int) + i32ofNat q)) < s.width
            ∧ P) from by rw [hxeq]; exact hcp)]
        rw [List.filter_cons, List.filter_nil,
          show (decide (q % 4 < 2) && decide (rx + q < s.width ∧ P)) = false from by
            simp [hcp]]
        rfl
    · rw [if_neg h4, List.filter_cons, List.filter_nil,
        show (decide (q % 4 < 2) && decide (rx + q < s.width ∧ P)) = false from by
          simp [h4]]
      rfl

/-- A dashed vertical loop (three-part guard, left edge) is a toggle fold
over its clipped pixel list. -/
theorem col3_fold_eq (s : Screen) (ry xv : Nat) (P Q : Prop) [Decidable P] [Decidable Q] :
    ∀ (n : Nat), ry + n < 2 ^ 31 → ∀ (u : Screen),
      (List.range' 1 n).foldl (fun t py =>
        if py % 4 < 2 then
          if P ∧ usizeOfInt (wrap32 ((ry : Int) + i32ofNat py)) < s.height ∧ Q then
            xorStep t xv (usizeOfInt (wrap32 ((ry : Int) + i32ofNat py)))
          else t
        else t) u
      = (((List.range' 1 n).filter (fun py => decide (py % 4 < 2)
            && decide (P ∧ ry + py < s.height ∧ Q))).map (fun py => (xv, ry + py))).foldl
          (fun t d => xorStep t d.1 d.2) u := by
  intro n
  induction n with
  | zero => intro _ u; rfl
  | succ q ih =>
    intro hyn u
    rw [List.range'_concat,
      show 1 + 1 * q = q + 1 from by ring,
      List.foldl_append, List.foldl_cons, List.foldl_nil,
      List.filter_append, List.map_append, List.foldl_append, ih (by omega) u]
    have hyeq : usizeOfInt (wrap32 ((ry : Int) + i32ofNat (q + 1))) = ry + (q + 1) :=
      coordCast ry (q + 1) (by omega)
    by_cases h4 : (q + 1) % 4 < 2
    · by_cases hcp : P ∧ ry + (q + 1) < s.height ∧ Q
      · rw [if_pos h4, if_pos (show P ∧ usizeOfInt (wrap32 ((ry : Int)
              + i32ofNat (q + 1))) < s.height ∧ Q from by rw [hyeq]; exact hcp), hyeq]
        rw [List.filter_cons, List.filter_nil,
          show (decide ((q + 1) % 4 < 2)
              && decide (P ∧ ry + (q + 1) < s.height ∧ Q)) = true from by
            simp [h4, hcp]]
        rfl
      · rw [if_pos h4, if_neg (show ¬(P ∧ usizeOfInt (wrap32 ((ry : Int)
              + i32ofNat (q + 1))) < s.height ∧ Q) from by rw [hyeq]; exact hcp)]
        rw [List.filter_cons, List.filter_nil,
          show (decide ((q + 1) % 4 < 2)
              && decide (P ∧ ry + (q + 1) < s.height ∧ Q)) = false from by
            simp [hcp]]
        rfl
    · rw [if_neg h4, List.filter_cons, List.filter_nil,
        show (decide ((q + 1) % 4 < 2)
            && decide (P ∧ ry + (q + 1) < s.height ∧ Q)) = false from by
          simp [h4]]
      rfl

/-- A dashed vertical loop (two-part guard, right edge) is a toggle fold
over its clipped pixel list. -/
theorem col2_fold_eq (s : Screen) (ry xv : Nat) (P : Prop) [Decidable P] :
    ∀ (n : Nat), ry + n < 2 ^ 31 → ∀ (u : Screen),
      (List.range' 1 n).foldl (fun t py =>
        if py % 4 < 2 then
          if P ∧ usizeOfInt (wrap32 ((ry : Int) + i32ofNat py)) < s.height then
            xorStep t xv (usizeOfInt (wrap32 ((ry : Int) + i32ofNat py)))
          else t
        else t) u
      = (((List.range' 1 n).filter (fun py => decide (py % 4 < 2)
            && decide (P ∧ ry + py < s.height))).map (fun py => (xv, ry + py))).foldl
          (fun t d => xorStep t d.1 d.2) u := by
  intro n
  induction n with
  | zero => intro _ u; rfl
  | succ q ih =>
    intro hyn u
    rw [List.range'_concat,
      show 1 + 1 * q = q + 1 from by ring,
      List.foldl_append, List.foldl_cons, List.foldl_nil,
      List.filter_append, List.map_append, List.foldl_append, ih (by omega) u]
    have hyeq : usizeOfInt (wrap32 ((ry : Int) + i32ofNat (q + 1))) = ry + (q + 1) :=
      coordCast ry (q + 1) (by omega)
    by_cases h4 : (q + 1) % 4 < 2
    · by_cases hcp : P ∧ ry + (q + 1) < s.height
      · rw [if_pos h4, if_pos (show P ∧ usizeOfInt (wrap32 ((ry : Int)
              + i32ofNat (q + 1))) < s.height from by rw [hyeq]; exact hcp), hyeq]
        rw [List.filter_cons, List.filter_nil,
          show (decide ((q + 1) % 4 < 2)
              && decide (P ∧ ry + (q + 1) < s.height)) = true from by
            simp [h4, hcp]]
        rfl
      · rw [if_pos h4, if_neg (show ¬(P ∧ usizeOfInt (wrap32 ((ry : Int)
              + i32ofNat (q + 1))) < s.height) from by rw [hyeq]; exact hcp)]
        rw [List.filter_cons, List.filter_nil,
          show (decide ((q + 1) % 4 < 2)
              && decide (P ∧ ry + (q + 1) < s.height)) = false from by
            simp [hcp]]
        rfl
    · rw [if_neg h4, List.filter_cons, List.filter_nil,
        show (decide ((q + 1) % 4 < 2)
            && decide (P ∧ ry + (q + 1) < s.height)) = false from by
          simp [h4]]
      rfl

end Disp

namespace Disp

/-- `draw_xor_outline` on an in-range non-negative rectangle is exactly the
toggle fold over its `edgeList`. -/
theorem draw_as_fold (s : Screen) (rx ry w h : Nat)
    (hxw : rx + w < 2 ^ 31) (hyh : ry + h < 2 ^ 31) :
    draw_xor_outline s ⟨(rx : Int), (ry : Int), w, h⟩
      = (edgeList s.width s.height rx ry w h).foldl (fun t d => xorStep t d.1 d.2) s := by
  unfold draw_xor_outline edgeList
  simp only
  rw [List.foldl_append, List.foldl_append, List.foldl_append]
  rw [row_fold_eq s rx (usizeOfInt (ry : Int))
    (usizeOfInt (ry : Int) < s.height ∧ 0 ≤ ((ry : Int))) w hxw]
  by_cases hh : h > 1
  · rw [if_pos (⟨hh, by
        rw [lastCast ry h (by omega) hyh]
        exact Int.natCast_nonneg _⟩ :
      h > 1 ∧ 0 ≤ wrap32 (wrap32 ((ry : Int) + i32ofNat h) - 1))]
    rw [if_pos hh]
    rw [row_fold_eq s rx (usizeOfInt (wrap32 (wrap32 ((ry : Int) + i32ofNat h) - 1)))
      (usizeOfInt (wrap32 (wrap32 ((ry : Int) + i32ofNat h) - 1)) < s.height) w hxw]
    rw [col3_fold_eq s ry (usizeOfInt (rx : Int)) (usizeOfInt (rx : Int) < s.width)
      (0 ≤ ((rx : Int))) (h - 1 - 1) (by omega)]
    by_cases hw1 : w > 1
    · rw [if_pos (⟨hw1, by
          rw [lastCast rx w (by omega) hxw]
          exact Int.natCast_nonneg _⟩ :
        w > 1 ∧ 0 ≤ wrap32 (wrap32 ((rx : Int) + i32ofNat w) - 1))]
      rw [if_pos hw1]
      rw [col2_fold_eq s ry (usizeOfInt (wrap32 (wrap32 ((rx : Int) + i32ofNat w) - 1)))
        (usizeOfInt (wrap32 (wrap32 ((rx : Int) + i32ofNat w) - 1)) < s.width)
        (h - 1 - 1) (by omega)]
      simp only [lastCast ry h (by omega) hyh, lastCast rx w (by omega) hxw,
        usizeOfInt_natCast ry (by omega), usizeOfInt_natCast rx (by omega),
        usizeOfInt_natCast (ry + h - 1) (by omega), usizeOfInt_natCast (rx + w - 1) (by omega),
        Int.natCast_nonneg, and_true]
    · rw [if_neg (show ¬(w > 1 ∧ 0 ≤ wrap32 (wrap32 ((rx : Int) + i32ofNat w) - 1)) from
          fun hc => hw1 hc.1), if_neg hw1, List.foldl_nil]
      simp only [lastCast ry h (by omega) hyh,
        usizeOfInt_natCast ry (by omega), usizeOfInt_natCast rx (by omega),
        usizeOfInt_natCast (ry + h - 1) (by omega),
        Int.natCast_nonneg, and_true]
  · rw [if_neg (show ¬(h > 1 ∧ 0 ≤ wrap32 (wrap32 ((ry : Int) + i32ofNat h) - 1)) from
        fun hc => hh hc.1), if_neg hh, List.foldl_nil]
    rw [col3_fold_eq s ry (usizeOfInt (rx : Int)) (usizeOfInt (rx : Int) < s.width)
      (0 ≤ ((rx : Int))) (h - 1 - 1) (by omega)]
    by_cases hw1 : w > 1
    · rw [if_pos (⟨hw1, by
          rw [lastCast rx w (by omega) hxw]
          exact Int.natCast_nonneg _⟩ :
        w > 1 ∧ 0 ≤ wrap32 (wrap32 ((rx : Int) + i32ofNat w) - 1))]
      rw [if_pos hw1]
      rw [col2_fold_eq s ry (usizeOfInt (wrap32 (wrap32 ((rx : Int) + i32ofNat w) - 1)))
        (usizeOfInt (wrap32 (wrap32 ((rx : Int) + i32ofNat w) - 1)) < s.width)
        (h - 1 - 1) (by omega)]
      simp only [lastCast rx w (by omega) hxw,
        usizeOfInt_natCast ry (by omega), usizeOfInt_natCast rx (by omega),
        usizeOfInt_natCast (rx + w - 1) (by omega),
        Int.natCast_nonneg, and_true]
    · rw [if_neg (show ¬(w > 1 ∧ 0 ≤ wrap32 (wrap32 ((rx : Int) + i32ofNat w) - 1)) from
          fun hc => hw1 hc.1), if_neg hw1, List.foldl_nil]
      simp only [usizeOfInt_natCast ry (by omega), usizeOfInt_natCast rx (by omega),
        Int.natCast_nonneg, and_true]

end Disp

namespace Disp

/-- An on-screen coordinate pair addresses four framebuffer bytes inside
the pixel span `stride * height * 4`. -/
theorem offset_bound (st sh fl xx yy : Nat) (hx : xx < st) (hy : yy < sh)
    (hlen : st * sh * 4 ≤ fl) : (yy * st + xx) * 4 + 4 ≤ fl := by
  have h2 : yy * st ≤ (sh - 1) * st := Nat.mul_le_mul_right st (by omega)
  have h4 : st ≤ sh * st := Nat.le_mul_of_pos_left st (by omega)
  have h3 : (sh - 1) * st + st ≤ sh * st := by
    rw [Nat.sub_one_mul]
    omega
  have h1 : yy * st + xx + 1 ≤ sh * st := by omega
  calc (yy * st + xx) * 4 + 4 = (yy * st + xx + 1) * 4 := by ring
  _ ≤ sh * st * 4 := Nat.mul_le_mul_right 4 h1
  _ = st * sh * 4 := by ring
  _ ≤ fl := hlen

/-- Byte offsets `y * st + x` with `x < st` determine the coordinates. -/
theorem offset_inj (st x1 y1 x2 y2 : Nat) (h1 : x1 < st) (h2 : x2 < st)
    (he : y1 * st + x1 = y2 * st + x2) : x1 = x2 ∧ y1 = y2 := by
  have hst : 0 < st := by omega
  have hm1 : (y1 * st + x1) % st = x1 := by
    rw [Nat.mul_comm, Nat.mul_add_mod, Nat.mod_eq_of_lt h1]
  have hx : x1 = x2 := by
    rw [← hm1, he, Nat.mul_comm, Nat.mul_add_mod, Nat.mod_eq_of_lt h2]
  refine ⟨hx, ?_⟩
  have hy : y1 * st = y2 * st := by omega
  exact Nat.eq_of_mul_eq_mul_right hst hy

/-- Distinct coordinate pairs whose x parts are below the stride give
distinct byte offsets. -/
theorem pairwise_offsets (st : Nat) (L : List (Nat × Nat))
    (hb : ∀ d ∈ L, d.1 < st) (hnd : List.Pairwise (fun a b => a ≠ b) L) :
    List.Pairwise (fun (a b : Nat × Nat) => a.2 * st + a.1 ≠ b.2 * st + b.1) L := by
  refine List.Pairwise.imp_of_mem ?_ hnd
  intro a b ha hb2 hne he
  obtain ⟨e1, e2⟩ := offset_inj st a.1 a.2 b.1 b.2 (hb a ha) (hb b hb2) he
  exact hne (Prod.ext e1 e2)

/-- Membership in a conditionally present edge forces the condition. -/
theorem mem_if_list {c : Prop} [Decidable c] {l : List (Nat × Nat)} {e : Nat × Nat}
    (he : e ∈ (if c then l else [])) : c ∧ e ∈ l := by
  split at he
  · exact ⟨by assumption, he⟩
  · cases he

/-- Elements of a dashed row of `edgeList` lie on the screen at height
`yv`. -/
theorem mem_row_list {sw sh rx yv w : Nat} {d : Nat × Nat}
    (hd : d ∈ ((List.range w).filter (fun px => decide (px % 4 < 2)
        && decide (rx + px < sw ∧ yv < sh))).map (fun px => (rx + px, yv))) :
    d.1 < sw ∧ d.2 = yv ∧ d.2 < sh := by
  rw [List.mem_map] at hd
  obtain ⟨px, hpx, hfd⟩ := hd
  rw [List.mem_filter, List.mem_range] at hpx
  have hcond := hpx.2
  simp only [Bool.and_eq_true, decide_eq_true_eq] at hcond
  subst hfd
  exact ⟨hcond.2.1, rfl, hcond.2.2⟩

/-- Elements of a dashed column of `edgeList` lie on the screen at width
`xv`, strictly between the top and bottom rows. -/
theorem mem_col_list {P : Prop} [Decidable P] {sh ry xv n : Nat} {d : Nat × Nat}
    (hd : d ∈ ((List.range' 1 n).filter (fun py => decide (py % 4 < 2)
        && decide (P ∧ ry + py < sh))).map (fun py => (xv, ry + py))) :
    P ∧ d.1 = xv ∧ d.2 < sh ∧ ∃ py, 1 ≤ py ∧ py < 1 + n ∧ d.2 = ry + py := by
  rw [List.mem_map] at hd
  obtain ⟨py, hpy, hfd⟩ := hd
  rw [List.mem_filter, List.mem_range'_1] at hpy
  obtain ⟨hrange, hcond⟩ := hpy
  simp only [Bool.and_eq_true, decide_eq_true_eq] at hcond
  subst hfd
  exact ⟨hcond.2.1, rfl, hcond.2.2, py, hrange.1, hrange.2, rfl⟩

/-- A dashed row has no repeated pixel. -/
theorem nodup_row_list (sw sh rx yv w : Nat) :
    (((List.range w).filter (fun px => decide (px % 4 < 2)
        && decide (rx + px < sw ∧ yv < sh))).map (fun px => (rx + px, yv))).Nodup := by
  refine List.Nodup.map ?_ ((List.nodup_range w).filter _)
  intro a b hab
  have h := congrArg Prod.fst hab
  simpa using h

/-- A dashed column has no repeated pixel. -/
theorem nodup_col_list (P : Prop) [Decidable P] (sh ry xv n : Nat) :
    (((List.range' 1 n).filter (fun py => decide (py % 4 < 2)
        && decide (P ∧ ry + py < sh))).map (fun py => (xv, ry + py))).Nodup := by
  refine List.Nodup.map ?_ ((List.nodup_range' 1 n).filter _)
  intro a b hab
  have h := congrArg Prod.snd hab
  simpa using h

/-- A conditionally present edge of a duplicate-free list is
duplicate-free. -/
theorem nodup_if_list {c : Prop} [Decidable c] {l : List (Nat × Nat)} (hl : l.Nodup) :
    (if c then l else []).Nodup := by
  split
  · exact hl
  · exact List.nodup_nil

/-- Every pixel in `edgeList` lies on the screen. -/
theorem edgeList_mem_bounds (sw sh rx ry w h : Nat) :
    ∀ d ∈ edgeList sw sh rx ry w h, d.1 < sw ∧ d.2 < sh := by
  intro d hd
  unfold edgeList at hd
  rw [List.mem_append] at hd
  rcases hd with hd | hd
  · rw [List.mem_append] at hd
    rcases hd with hd | hd
    · rw [List.mem_append] at hd
      rcases hd with hd | hd
      · obtain ⟨h1, _, h2⟩ := mem_row_list hd
        exact ⟨h1, h2⟩
      · obtain ⟨_, hd⟩ := mem_if_list hd
        obtain ⟨h1, _, h2⟩ := mem_row_list hd
        exact ⟨h1, h2⟩
    · obtain ⟨hP, hx, hysh, _⟩ := mem_col_list hd
      refine ⟨?_, hysh⟩
      rw [hx]
      exact hP
  · obtain ⟨_, hd⟩ := mem_if_list hd
    obtain ⟨hP, hx, hysh, _⟩ := mem_col_list hd
    refine ⟨?_, hysh⟩
    rw [hx]
    exact hP

/-- `edgeList` never lists the same pixel twice: the four edges are
internally duplicate-free and pairwise disjoint (the rows live at distinct
heights, the columns at distinct widths and strictly between the rows). -/
theorem edgeList_nodup (sw sh rx ry w h : Nat) :
    (edgeList sw sh rx ry w h).Nodup := by
  unfold edgeList
  rw [List.nodup_append, List.nodup_append, List.nodup_append]
  refine ⟨⟨⟨nodup_row_list sw sh rx ry w,
    nodup_if_list (nodup_row_list sw sh rx (ry + h - 1) w), ?_⟩,
    nodup_col_list (rx < sw) sh ry rx (h - 1 - 1), ?_⟩,
    nodup_if_list (nodup_col_list (rx + w - 1 < sw) sh ry (rx + w - 1) (h - 1 - 1)), ?_⟩
  · intro a haA haB
    obtain ⟨_, hyA, _⟩ := mem_row_list haA
    obtain ⟨hh1, haB2⟩ := mem_if_list haB
    obtain ⟨_, hyB, _⟩ := mem_row_list haB2
    omega
  · intro a haAB haC
    obtain ⟨_, _, _, py, hpy1, hpy2, hya⟩ := mem_col_list haC
    rw [List.mem_append] at haAB
    rcases haAB with haA | haB
    · obtain ⟨_, hyA, _⟩ := mem_row_list haA
      omega
    · obtain ⟨hh1, haB2⟩ := mem_if_list haB
      obtain ⟨_, hyB, _⟩ := mem_row_list haB2
      omega
  · intro a haABC haD
    obtain ⟨hw1, haD2⟩ := mem_if_list haD
    obtain ⟨_, hxD, _, py, hpy1, hpy2, hya⟩ := mem_col_list haD2
    rw [List.mem_append] at haABC
    rcases haABC with haAB | haC
    · rw [List.mem_append] at haAB
      rcases haAB with haA | haB
      · obtain ⟨_, hyA, _⟩ := mem_row_list haA
        omega
      · obtain ⟨hh1, haB2⟩ := mem_if_list haB
        obtain ⟨_, hyB, _⟩ := mem_row_list haB2
        omega
    · obtain ⟨_, hxC, _, qy, hqy1, hqy2, hya2⟩ := mem_col_list haC
      omega

/-- `edgeList` pixels have pairwise distinct byte offsets once the screen
width fits in the stride. -/
theorem edgeList_pairwise_offsets (sw sh rx ry w h st : Nat) (hws : sw ≤ st) :
    List.Pairwise (fun (a b : Nat × Nat) => a.2 * st + a.1 ≠ b.2 * st + b.1)
      (edgeList sw sh rx ry w h) := by
  refine pairwise_offsets st _ ?_ (edgeList_nodup sw sh rx ry w h)
  intro d hd
  exact lt_of_lt_of_le (edgeList_mem_bounds sw sh rx ry w h d hd).1 hws

/-- In double-buffered mode a toggle never touches the framebuffer. -/
theorem xorStep_fb_db (s : Screen) (x y : Nat) (h1 : s.use_back_buffer = true)
    (h2 : s.bbLen ≠ 0) : (xorStep s x y).fb = s.fb := by
  unfold xorStep write_pixel
  cases hc : color_to_bytes (read_pixel s x y ^^^ 0x00FFFFFF) s.pixel_format with
  | none => rfl
  | some bs =>
    simp only
    split
    · rfl
    · unfold write_to_buffer
      simp only
      rw [if_pos ⟨h1, h2⟩]
      split
      · rfl
      · rfl

/-- In double-buffered mode a toggle fold never touches the
framebuffer. -/
theorem fold_fb_db (L : List (Nat × Nat)) (s : Screen) (h1 : s.use_back_buffer = true)
    (h2 : s.bbLen ≠ 0) : (L.foldl (fun t d => xorStep t d.1 d.2) s).fb = s.fb := by
  suffices H : (L.foldl (fun t d => xorStep t d.1 d.2) s).fb = s.fb
      ∧ (L.foldl (fun t d => xorStep t d.1 d.2) s).use_back_buffer = true
      ∧ (L.foldl (fun t d => xorStep t d.1 d.2) s).bbLen = s.bbLen from H.1
  refine foldl_inv (P := fun (t : Screen) => t.fb = s.fb ∧ t.use_back_buffer = true
    ∧ t.bbLen = s.bbLen) _ ?_ _ _ ⟨rfl, h1, rfl⟩
  intro t d ht
  obtain ⟨g1, g2, g3, g4, g5, g6, g7, g8⟩ := xorStep_shape0 t d.1 d.2
  refine ⟨?_, g8.trans ht.2.1, g7.trans ht.2.2⟩
  refine (xorStep_fb_db t d.1 d.2 ht.2.1 ?_).trans ht.1
  rw [ht.2.2]
  exact h2

end Disp

set_option maxRecDepth 16384 in
/-- C8 counterexample: with double buffering enabled, two identical
`draw_xor_outline` calls do not restore the back buffer. The toggle always
reads via `read_pixel`, which reads the *framebuffer*; on a 1×1
double-buffered screen the second call therefore writes `255` to back
buffer byte 0 again instead of undoing the first call, so the back buffer
pixel is not exactly as it was before the first call. -/
theorem xor_outline_back_buffer_counterexample :
    Disp.oneByOneDB.bb 0 = 0
    ∧ (Disp.draw_xor_outline (Disp.draw_xor_outline Disp.oneByOneDB
        ⟨0, 0, 1, 1⟩) ⟨0, 0, 1, 1⟩).bb 0 = 255 := by
  constructor
  · rfl
  · rfl

/-- C8 (amended): drawing the same in-range non-negative rectangle twice
restores the screen as `read_pixel` sees it, but only in direct mode: with
double buffering off, a `bgr` or `rgb` 4-byte format, the width within the
stride, the pixel span inside the framebuffer and byte-valued framebuffer
contents, every `read_pixel` value after the two calls equals its value
before the first. With double buffering on (non-empty back buffer), the
two calls leave the framebuffer untouched, but the back buffer is not
restored (see the counterexample). -/
theorem xor_outline_involution_amended (s : Disp.Screen) (rx ry w h : Nat)
    (hxw : rx + w < 2 ^ 31) (hyh : ry + h < 2 ^ 31) :
    (s.use_back_buffer = false →
      (s.pixel_format = Disp.PixelFormat.bgr ∨ s.pixel_format = Disp.PixelFormat.rgb) →
      s.bytes_per_pixel = 4 → s.width ≤ s.stride →
      s.stride * s.height * 4 ≤ s.fbLen → (∀ i, s.fb i < 256) →
      ∀ x y, Disp.read_pixel
          (Disp.draw_xor_outline (Disp.draw_xor_outline s ⟨(rx : Int), (ry : Int), w, h⟩)
            ⟨(rx : Int), (ry : Int), w, h⟩) x y = Disp.read_pixel s x y)
    ∧ (s.use_back_buffer = true → s.bbLen ≠ 0 →
      (Disp.draw_xor_outline (Disp.draw_xor_outline s ⟨(rx : Int), (ry : Int), w, h⟩)
          ⟨(rx : Int), (ry : Int), w, h⟩).fb = s.fb) := by
  constructor
  · intro hbb hfmt hbpp hws hlen hfbok x y
    rw [Disp.draw_as_fold s rx ry w h hxw hyh]
    obtain ⟨q1, q2, q3, q4, q5, q6, q7, q8⟩ :=
      Disp.fold_shape (Disp.edgeList s.width s.height rx ry w h) s
    rw [Disp.draw_as_fold _ rx ry w h hxw hyh, q1, q2]
    refine Disp.read_pixel_pixEquiv s _ ?_ hbpp x y
    refine Disp.fold_double s.stride s.fbLen _ s hbb hfmt hbpp rfl rfl hfbok ?_ ?_
    · intro d hd
      obtain ⟨hdx, hdy⟩ := Disp.edgeList_mem_bounds s.width s.height rx ry w h d hd
      exact Disp.offset_bound s.stride s.height s.fbLen d.1 d.2
        (lt_of_lt_of_le hdx hws) hdy hlen
    · exact Disp.edgeList_pairwise_offsets s.width s.height rx ry w h s.stride hws
  · intro hbb hnz
    rw [Disp.draw_as_fold s rx ry w h hxw hyh]
    obtain ⟨q1, q2, q3, q4, q5, q6, q7, q8⟩ :=
      Disp.fold_shape (Disp.edgeList s.width s.height rx ry w h) s
    rw [Disp.draw_as_fold _ rx ry w h hxw hyh, q1, q2]
    rw [Disp.fold_fb_db _ _ (q8.trans hbb) (by rw [q7]; exact hnz),
      Disp.fold_fb_db _ _ hbb hnz]

/-- C8 witness: the amended statement at concrete 1×1 screens — in direct
mode the double draw restores `read_pixel 0 0`, and in double-buffered
mode it leaves framebuffer byte 0 (hence the whole framebuffer map)
unchanged. -/
theorem xor_outline_involution_amended_witness :
    (Disp.read_pixel (Disp.draw_xor_outline (Disp.draw_xor_outline Disp.oneByOne
        ⟨((0 : Nat) : Int), ((0 : Nat) : Int), 1, 1⟩)
        ⟨((0 : Nat) : Int), ((0 : Nat) : Int), 1, 1⟩) 0 0
      = Disp.read_pixel Disp.oneByOne 0 0)
    ∧ ((Disp.draw_xor_outline (Disp.draw_xor_outline Disp.oneByOneDB
        ⟨((0 : Nat) : Int), ((0 : Nat) : Int), 1, 1⟩)
        ⟨((0 : Nat) : Int), ((0 : Nat) : Int), 1, 1⟩).fb
      = Disp.oneByOneDB.fb) := by
  constructor
  · exact (xor_outline_involution_amended Disp.oneByOne 0 0 1 1 (by decide) (by decide)).1
      rfl (Or.inl rfl) rfl (by decide) (by decide)
      (fun i => show (0 : Nat) < 256 by decide) 0 0
  · exact (xor_outline_involution_amended Disp.oneByOneDB 0 0 1 1 (by decide) (by decide)).2
      rfl (by decide)
